import Mathlib

/-!
# EcoGrid — formal model of the hierarchical routing / capacity / load core

This file is a shallow embedding, in Lean 4, of the core of the EcoGrid
backend (the logical parent/child forest index, the cost-based parent
selection, the load aggregation and the overload / recovery logic), together
with theorems settling the specification claims about that core.

Modelling conventions:

* Python `dict`s (which preserve insertion order) are modelled as
  association lists `List (String × α)`; the helpers `dget`, `dset`,
  `dsetdefault`, `dmodify`, `dremoveKey` mirror `d.get`, `d[k] = v`,
  `d.setdefault`, in-place mutation of a stored value, and `d.pop`.
* Python floats are modelled as rationals (`ℚ`), with real-number
  semantics for arithmetic; the only irrational constant in the code,
  `math.sqrt(3.0)`, occurs squared, so the loss formula is exact in `ℚ`.
* `None`-able numeric fields are `Option ℚ`.
* Python functions that can loop forever (upward load propagation on a
  cyclic parent map) are modelled with a fuel argument returning `none`
  exactly when the Python code would not terminate; the fuel
  `idx.parent.length + 1` is sufficient for every terminating run, because
  a terminating parent chain never repeats a node and therefore takes at
  most one step per entry of the parent map.
* The transient log buffer is presentation-only (spec §6: a drain-on-read
  side channel) and is not part of the modelled state.
-/

set_option allowUnsafeReducibility true

attribute [local semireducible] Rat.add Rat.mul Rat.div Rat.sub Rat.neg Rat.inv Rat.blt
  Rat.normalize Rat.maybeNormalize Rat.divInt

namespace EcoGrid

/-! ## Ordered-dictionary helpers (Python `dict` semantics on assoc lists) -/

/-- `d.get(k)`: value of the first entry with key `k`, if any. -/
def dget {α : Type} (m : List (String × α)) (k : String) : Option α :=
  match m with
  | [] => none
  | (k', v) :: rest => if k = k' then some v else dget rest k

/-- `d[k] = v`: overwrite the entry in place, or append a new one. -/
def dset {α : Type} (m : List (String × α)) (k : String) (v : α) : List (String × α) :=
  match m with
  | [] => [(k, v)]
  | (k', v') :: rest => if k = k' then (k', v) :: rest else (k', v') :: dset rest k v

/-- `d.setdefault(k, v)`: insert `(k, v)` only when the key is absent. -/
def dsetdefault {α : Type} (m : List (String × α)) (k : String) (v : α) : List (String × α) :=
  match m with
  | [] => [(k, v)]
  | (k', v') :: rest => if k = k' then (k', v') :: rest else (k', v') :: dsetdefault rest k v

/-- In-place mutation of the stored value (`d[k].mutate()`); a no-op when
the key is absent, mirroring mutation of the fresh list `d.get(k, [])`. -/
def dmodify {α : Type} (m : List (String × α)) (k : String) (f : α → α) : List (String × α) :=
  match m with
  | [] => []
  | (k', v') :: rest => if k = k' then (k', f v') :: rest else (k', v') :: dmodify rest k f

/-- `d.pop(k, None)`: drop the entry with key `k`. -/
def dremoveKey {α : Type} (m : List (String × α)) (k : String) : List (String × α) :=
  match m with
  | [] => []
  | (k', v') :: rest => if k = k' then rest else (k', v') :: dremoveKey rest k

/-- The keys of the dictionary, in insertion order. -/
def dkeys {α : Type} (m : List (String × α)) : List String :=
  m.map Prod.fst

/-! ## Data model (`core/models.py`) -/

/-- `NodeType` (`core/models.py`). -/
inductive NodeType : Type
  | GENERATION_PLANT
  | TRANSMISSION_SUBSTATION
  | DISTRIBUTION_SUBSTATION
  | CONSUMER_POINT
deriving DecidableEq, Repr

/-- `EdgeType` (`core/models.py`). -/
inductive EdgeType : Type
  | TRANSMISSION_SEGMENT
  | MV_DISTRIBUTION_SEGMENT
  | LV_DISTRIBUTION_SEGMENT
deriving DecidableEq, Repr

/-- `Node` dataclass (`core/models.py`); floats are rationals here. -/
structure Node : Type where
  id : String
  node_type : NodeType
  position_x : ℚ
  position_y : ℚ
  cluster_id : Option ℤ := none
  nominal_voltage : Option ℚ := none
  capacity : Option ℚ := none
  current_load : Option ℚ := none
  energy_loss_pct : Option ℚ := none
deriving DecidableEq, Repr

/-- `Edge` dataclass (`core/models.py`). -/
structure Edge : Type where
  id : String
  edge_type : EdgeType
  from_node_id : String
  to_node_id : String
  length : ℚ
deriving DecidableEq, Repr

/-! ## Physical graph (`core/graph_core.py`)

Only the pieces the logical core uses: the `nodes` and `edges` dictionaries
and the `adjacency` map (edge-id sets per node, kept for faithfulness to
`add_node`/`add_edge`, although the routing code builds its own adjacency).
-/

structure PowerGridGraph : Type where
  nodes : List (String × Node)
  edges : List (String × Edge)
  adjacency : List (String × List String)
deriving DecidableEq, Repr

namespace PowerGridGraph

/-- `PowerGridGraph.get_node`. -/
def get_node (g : PowerGridGraph) (node_id : String) : Option Node :=
  dget g.nodes node_id

/-- `PowerGridGraph.add_node` (replaces an existing node of the same id;
creates an empty adjacency entry when absent). -/
def add_node (g : PowerGridGraph) (node : Node) : PowerGridGraph :=
  { g with
    nodes := dset g.nodes node.id node
    adjacency := dsetdefault g.adjacency node.id [] }

/-- `PowerGridGraph.add_edge`; `none` models the `KeyError` raised when an
endpoint is not a registered node. -/
def add_edge (g : PowerGridGraph) (edge : Edge) : Option PowerGridGraph :=
  if (dget g.nodes edge.from_node_id).isNone then none
  else if (dget g.nodes edge.to_node_id).isNone then none
  else some
    { g with
      edges := dset g.edges edge.id edge
      adjacency :=
        let a1 := dsetdefault g.adjacency edge.from_node_id []
        let a2 := dsetdefault a1 edge.to_node_id []
        let a3 := dmodify a2 edge.from_node_id
          (fun l => if edge.id ∈ l then l else l ++ [edge.id])
        dmodify a3 edge.to_node_id
          (fun l => if edge.id ∈ l then l else l ++ [edge.id]) }

/-- Replace the stored record of an existing node (Python mutates the shared
`Node` object in place; here we rewrite the entry). -/
def mutate_node (g : PowerGridGraph) (node_id : String) (f : Node → Node) : PowerGridGraph :=
  { g with nodes := dmodify g.nodes node_id f }

end PowerGridGraph

/-! ## Logical index (`logic/bplus_index.py`) -/

/-- `BPlusIndex`: `_parent` maps node id to `Option` parent id (a stored
`None` means "root", a missing key means "not registered"); `_children`
maps node id to the ordered list of direct children. -/
structure BPlusIndex : Type where
  parent : List (String × Option String)
  children : List (String × List String)
deriving DecidableEq, Repr

namespace BPlusIndex

/-- The empty index. -/
def empty : BPlusIndex := ⟨[], []⟩

/-- `BPlusIndex.get_parent`: `self._parent.get(node_id)` — `None` both for
roots and for unregistered nodes. -/
def get_parent (idx : BPlusIndex) (node_id : String) : Option String :=
  (dget idx.parent node_id).join

/-- `BPlusIndex.get_children`. -/
def get_children (idx : BPlusIndex) (node_id : String) : List String :=
  (dget idx.children node_id).getD []

/-- `BPlusIndex.get_roots`: ids whose stored parent is `None`, in insertion
order of `_parent`. -/
def get_roots (idx : BPlusIndex) : List String :=
  idx.parent.filterMap (fun p => if p.2 = none then some p.1 else none)

/-- `BPlusIndex.add_root`. -/
def add_root (idx : BPlusIndex) (node_id : String) : BPlusIndex :=
  { parent := dset idx.parent node_id none
    children := dsetdefault idx.children node_id [] }

/-- `BPlusIndex.set_parent`.  As documented in the source, this performs the
update unconditionally: it does **not** check for cycles. -/
def set_parent (idx : BPlusIndex) (child_id : String) (parent_id : Option String) :
    BPlusIndex :=
  let old_parent := (dget idx.parent child_id).join
  -- remove the child from the previous parent's list, if any
  let children0 :=
    match old_parent with
    | none => idx.children
    | some op => dmodify idx.children op (fun l => l.erase child_id)
  let parent1 := dset idx.parent child_id parent_id
  let children1 := dsetdefault children0 child_id []
  match parent_id with
  | none => { parent := parent1, children := children1 }
  | some pid =>
      let children2 := dsetdefault children1 pid []
      { parent := parent1
        children := dmodify children2 pid
          (fun l => if child_id ∈ l then l else l ++ [child_id]) }

end BPlusIndex

namespace BPlusIndex

/-- Termination potential of the `_is_descendant` DFS: each unvisited key
of the child map can be expanded at most once, costing one pop plus one
push per listed child. -/
def descPotential (children : List (String × List String)) (visited : List String) : ℕ :=
  ∑ k ∈ ((dkeys children).toFinset \ visited.toFinset),
    (1 + ((dget children k).getD []).length)

/-- `BPlusIndex._is_descendant`, the iterative stack-based DFS over child
lists with a visited set.  The Python loop checks each child against the
target while pushing; since it returns `True` as soon as any child matches,
this is folded into a membership test on the popped node's child list.
The fuel makes the definition structural (hence kernel-computable); `none`
is returned only on exhaustion, which the fuel chosen in `_is_descendant`
rules out (each iteration strictly decreases
`stack.length + descPotential children visited`). -/
def _is_descendant_aux (children : List (String × List String)) (target : String) :
    ℕ → List String → List String → Option Bool
  | 0, _, _ => none
  | _ + 1, [], _ => some false
  | fuel + 1, current :: rest, visited =>
    if current ∈ visited then _is_descendant_aux children target fuel rest visited
    else
      -- `self._children.get(current, [])`
      let cs := (dget children current).getD []
      if target ∈ cs then some true
      else _is_descendant_aux children target fuel (cs.reverse ++ rest) (current :: visited)

/-- `BPlusIndex._is_descendant`. -/
def _is_descendant (idx : BPlusIndex) (ancestor_id possible_descendant_id : String) : Bool :=
  (_is_descendant_aux idx.children possible_descendant_id
      (2 + descPotential idx.children []) [ancestor_id] []).getD false

/-- `BPlusIndex.move_subtree`: refuses (no-op) to make a node a child of
itself or of one of its descendants, then delegates to `set_parent`. -/
def move_subtree (idx : BPlusIndex) (subtree_root_id : String)
    (new_parent_id : Option String) : BPlusIndex :=
  if some subtree_root_id = new_parent_id then idx
  else
    match new_parent_id with
    | some npid =>
        if _is_descendant idx subtree_root_id npid then idx
        else set_parent idx subtree_root_id new_parent_id
    | none => set_parent idx subtree_root_id new_parent_id

/-- `BPlusIndex.detach_node`. -/
def detach_node (idx : BPlusIndex) (node_id : String) : BPlusIndex :=
  match dget idx.parent node_id with
  | none => idx
  | some current_parent =>
      let children' :=
        match current_parent with
        | none => idx.children
        | some cp => dmodify idx.children cp (fun l => l.erase node_id)
      { parent := dset idx.parent node_id none, children := children' }

/-- `BPlusIndex.remove_node`. -/
def remove_node (idx : BPlusIndex) (node_id : String) : BPlusIndex :=
  if (dget idx.parent node_id).isNone ∧ (dget idx.children node_id).isNone then idx
  else
    let parent_id := (dget idx.parent node_id).join
    let children0 :=
      match parent_id with
      | none => idx.children
      | some pid => dmodify idx.children pid (fun l => l.erase node_id)
    let parent0 := idx.parent.map
      (fun p => if p.2 = some node_id then (p.1, none) else p)
    { parent := dremoveKey parent0 node_id
      children := dremoveKey children0 node_id }

end BPlusIndex

/-! ## Numeric helpers for Python truthiness -/

/-- `x or 0.0` on a `None`-able float. -/
def loadOr0 (o : Option ℚ) : ℚ := o.getD 0

/-- `float(x or 1.0)` on a `None`-able float: `None` and `0.0` are falsy and
give `1.0`; every other value (negative included) is kept. -/
def loadOr1 (o : Option ℚ) : ℚ :=
  match o with
  | none => 1
  | some l => if l = 0 then 1 else l

/-! ## Edge cost (`physical/energy_loss.py`)

The spec (§1, §6) treats this module as an external supplied cost function;
it is embedded here exactly, with real-number semantics: the only
irrational constant, `math.sqrt(3.0)`, appears squared
(`(P / (√3·V))² · R = P²·R / (3·V²)`), so all values are rational. -/

/-- Aluminium resistivity `2.82e-8` ohm·m. -/
def RHO_ALUMINIUM : ℚ := 282 / 10 ^ 10

/-- Voltage level labels `"HV" | "MV" | "LV"`. -/
inductive VoltageLevel : Type
  | HV
  | MV
  | LV
deriving DecidableEq, Repr

/-- `ConductorParams` dataclass. -/
structure ConductorParams : Type where
  resistivity : ℚ
  cross_section_area : ℚ
deriving DecidableEq, Repr

/-- `CONDUCTOR_BY_LEVEL` lookup table. -/
def CONDUCTOR_BY_LEVEL : VoltageLevel → ConductorParams
  | .HV => ⟨RHO_ALUMINIUM, 300 / 10 ^ 6⟩
  | .MV => ⟨RHO_ALUMINIUM, 150 / 10 ^ 6⟩
  | .LV => ⟨RHO_ALUMINIUM, 70 / 10 ^ 6⟩

/-- `_infer_edge_voltage`: first non-null `nominal_voltage` of the two
endpoint nodes (`from` first). -/
def _infer_edge_voltage (g : PowerGridGraph) (edge : Edge) : Option ℚ :=
  let c1 := (g.get_node edge.from_node_id).bind (fun n => n.nominal_voltage)
  let c2 := (g.get_node edge.to_node_id).bind (fun n => n.nominal_voltage)
  match c1 with
  | some v => some v
  | none => c2

/-- `_classify_voltage_level`. -/
def _classify_voltage_level (voltage : ℚ) : VoltageLevel :=
  if voltage ≥ 100000 then .HV
  else if voltage ≥ 1000 then .MV
  else .LV

/-- `_edge_resistance` (`edge.length` is a non-`Optional` float in the
dataclass, so the `length is None` guard is vacuous here). -/
def _edge_resistance (g : PowerGridGraph) (edge : Edge) : Option ℚ :=
  let length := edge.length
  if length ≤ 0 then some 0
  else
    match _infer_edge_voltage g edge with
    | none => none
    | some voltage =>
        if voltage ≤ 0 then none
        else
          let params := CONDUCTOR_BY_LEVEL (_classify_voltage_level voltage)
          some (params.resistivity * length / params.cross_section_area)

/-- `estimate_edge_loss`: the routing cost of carrying `power` over `edge`.
With inferable physics, `loss = I²·R` with `I = P/(√3·V)`, i.e. exactly
`P²·R/(3·V²)`; otherwise the `|power| * length` heuristic. -/
def estimate_edge_loss (g : PowerGridGraph) (edge : Edge) (power : ℚ) : ℚ :=
  let length := edge.length
  if power ≤ 0 then 0
  else
    match _infer_edge_voltage g edge, _edge_resistance g edge with
    | some voltage, some resistance =>
        if voltage ≤ 0 then |power| * length
        else
          let power_watts := |power|
          -- kW→W heuristic (Correção 1.4)
          let pw := if power_watts < 10000 ∧ voltage > 1000 then power_watts * 1000
            else power_watts
          pw ^ 2 * resistance / (3 * voltage ^ 2)
    | _, _ => |power| * length

/-! ## Parent selection (`logic/parent_selection.py`) -/

/-- `ParentSelectionResult`; `total_cost = none` models `float("inf")` in
the failure results. -/
structure ParentSelectionResult : Type where
  parent_id : Option String
  total_cost : Option ℚ
  path : List String
deriving DecidableEq, Repr

/-- `_allowed_parent_types_for` — defined identically in
`logic/parent_selection.py` and `logic/logical_graph_service.py`; the
Python sets are modelled as lists used only through membership. -/
def _allowed_parent_types_for (child_type : NodeType) : List NodeType :=
  match child_type with
  | .CONSUMER_POINT => [.DISTRIBUTION_SUBSTATION]
  | .DISTRIBUTION_SUBSTATION => [.TRANSMISSION_SUBSTATION]
  | .TRANSMISSION_SUBSTATION => [.GENERATION_PLANT]
  | .GENERATION_PLANT => []

/-- `_build_edge_adjacency`: `adjacency.setdefault(endpoint, []).append(edge)`
for both endpoints of every edge, in edge-dictionary order. -/
def _build_edge_adjacency (g : PowerGridGraph) : List (String × List Edge) :=
  g.edges.foldl
    (fun adjacency p =>
      let e := p.2
      let a1 := dmodify (dsetdefault adjacency e.from_node_id [])
        e.from_node_id (fun l => l ++ [e])
      dmodify (dsetdefault a1 e.to_node_id []) e.to_node_id (fun l => l ++ [e]))
    []

/-- A priority-queue entry `(accumulated cost, node id, path)`, exactly the
tuples pushed on the Python `heapq`. -/
abbrev QEntry : Type := ℚ × String × List String

/-- Lexicographic comparison of string lists (Python `list` comparison). -/
def pathLE : List String → List String → Bool
  | [], _ => true
  | _ :: _, [] => false
  | a :: as, b :: bs =>
      if a < b then true
      else if b < a then false
      else pathLE as bs

/-- The total order `heapq` uses on entries: Python tuple comparison,
cost first, then node id, then path. -/
def entryLE (x y : QEntry) : Bool :=
  if x.1 < y.1 then true
  else if y.1 < x.1 then false
  else if x.2.1 < y.2.1 then true
  else if y.2.1 < x.2.1 then false
  else pathLE x.2.2 y.2.2

/-- The heap, represented canonically as a list sorted by `entryLE`;
`heappush` is ordered insertion, `heappop` takes the head (the minimum). -/
def qInsert (e : QEntry) : List QEntry → List QEntry
  | [] => [e]
  | x :: xs => if entryLE e x then e :: x :: xs else x :: qInsert e xs

/-- Weight of a key for the termination potential: one pop plus one push
per incident edge. -/
def adjWeight (adjacency : List (String × List Edge)) (k : String) : ℕ :=
  1 + ((dget adjacency k).getD []).length

/-- Termination potential of the Dijkstra loop: total weight of the
adjacency keys not yet visited. -/
def dijkstraPotential (adjacency : List (String × List Edge))
    (visited : List String) : ℕ :=
  ∑ k ∈ ((dkeys adjacency).toFinset \ visited.toFinset), adjWeight adjacency k

/-- The far endpoint of an incident edge as the loop computes it:
`edge.to_node_id if edge.from_node_id == current_id else edge.from_node_id`. -/
def nbrOf (edge : Edge) (current_id : String) : String :=
  if edge.from_node_id = current_id then edge.to_node_id else edge.from_node_id

/-- The body of the neighbour-push loop: skip already-visited neighbours
and neighbours missing from the node dictionary, otherwise push
`(cost + edge cost, neighbour, path + [neighbour])`. -/
def pushEntry (g : PowerGridGraph) (power : ℚ) (visited' : List String)
    (cost : ℚ) (path : List String) (current_id : String) (edge : Edge) :
    Option QEntry :=
  let neighbor_id := nbrOf edge current_id
  if neighbor_id ∈ visited' then none
  else
    match g.get_node neighbor_id with
    | none => none
    | some _ =>
        let edge_cost := estimate_edge_loss g edge power
        some (cost + edge_cost, neighbor_id, path ++ [neighbor_id])

/-- The Dijkstra loop of `find_best_parent_for_node`.  A fuel argument
makes the definition structural (and kernel-computable); `none` is returned
only on fuel exhaustion, which the fuel chosen in
`find_best_parent_for_node` provably rules out (each iteration strictly
decreases `queue.length + dijkstraPotential adjacency visited`). -/
def dijkstra_aux (g : PowerGridGraph) (adjacency : List (String × List Edge))
    (candidate_parents : List String) (power : ℚ) :
    ℕ → List QEntry → List String → Option ParentSelectionResult
  | 0, _, _ => none
  | _ + 1, [], _ => some ⟨none, none, []⟩
  | fuel + 1, (cost, current_id, path) :: heap, visited =>
    if current_id ∈ visited then
      dijkstra_aux g adjacency candidate_parents power fuel heap visited
    else
      let visited' := current_id :: visited
      if current_id ∈ candidate_parents then
        some ⟨some current_id, some cost, path⟩
      else
        let pushes := ((dget adjacency current_id).getD []).filterMap
          (pushEntry g power visited' cost path current_id)
        dijkstra_aux g adjacency candidate_parents power fuel
          (pushes.foldl (fun q e => qInsert e q) heap) visited'

/-- Sufficient fuel for `dijkstra_aux` on the initial singleton queue. -/
def dijkstra_fuel (adjacency : List (String × List Edge)) : ℕ :=
  2 + dijkstraPotential adjacency []

/-- `find_best_parent_for_node`. -/
def find_best_parent_for_node (g : PowerGridGraph) (child_id : String) :
    ParentSelectionResult :=
  match g.get_node child_id with
  | none => ⟨none, none, []⟩
  | some child =>
    let allowed_parent_types := _allowed_parent_types_for child.node_type
    if allowed_parent_types = [] then ⟨none, none, []⟩
    else
      let power_for_routing := loadOr1 child.current_load
      let candidate_parents := (g.nodes.filter
        (fun p => decide (p.1 ≠ child_id) && decide (p.2.node_type ∈ allowed_parent_types))).map
        Prod.fst
      if candidate_parents = [] then ⟨none, none, []⟩
      else
        let adjacency := _build_edge_adjacency g
        (dijkstra_aux g adjacency candidate_parents power_for_routing
            (dijkstra_fuel adjacency) [(0, child_id, [child_id])] []).getD
          ⟨none, none, []⟩

/-- A walk over the physical graph, exactly as the Dijkstra loop explores
it: start at `src` with path `[src]` and cost `0`; from a node `y`, follow
any stored edge incident to `y` to its far endpoint (which must itself be
a registered node), adding `estimate_edge_loss` at the routing power and
appending the endpoint to the path. -/
inductive RWalk (g : PowerGridGraph) (power : ℚ) (src : String) :
    String → List String → ℚ → Prop
  | base : RWalk g power src src [src] 0
  | step {y b : String} {p : List String} {c : ℚ} (hw : RWalk g power src y p c)
      (e : Edge) (hmem : ∃ k, (k, e) ∈ g.edges)
      (hinc : e.from_node_id = y ∨ e.to_node_id = y)
      (hb : b = nbrOf e y)
      (hex : (g.get_node b).isSome = true) :
      RWalk g power src b (p ++ [b]) (c + estimate_edge_loss g e power)

/-! ## Load aggregation (`logic/load_aggregation.py`) -/

/-- `recompute_node_load_from_children`: set a node's `current_load` to the
sum of its logical children's loads (`None` loads count as `0`, children
missing from the physical graph are skipped); a no-op when the node itself
is missing.  The Python float return value is unused by the modelled
callers and dropped here. -/
def recompute_node_load_from_children (node_id : String) (g : PowerGridGraph)
    (idx : BPlusIndex) : PowerGridGraph :=
  match g.get_node node_id with
  | none => g
  | some _ =>
    let children_ids := idx.get_children node_id
    let total_load := (children_ids.map
      (fun cid =>
        match g.get_node cid with
        | none => 0
        | some child_node => loadOr0 child_node.current_load)).sum
    g.mutate_node node_id (fun n => { n with current_load := some total_load })

/-- `propagate_load_upwards`: walk parent links from `start`, recomputing
each ancestor from its children.  The Python `while True` loop does not
terminate on a cyclic parent chain; the fuel (`propagation_fuel` below)
covers every terminating chain, so `none` models exactly the diverging
runs. -/
def propagate_load_upwards :
    ℕ → String → PowerGridGraph → BPlusIndex → Option PowerGridGraph
  | 0, _, _, _ => none
  | fuel + 1, current_id, g, idx =>
    match idx.get_parent current_id with
    | none => some g
    | some parent_id =>
        propagate_load_upwards fuel parent_id
          (recompute_node_load_from_children parent_id g idx) idx

/-- A terminating parent chain never repeats a node, hence takes at most
one step per entry of the parent map. -/
def propagation_fuel (idx : BPlusIndex) : ℕ :=
  idx.parent.length + 1

/-! ## The routing service (`logic/logical_graph_service.py`)

`ServiceState` is the mutable state of `LogicalGraphService` (shared
`PowerGridGraph`, shared `BPlusIndex`, `unsupplied_consumers`); the log
buffer is presentation-only and omitted.  Operations return
`Option`-wrapped results: `none` models a run of the Python code that
never returns (upward load propagation looping on a cyclic parent chain).
-/

structure ServiceState : Type where
  graph : PowerGridGraph
  index : BPlusIndex
  unsupplied_consumers : Finset String
deriving DecidableEq

/-- `ChangeParentResult`; `total_cost = none` models `float("inf")`, and
`reason` is the literal message string of the source. -/
structure ChangeParentResult : Type where
  success : Bool
  child_id : String
  old_parent_id : Option String
  new_parent_id : Option String
  total_cost : Option ℚ
  reason : String
  path : List String
deriving DecidableEq, Repr

/-- `_has_capacity_for_child` (`logic/logical_graph_service.py`). -/
def _has_capacity_for_child (parent child : Node) : Bool :=
  match parent.capacity with
  | none => true
  | some cap =>
      let child_load := loadOr0 child.current_load
      let parent_load := loadOr0 parent.current_load
      decide (parent_load + child_load ≤ cap)

/-- `LogicalGraphService.change_parent_with_routing`. -/
def change_parent_with_routing (s : ServiceState) (child_id : String) :
    Option (ChangeParentResult × ServiceState) :=
  match s.graph.get_node child_id with
  | none =>
      some (⟨false, child_id, none, none, none, "child node not found", []⟩, s)
  | some child =>
    let old_parent_id := s.index.get_parent child_id
    let ps := find_best_parent_for_node s.graph child_id
    match ps.parent_id with
    | none =>
        let s' :=
          if child.node_type = .CONSUMER_POINT then
            { s with unsupplied_consumers := insert child_id s.unsupplied_consumers }
          else s
        some (⟨false, child_id, old_parent_id, none, none,
          "no compatible parent found via routing", []⟩, s')
    | some new_parent_id =>
      if old_parent_id = some new_parent_id then
        some (⟨true, child_id, old_parent_id, some new_parent_id, ps.total_cost,
          "parent unchanged (best parent is current parent)", ps.path⟩, s)
      else
        match s.graph.get_node new_parent_id with
        | none =>
            some (⟨false, child_id, old_parent_id, none, none,
              "new parent node not found", ps.path⟩, s)
        | some new_parent =>
          if ¬ _has_capacity_for_child new_parent child then
            let s' :=
              if child.node_type = .CONSUMER_POINT then
                { s with unsupplied_consumers := insert child_id s.unsupplied_consumers }
              else s
            some (⟨false, child_id, old_parent_id, some new_parent_id, ps.total_cost,
              "new parent has insufficient capacity", ps.path⟩, s')
          else
            let idx' := s.index.set_parent child_id (some new_parent_id)
            let step1 : Option PowerGridGraph :=
              match old_parent_id with
              | none => some s.graph
              | some op =>
                  propagate_load_upwards (propagation_fuel idx') op
                    (recompute_node_load_from_children op s.graph idx') idx'
            match step1 with
            | none => none
            | some g2 =>
              match propagate_load_upwards (propagation_fuel idx') new_parent_id
                  (recompute_node_load_from_children new_parent_id g2 idx') idx' with
              | none => none
              | some g4 =>
                let uns :=
                  if child.node_type = .CONSUMER_POINT then
                    s.unsupplied_consumers.erase child_id
                  else s.unsupplied_consumers
                some (⟨true, child_id, old_parent_id, some new_parent_id, ps.total_cost,
                  "parent changed via routing", ps.path⟩, ⟨g4, idx', uns⟩)

/-- `LogicalGraphService.force_change_parent`. -/
def force_change_parent (s : ServiceState) (child_id new_parent_id : String) :
    Option (ChangeParentResult × ServiceState) :=
  match s.graph.get_node child_id with
  | none =>
      some (⟨false, child_id, none, none, none, "child node not found", []⟩, s)
  | some child =>
    let old_parent_id := s.index.get_parent child_id
    match s.graph.get_node new_parent_id with
    | none =>
        some (⟨false, child_id, old_parent_id, none, none,
          "new parent node not found", []⟩, s)
    | some new_parent =>
      if new_parent.node_type ∉ _allowed_parent_types_for child.node_type then
        some (⟨false, child_id, old_parent_id, some new_parent_id, none,
          "incompatible parent type", []⟩, s)
      else if ¬ _has_capacity_for_child new_parent child then
        some (⟨false, child_id, old_parent_id, some new_parent_id, none,
          "new parent has insufficient capacity", []⟩, s)
      else if old_parent_id = some new_parent_id then
        some (⟨true, child_id, old_parent_id, some new_parent_id, some 0,
          "parent unchanged (forced parent is current parent)", []⟩, s)
      else
        let idx' := s.index.set_parent child_id (some new_parent_id)
        let step1 : Option PowerGridGraph :=
          match old_parent_id with
          | none => some s.graph
          | some op =>
              propagate_load_upwards (propagation_fuel idx') op
                (recompute_node_load_from_children op s.graph idx') idx'
        match step1 with
        | none => none
        | some g2 =>
          match propagate_load_upwards (propagation_fuel idx') new_parent_id
              (recompute_node_load_from_children new_parent_id g2 idx') idx' with
          | none => none
          | some g4 =>
            let uns :=
              if child.node_type = .CONSUMER_POINT then
                s.unsupplied_consumers.erase child_id
              else s.unsupplied_consumers
            some (⟨true, child_id, old_parent_id, some new_parent_id, some 0,
              "parent changed by force", []⟩, ⟨g4, idx', uns⟩)

/-- The shedding loop of `handle_overload`, iterating over the (shuffled)
copy of the overloaded node's child list.  `none` in the load/capacity
match models the `TypeError` a `None` comparison would raise; it is
unreachable from `handle_overload`, which checks both fields first and
whose recomputations always store a number. -/
def shed_children (node_id : String) :
    List String → ServiceState → Option ServiceState
  | [], s => some s
  | child_id :: rest, s =>
    match s.graph.get_node node_id with
    | none => none
    | some node =>
      match node.current_load, node.capacity with
      | some load, some cap =>
        if load ≤ cap then some s
        else
          match s.graph.get_node child_id with
          | none => shed_children node_id rest s
          | some child =>
            let idx' := s.index.detach_node child_id
            let uns :=
              if child.node_type = .CONSUMER_POINT then
                insert child_id s.unsupplied_consumers
              else s.unsupplied_consumers
            match propagate_load_upwards (propagation_fuel idx') node_id
                (recompute_node_load_from_children node_id s.graph idx') idx' with
            | none => none
            | some g2 => shed_children node_id rest ⟨g2, idx', uns⟩
      | _, _ => none

/-- `LogicalGraphService.handle_overload`.  `order` stands for the result
of `random.shuffle` on the copied child list; theorems quantify over every
permutation. -/
def handle_overload (s : ServiceState) (node_id : String) (order : List String) :
    Option ServiceState :=
  match s.graph.get_node node_id with
  | none => some s
  | some node =>
    match node.capacity, node.current_load with
    | some cap, some load =>
        if load ≤ cap then some s
        else shed_children node_id order s
    | _, _ => some s

/-- `routing_priority` (the hierarchy priority used by both
`retry_unsupplied_routing` and `hydrate_from_physical`). -/
def routing_priority (n : Node) : ℕ :=
  match n.node_type with
  | .TRANSMISSION_SUBSTATION => 1
  | .DISTRIBUTION_SUBSTATION => 2
  | .CONSUMER_POINT => 3
  | _ => 99

/-- The re-attachment loop of `retry_unsupplied_routing`. -/
def retry_loop : List Node → ServiceState → Option ServiceState
  | [], s => some s
  | node :: rest, s =>
    match change_parent_with_routing s node.id with
    | none => none
    | some (result, s') =>
      let s'' :=
        if result.success then
          if node.node_type = .CONSUMER_POINT then
            { s' with unsupplied_consumers := s'.unsupplied_consumers.erase node.id }
          else s'
        else
          if node.node_type = .CONSUMER_POINT then
            { s' with unsupplied_consumers := insert node.id s'.unsupplied_consumers }
          else s'
      retry_loop rest s''

/-- The orphan scan of `retry_unsupplied_routing`: every non-plant node of
the graph with no logical parent, in graph order. -/
def orphan_nodes (s : ServiceState) : List Node :=
  (s.graph.nodes.map Prod.snd).filter
    (fun n => decide (n.node_type ≠ .GENERATION_PLANT) &&
      decide (s.index.get_parent n.id = none))

/-- `LogicalGraphService.retry_unsupplied_routing`: scan for orphans, sort
them stably by hierarchy priority (Python `list.sort` is stable, as is
`List.mergeSort`), and re-attempt routing for each. -/
def retry_unsupplied_routing (s : ServiceState) : Option ServiceState :=
  retry_loop
    ((orphan_nodes s).mergeSort
      (fun a b => decide (routing_priority a ≤ routing_priority b))) s

/-- The preventive detach loop of `check_system_health` (step 1); the
Python guard `if not parent_id` also treats the empty string as falsy. -/
def health_detach_loop : List String → ServiceState → Option ServiceState
  | [], s => some s
  | node_id :: rest, s =>
    match s.index.get_parent node_id with
    | none => health_detach_loop rest s
    | some parent_id =>
      if parent_id = "" then health_detach_loop rest s
      else
        match s.graph.get_node parent_id with
        | none => health_detach_loop rest s
        | some parent =>
          match parent.capacity, parent.current_load with
          | some cap, some pload =>
            if pload > cap then
              let idx' := s.index.detach_node node_id
              let uns :=
                match s.graph.get_node node_id with
                | some n =>
                    if n.node_type = .CONSUMER_POINT then
                      insert node_id s.unsupplied_consumers
                    else s.unsupplied_consumers
                | none => s.unsupplied_consumers
              match propagate_load_upwards (propagation_fuel idx') parent_id
                  (recompute_node_load_from_children parent_id s.graph idx') idx' with
              | none => none
              | some g2 => health_detach_loop rest ⟨g2, idx', uns⟩
            else health_detach_loop rest s
          | _, _ => health_detach_loop rest s

/-- `LogicalGraphService.check_system_health`. -/
def check_system_health (s : ServiceState) : Option ServiceState :=
  match health_detach_loop (dkeys s.graph.nodes) s with
  | none => none
  | some s1 => retry_unsupplied_routing s1

/-- The routing pass of `hydrate_from_physical` (results are ignored). -/
def hydrate_loop : List Node → ServiceState → Option ServiceState
  | [], s => some s
  | node :: rest, s =>
    match change_parent_with_routing s node.id with
    | none => none
    | some (_, s') => hydrate_loop rest s'

/-- `LogicalGraphService.hydrate_from_physical`. -/
def hydrate_from_physical (s : ServiceState) : Option ServiceState :=
  let plants := (s.graph.nodes.map Prod.snd).filter
    (fun n => decide (n.node_type = .GENERATION_PLANT))
  let idx1 := plants.foldl (fun idx n => idx.add_root n.id) s.index
  let nodes_to_process := ((s.graph.nodes.map Prod.snd).filter
      (fun n => decide (n.node_type ≠ .GENERATION_PLANT))).mergeSort
    (fun a b => decide (routing_priority a ≤ routing_priority b))
  hydrate_loop nodes_to_process { s with index := idx1 }

/-- `LogicalGraphService.set_node_capacity`. -/
def set_node_capacity (s : ServiceState) (node_id : String) (new_capacity : ℚ) :
    ServiceState :=
  match s.graph.get_node node_id with
  | none => s
  | some _ =>
      { s with graph :=
          s.graph.mutate_node node_id (fun n => { n with capacity := some new_capacity }) }

/-- `LogicalGraphService.force_overload`: clamp the divisor `1 + pct` to a
minimum of `0.001` and set `capacity := current_load / divisor` on an
existing non-consumer node. -/
def force_overload (s : ServiceState) (node_id : String)
    (overload_percentage : ℚ) : Bool × ServiceState :=
  match s.graph.get_node node_id with
  | none => (false, s)
  | some node =>
    if node.node_type = .CONSUMER_POINT then (false, s)
    else
      let current_load := loadOr0 node.current_load
      let divisor0 := 1 + overload_percentage
      let divisor := if divisor0 ≤ 1 / 1000 then 1 / 1000 else divisor0
      let new_capacity := current_load / divisor
      (true,
        { s with graph :=
            s.graph.mutate_node node_id (fun n => { n with capacity := some new_capacity }) })

/-- `PowerGridBackend.force_overload` (`api/backend_facade.py`):
`api_force_overload` runs `service.force_overload`, then the facade always
runs `service.handle_overload` on the same node (the snapshot return value
is presentation-only). -/
def backend_force_overload (s : ServiceState) (node_id : String)
    (overload_percentage : ℚ) (order : List String) : Option ServiceState :=
  let s1 := (force_overload s node_id overload_percentage).2
  handle_overload s1 node_id order

/-- The edge-insertion loop of `add_node_with_routing`; the `Bool` is true
when `add_edge` raised `KeyError`, which aborts the operation but leaves
the previous insertions visible. -/
def add_edges_loop : List Edge → PowerGridGraph → PowerGridGraph × Bool
  | [], g => (g, false)
  | e :: rest, g =>
    match g.add_edge e with
    | none => (g, true)
    | some g' => add_edges_loop rest g'

/-- `LogicalGraphService.add_node_with_routing`; the `Bool` of the result
records whether a `KeyError` escaped (partial graph mutation kept, no
routing attempted). -/
def add_node_with_routing (s : ServiceState) (node : Node) (edges : List Edge) :
    Option (ServiceState × Bool) :=
  let g1 := s.graph.add_node node
  match add_edges_loop edges g1 with
  | (g2, true) => some ({ s with graph := g2 }, true)
  | (g2, false) =>
    let s1 := { s with graph := g2 }
    if node.node_type = .GENERATION_PLANT then some (s1, false)
    else
      match change_parent_with_routing s1 node.id with
      | none => none
      | some (result, s2) =>
        let s3 :=
          if ¬ result.success ∧ node.node_type = .CONSUMER_POINT then
            { s2 with unsupplied_consumers := insert node.id s2.unsupplied_consumers }
          else s2
        some (s3, false)

/-- The child re-attachment loop of `remove_station_and_reattach_children`. -/
def reattach_loop : List String → ServiceState → Option ServiceState
  | [], s => some s
  | child_id :: rest, s =>
    let s1 := { s with index := s.index.detach_node child_id }
    match s1.graph.get_node child_id with
    | none => reattach_loop rest s1
    | some child =>
      match change_parent_with_routing s1 child_id with
      | none => none
      | some (result, s2) =>
        let s3 :=
          if ¬ result.success ∧ child.node_type = .CONSUMER_POINT then
            { s2 with unsupplied_consumers := insert child_id s2.unsupplied_consumers }
          else s2
        reattach_loop rest s3

/-- `LogicalGraphService.remove_station_and_reattach_children`. -/
def remove_station_and_reattach_children (s : ServiceState) (station_id : String) :
    Option ServiceState :=
  match s.graph.get_node station_id with
  | none => some s
  | some station =>
    if station.node_type ∉
        [NodeType.TRANSMISSION_SUBSTATION, NodeType.DISTRIBUTION_SUBSTATION] then
      some s
    else
      match reattach_loop (s.index.get_children station_id) s with
      | none => none
      | some s1 => some { s1 with index := s1.index.remove_node station_id }

/-! ## Parent chains and termination -/

/-- The node reached after `k` parent steps (`some` while defined,
`none` once a root — or an unregistered node — has been passed). -/
def chainAt (idx : BPlusIndex) (x : String) : ℕ → Option String
  | 0 => some x
  | k + 1 =>
    match chainAt idx x k with
    | none => none
    | some y => idx.get_parent y

/-- Following parent links from `x` terminates. -/
def Terminates (idx : BPlusIndex) (x : String) : Prop :=
  ∃ k, chainAt idx x k = none

/-- The forest invariant: every parent chain terminates. -/
def AllTerminate (idx : BPlusIndex) : Prop :=
  ∀ x, Terminates idx x

/-- The reachability relation of claim C1: states produced from a fresh
service (`BPlusIndex()` is empty, `unsupplied_consumers` starts empty,
the physical graph is arbitrary) by completed runs of the listed public
operations.  `handle_overload`'s shuffled shedding order is an arbitrary
permutation of the child list. -/
inductive Reachable : ServiceState → Prop
  | init (g : PowerGridGraph) : Reachable ⟨g, BPlusIndex.empty, ∅⟩
  | hydrate (s s' : ServiceState) : Reachable s →
      hydrate_from_physical s = some s' → Reachable s'
  | change_parent (s : ServiceState) (child_id : String) (r : ChangeParentResult)
      (s' : ServiceState) : Reachable s →
      change_parent_with_routing s child_id = some (r, s') → Reachable s'
  | force_change (s : ServiceState) (child_id new_parent_id : String)
      (r : ChangeParentResult) (s' : ServiceState) : Reachable s →
      force_change_parent s child_id new_parent_id = some (r, s') → Reachable s'
  | add_node (s : ServiceState) (node : Node) (edges : List Edge)
      (s' : ServiceState) (err : Bool) : Reachable s →
      add_node_with_routing s node edges = some (s', err) → Reachable s'
  | remove_station (s : ServiceState) (station_id : String) (s' : ServiceState) :
      Reachable s →
      remove_station_and_reattach_children s station_id = some s' → Reachable s'
  | overload (s : ServiceState) (node_id : String) (order : List String)
      (s' : ServiceState) : Reachable s →
      order.Perm (s.index.get_children node_id) →
      handle_overload s node_id order = some s' → Reachable s'
  | health (s s' : ServiceState) : Reachable s →
      check_system_health s = some s' → Reachable s'
  | retry (s s' : ServiceState) : Reachable s →
      retry_unsupplied_routing s = some s' → Reachable s'

/-- All node data except `current_load`. -/
def nshape (n : Node) : String × NodeType × Option ℚ × Option ℚ :=
  (n.id, n.node_type, n.capacity, n.nominal_voltage)

/-- Well-formedness of the index: the parent dictionary has no duplicate
keys (automatic for a Python `dict`) and every parent chain terminates. -/
def IndexWF (idx : BPlusIndex) : Prop :=
  (dkeys idx.parent).Nodup ∧ AllTerminate idx

/-- Every logical parent/child pair is type-compatible under
`AllowedParentTypes`. -/
def ForestTyped (s : ServiceState) : Prop :=
  ∀ c p, s.index.get_parent c = some p →
    ∃ nc np, s.graph.get_node c = some nc ∧ s.graph.get_node p = some np ∧
      np.node_type ∈ _allowed_parent_types_for nc.node_type

/-! ## Concrete fixture states used by the claim theorems -/

/-- An index in which `"b"` is a (direct) descendant of `"a"`. -/
def exIdx : BPlusIndex :=
  ⟨[("a", none), ("b", some "a")], [("a", ["b"]), ("b", [])]⟩

/-- Consumer `"c"` with load 10. -/
def exNodeC : Node :=
  { id := "c", node_type := .CONSUMER_POINT, position_x := 0, position_y := 0,
    current_load := some 10 }

/-- Distribution substation `"d"` with capacity 50 and load 45. -/
def exNodeD : Node :=
  { id := "d", node_type := .DISTRIBUTION_SUBSTATION, position_x := 1, position_y := 0,
    capacity := some 50, current_load := some 45 }

def exEdgeCD : Edge :=
  { id := "e1", edge_type := .LV_DISTRIBUTION_SEGMENT, from_node_id := "c",
    to_node_id := "d", length := 1 }

def exGraphCD : PowerGridGraph :=
  { nodes := [("c", exNodeC), ("d", exNodeD)], edges := [("e1", exEdgeCD)],
    adjacency := [("c", ["e1"]), ("d", ["e1"])] }

/-- Scenario B: parentless consumer, full substation, empty unsupplied set. -/
def exForceState : ServiceState :=
  { graph := exGraphCD, index := BPlusIndex.empty, unsupplied_consumers := ∅ }

/-- Same graph, but the consumer is already attached to `"d"`. -/
def exRoutingState : ServiceState :=
  { graph := exGraphCD,
    index := ⟨[("c", some "d")], [("d", ["c"]), ("c", [])]⟩,
    unsupplied_consumers := ∅ }

/-- An overloaded node (capacity 10, load 20) whose only registered child
`"ghost"` does not exist in the physical graph. -/
def exOverNode : Node :=
  { id := "n", node_type := .DISTRIBUTION_SUBSTATION, position_x := 0, position_y := 0,
    capacity := some 10, current_load := some 20 }

def exOverState : ServiceState :=
  { graph := { nodes := [("n", exOverNode)], edges := [], adjacency := [("n", [])] },
    index := ⟨[("n", none), ("ghost", some "n")], [("n", ["ghost"])]⟩,
    unsupplied_consumers := ∅ }

/-- A transmission substation with load 100 (for `force_overload`). -/
def exTNode : Node :=
  { id := "t", node_type := .TRANSMISSION_SUBSTATION, position_x := 0, position_y := 0,
    current_load := some 100 }

def exC9State : ServiceState :=
  { graph := { nodes := [("t", exTNode)], edges := [], adjacency := [("t", [])] },
    index := BPlusIndex.empty, unsupplied_consumers := ∅ }

/-- C7 fixture: a substation whose stored load 45 is stale (its child list
is empty), plus two parentless consumers that can physically reach it. -/
def exD7 : Node :=
  { id := "d", node_type := .DISTRIBUTION_SUBSTATION, position_x := 0, position_y := 0,
    capacity := some 50, current_load := some 45 }

def exX7 : Node :=
  { id := "x", node_type := .CONSUMER_POINT, position_x := 1, position_y := 0,
    current_load := some 10 }

def exY7 : Node :=
  { id := "y", node_type := .CONSUMER_POINT, position_x := 2, position_y := 0,
    current_load := some 3 }

def exE1 : Edge :=
  { id := "e1", edge_type := .LV_DISTRIBUTION_SEGMENT, from_node_id := "x",
    to_node_id := "d", length := 1 }

def exE2 : Edge :=
  { id := "e2", edge_type := .LV_DISTRIBUTION_SEGMENT, from_node_id := "y",
    to_node_id := "d", length := 1 }

def exG7 : PowerGridGraph :=
  { nodes := [("d", exD7), ("x", exX7), ("y", exY7)],
    edges := [("e1", exE1), ("e2", exE2)],
    adjacency := [("d", ["e1", "e2"]), ("x", ["e1"]), ("y", ["e2"])] }

def exS7 : ServiceState :=
  { graph := exG7, index := BPlusIndex.empty, unsupplied_consumers := ∅ }

/-- C1 witness fixture: a routable consumer/substation pair with room. -/
def wNodeC : Node :=
  { id := "c", node_type := .CONSUMER_POINT, position_x := 0, position_y := 0,
    current_load := some 10 }

def wNodeD : Node :=
  { id := "d", node_type := .DISTRIBUTION_SUBSTATION, position_x := 1, position_y := 0,
    capacity := some 100, current_load := some 0 }

def wEdge1 : Edge :=
  { id := "e1", edge_type := .LV_DISTRIBUTION_SEGMENT, from_node_id := "c",
    to_node_id := "d", length := 1 }

def wGraph : PowerGridGraph :=
  { nodes := [("c", wNodeC), ("d", wNodeD)], edges := [("e1", wEdge1)],
    adjacency := [("c", ["e1"]), ("d", ["e1"])] }

def wState0 : ServiceState :=
  { graph := wGraph, index := BPlusIndex.empty, unsupplied_consumers := ∅ }

def wGraph1 : PowerGridGraph :=
  { nodes := [("c", wNodeC), ("d", { wNodeD with current_load := some 10 })],
    edges := wGraph.edges, adjacency := wGraph.adjacency }

/-- The state after routing `"c"` under `"d"` from `wState0`. -/
def wState1 : ServiceState :=
  { graph := wGraph1,
    index := ⟨[("c", some "d")], [("c", []), ("d", ["c"])]⟩,
    unsupplied_consumers := ∅ }

def wResult1 : ChangeParentResult :=
  ⟨true, "c", none, some "d", some 10, "parent changed via routing", ["c", "d"]⟩

/-- The result of force-attaching `"c"` under `"d"` from `wState0`. -/
def wForceResult : ChangeParentResult :=
  ⟨true, "c", none, some "d", some 0, "parent changed by force", []⟩

/-- `"d"` after the first recovery sweep from `exS7` (only `"y"` attached,
load recomputed from its one child). -/
def exD7a : Node := { exD7 with current_load := some 3 }

/-- `"d"` after the second sweep (`"x"` attached as well). -/
def exD7b : Node := { exD7 with current_load := some 13 }

def exG7a : PowerGridGraph :=
  { nodes := [("d", exD7a), ("x", exX7), ("y", exY7)],
    edges := exG7.edges, adjacency := exG7.adjacency }

def exG7b : PowerGridGraph :=
  { nodes := [("d", exD7b), ("x", exX7), ("y", exY7)],
    edges := exG7.edges, adjacency := exG7.adjacency }

/-- The state after one `retry_unsupplied_routing` sweep from `exS7`:
`"x"` was tried first against the stale load 45 and marked unsupplied,
then `"y"` attached and the load was recomputed to 3. -/
def exS7a : ServiceState :=
  { graph := exG7a,
    index := ⟨[("y", some "d")], [("y", []), ("d", ["y"])]⟩,
    unsupplied_consumers := {"x"} }

/-- `wGraph` with its node and adjacency dictionaries listed in a
different insertion order (same entries). -/
def pGraph : PowerGridGraph :=
  { nodes := [("d", wNodeD), ("c", wNodeC)], edges := [("e1", wEdge1)],
    adjacency := [("d", ["e1"]), ("c", ["e1"])] }

/-- The state after a second sweep: `"x"` now fits (3 + 10 ≤ 50). -/
def exS7b : ServiceState :=
  { graph := exG7b,
    index := ⟨[("y", some "d"), ("x", some "d")],
      [("y", []), ("d", ["y", "x"]), ("x", [])]⟩,
    unsupplied_consumers := ∅ }

/-! ## Dictionary lemmas -/

/-- `dget` misses exactly the absent keys. -/
theorem dget_eq_none_iff {α : Type} (m : List (String × α)) (k : String) :
    dget m k = none ↔ k ∉ dkeys m := by
  induction m with
  | nil => simp [dget, dkeys]
  | cons p rest ih =>
    by_cases h : k = p.1
    · subst h
      simp [dget, dkeys]
    · simp [dget, dkeys, h, ih]

theorem dget_dset {α : Type} (m : List (String × α)) (k x : String) (v : α) :
    dget (dset m k v) x = if x = k then some v else dget m x := by
  induction m with
  | nil => by_cases h : x = k <;> simp [dset, dget, h]
  | cons p rest ih =>
    by_cases hk : k = p.1
    · subst hk
      by_cases hx : x = p.1 <;> simp [dset, dget, hx]
    · by_cases hx : x = p.1
      · have hpk : ¬ p.1 = k := fun h => hk h.symm
        simp [dset, dget, hk, hx, hpk]
      · simp [dset, dget, hk, hx, ih]

theorem dget_dsetdefault {α : Type} (m : List (String × α)) (k x : String) (v : α) :
    dget (dsetdefault m k v) x =
      if x = k then some ((dget m k).getD v) else dget m x := by
  induction m with
  | nil => by_cases h : x = k <;> simp [dsetdefault, dget, h]
  | cons p rest ih =>
    by_cases hk : k = p.1
    · subst hk
      by_cases hx : x = p.1 <;> simp [dsetdefault, dget, hx]
    · by_cases hx : x = p.1
      · have hpk : ¬ p.1 = k := fun h => hk h.symm
        simp [dsetdefault, dget, hk, hx, hpk]
      · simp [dsetdefault, dget, hk, hx, ih]

theorem dget_dmodify {α : Type} (m : List (String × α)) (k x : String) (f : α → α) :
    dget (dmodify m k f) x =
      if x = k then (dget m k).map f else dget m x := by
  induction m with
  | nil => by_cases h : x = k <;> simp [dmodify, dget, h]
  | cons p rest ih =>
    by_cases hk : k = p.1
    · subst hk
      by_cases hx : x = p.1 <;> simp [dmodify, dget, hx]
    · by_cases hx : x = p.1
      · have hpk : ¬ p.1 = k := fun h => hk h.symm
        simp [dmodify, dget, hk, hx, hpk]
      · simp [dmodify, dget, hk, hx, ih]

theorem dget_map_val {α β : Type} (m : List (String × α)) (g : α → β) (x : String) :
    dget (m.map (fun p => (p.1, g p.2))) x = (dget m x).map g := by
  induction m with
  | nil => simp [dget]
  | cons p rest ih =>
    by_cases hx : x = p.1 <;> simp [dget, hx, ih]

theorem dget_dremoveKey_of_ne {α : Type} (m : List (String × α)) (k x : String)
    (hx : x ≠ k) : dget (dremoveKey m k) x = dget m x := by
  induction m with
  | nil => simp [dremoveKey]
  | cons p rest ih =>
    by_cases hk : k = p.1
    · subst hk
      simp [dremoveKey, dget, hx]
    · by_cases hxp : x = p.1 <;> simp [dremoveKey, dget, hk, hxp, ih]

theorem dkeys_dremoveKey_sublist {α : Type} (m : List (String × α)) (k : String) :
    (dkeys (dremoveKey m k)).Sublist (dkeys m) := by
  induction m with
  | nil => simp [dremoveKey, dkeys]
  | cons p rest ih =>
    by_cases hk : k = p.1
    · simp only [dremoveKey, hk, if_pos rfl, dkeys]
      exact (List.sublist_cons_self _ _)
    · simp only [dremoveKey, if_neg hk, dkeys, List.map_cons]
      exact (ih).cons₂ _

theorem dget_dremoveKey_self {α : Type} (m : List (String × α)) (k : String)
    (hnd : (dkeys m).Nodup) : dget (dremoveKey m k) k = none := by
  induction m with
  | nil => simp [dremoveKey, dget]
  | cons p rest ih =>
    have hnd' : (dkeys rest).Nodup := (List.nodup_cons.mp hnd).2
    by_cases hk : k = p.1
    · subst hk
      have hnotin : p.1 ∉ dkeys rest := by
        have := hnd
        simp only [dkeys, List.map_cons, List.nodup_cons] at this
        exact this.1
      simp only [dremoveKey, if_pos rfl]
      exact (dget_eq_none_iff rest p.1).mpr hnotin
    · simp [dremoveKey, dget, hk, ih hnd']

/-! ## Parent-map characterisations of the index operations -/

namespace BPlusIndex

theorem get_parent_set_parent (idx : BPlusIndex) (c : String) (po : Option String)
    (x : String) :
    (idx.set_parent c po).get_parent x = if x = c then po else idx.get_parent x := by
  cases po <;> simp [set_parent, get_parent, dget_dset] <;>
    by_cases hx : x = c <;> simp [hx]

theorem get_parent_add_root (idx : BPlusIndex) (n x : String) :
    (idx.add_root n).get_parent x = if x = n then none else idx.get_parent x := by
  simp only [add_root, get_parent, dget_dset]
  by_cases hx : x = n <;> simp [hx]

theorem get_parent_detach (idx : BPlusIndex) (n x : String) :
    (idx.detach_node n).get_parent x = if x = n then none else idx.get_parent x := by
  unfold detach_node
  cases hdg : dget idx.parent n with
  | none =>
    by_cases hx : x = n
    · subst hx
      simp [get_parent, hdg]
    · simp [hx]
  | some cp =>
    cases cp <;> simp [get_parent, dget_dset] <;> by_cases hx : x = n <;> simp [hx]

theorem get_parent_remove_node (idx : BPlusIndex) (n x y : String)
    (hnd : (dkeys idx.parent).Nodup)
    (h : (idx.remove_node n).get_parent x = some y) :
    idx.get_parent x = some y := by
  unfold remove_node at h
  have hform : idx.parent.map (fun p => if p.2 = some n then (p.1, none) else p)
      = idx.parent.map (fun p => (p.1, if p.2 = some n then none else p.2)) := by
    apply List.map_congr_left
    intro p hp
    by_cases hc : p.2 = some n <;> simp [hc]
  by_cases hcase : (dget idx.parent n).isNone ∧ (dget idx.children n).isNone
  · rw [if_pos hcase] at h
    exact h
  · rw [if_neg hcase] at h
    simp only [get_parent, hform] at h ⊢
    have hkeys : dkeys (idx.parent.map
        (fun p => ((p.1 : String), if p.2 = some n then (none : Option String) else p.2)))
        = dkeys idx.parent := by
      simp [dkeys, List.map_map, Function.comp]
    by_cases hx : x = n
    · subst hx
      rw [dget_dremoveKey_self _ _ (by rw [hkeys]; exact hnd)] at h
      simp at h
    · rw [dget_dremoveKey_of_ne _ _ _ hx] at h
      have hmv := dget_map_val idx.parent
        (fun v => if v = some n then (none : Option String) else v) x
      rw [hmv] at h
      cases hdg : dget idx.parent x with
      | none => simp [hdg] at h
      | some v =>
        rw [hdg] at h
        by_cases hv : v = some n
        · simp [hv] at h
        · simpa [hv] using h

end BPlusIndex

/-! ## Chain lemmas -/

theorem chainAt_add (idx : BPlusIndex) (x v : String) (m : ℕ)
    (h : chainAt idx x m = some v) :
    ∀ j, chainAt idx x (m + j) = chainAt idx v j := by
  intro j
  induction j with
  | zero => simpa [chainAt] using h
  | succ j ih => simp [chainAt, ← Nat.add_assoc, ih]

theorem chainAt_succ_parent (idx : BPlusIndex) (x y : String)
    (h : idx.get_parent x = some y) :
    ∀ j, chainAt idx x (1 + j) = chainAt idx y j := by
  have h1 : chainAt idx x 1 = some y := by simp [chainAt, h]
  exact chainAt_add idx x y 1 h1

theorem terminates_of_parent (idx : BPlusIndex) (x y : String)
    (hp : idx.get_parent x = some y) (h : Terminates idx y) :
    Terminates idx x := by
  obtain ⟨k, hk⟩ := h
  exact ⟨1 + k, by rw [chainAt_succ_parent idx x y hp]; exact hk⟩

theorem terminates_root (idx : BPlusIndex) (x : String)
    (hp : idx.get_parent x = none) : Terminates idx x :=
  ⟨1, by simp [chainAt, hp]⟩

/-- Removing parent edges (pointwise) preserves chain termination. -/
theorem allTerminate_mono (idx idx' : BPlusIndex)
    (hstep : ∀ x y, idx'.get_parent x = some y → idx.get_parent x = some y)
    (h : AllTerminate idx) : AllTerminate idx' := by
  intro x
  by_contra hx
  have hne : ∀ k, chainAt idx' x k ≠ none := by
    intro k hk
    exact hx ⟨k, hk⟩
  have hco : ∀ k, chainAt idx' x k = chainAt idx x k := by
    intro k
    induction k with
    | zero => rfl
    | succ k ih =>
      cases hk : chainAt idx' x k with
      | none => exact absurd hk (hne k)
      | some yk =>
        have hidx : chainAt idx x k = some yk := by rw [← ih, hk]
        have hdef' : chainAt idx' x (k + 1) = idx'.get_parent yk := by
          simp [chainAt, hk]
        have hdef : chainAt idx x (k + 1) = idx.get_parent yk := by
          simp [chainAt, hidx]
        cases hz : idx'.get_parent yk with
        | none => exact absurd (hdef'.trans hz) (hne (k + 1))
        | some z => rw [hdef', hdef, hz, hstep yk z hz]
  obtain ⟨k, hk⟩ := h x
  exact hne k ((hco k).trans hk)

/-- Re-parenting `c` under `p` keeps every chain terminating, provided the
new chain from `p` terminates (which the service checks de facto: it
propagates loads upward from `p`, an operation that completes only on a
terminating chain). -/
theorem allTerminate_set_parent (idx : BPlusIndex) (c p : String)
    (hall : AllTerminate idx)
    (hp : Terminates (idx.set_parent c (some p)) p) :
    AllTerminate (idx.set_parent c (some p)) := by
  intro x
  by_cases hxc : ∃ m, chainAt (idx.set_parent c (some p)) x m = some c
  · obtain ⟨m, hm⟩ := hxc
    have hc : (idx.set_parent c (some p)).get_parent c = some p := by
      simp [BPlusIndex.get_parent_set_parent]
    obtain ⟨k, hk⟩ := hp
    have hcterm : chainAt (idx.set_parent c (some p)) c (1 + k) = none := by
      rw [chainAt_succ_parent _ c p hc]
      exact hk
    refine ⟨m + (1 + k), ?f⟩
    rw [chainAt_add _ x c m hm]
    exact hcterm
  · push_neg at hxc
    by_contra hx
    have hne : ∀ k, chainAt (idx.set_parent c (some p)) x k ≠ none := by
      intro k hk
      exact hx ⟨k, hk⟩
    have hco : ∀ k, chainAt (idx.set_parent c (some p)) x k = chainAt idx x k := by
      intro k
      induction k with
      | zero => rfl
      | succ k ih =>
        cases hk : chainAt (idx.set_parent c (some p)) x k with
        | none => exact absurd hk (hne k)
        | some yk =>
          have hidx : chainAt idx x k = some yk := by rw [← ih, hk]
          have hykc : yk ≠ c := by
            intro hbad
            exact hxc k (hbad ▸ hk)
          have hdef' : chainAt (idx.set_parent c (some p)) x (k + 1) =
              (idx.set_parent c (some p)).get_parent yk := by
            simp [chainAt, hk]
          have hdef : chainAt idx x (k + 1) = idx.get_parent yk := by
            simp [chainAt, hidx]
          rw [hdef', hdef, BPlusIndex.get_parent_set_parent, if_neg hykc]
    obtain ⟨k, hk⟩ := hall x
    exact hne k ((hco k).trans hk)

/-- A completed upward propagation witnesses a terminating parent chain. -/
theorem terminates_of_propagate (idx : BPlusIndex) :
    ∀ (fuel : ℕ) (start : String) (g g' : PowerGridGraph),
    propagate_load_upwards fuel start g idx = some g' → Terminates idx start := by
  intro fuel
  induction fuel with
  | zero => intro start g g' h; simp [propagate_load_upwards] at h
  | succ fuel ih =>
    intro start g g' h
    simp only [propagate_load_upwards] at h
    cases hp : idx.get_parent start with
    | none => exact terminates_root idx start hp
    | some pid =>
      rw [hp] at h
      exact terminates_of_parent idx start pid hp (ih pid _ _ h)

/-! ## Shape preservation by load recomputation

`recompute_node_load_from_children` and `propagate_load_upwards` rewrite
only the `current_load` field; identifier, type, capacity and nominal
voltage of every node — and node presence itself — are untouched. -/

theorem get_node_mutate (g : PowerGridGraph) (nid x : String) (f : Node → Node) :
    (g.mutate_node nid f).get_node x =
      if x = nid then (g.get_node x).map f else g.get_node x := by
  simp only [PowerGridGraph.mutate_node, PowerGridGraph.get_node, dget_dmodify]
  by_cases hx : x = nid <;> simp [hx]

theorem nshape_recompute (nid : String) (g : PowerGridGraph) (idx : BPlusIndex) :
    ∀ x, ((recompute_node_load_from_children nid g idx).get_node x).map nshape =
      (g.get_node x).map nshape := by
  intro x
  unfold recompute_node_load_from_children
  cases hg : g.get_node nid with
  | none => rfl
  | some node =>
    rw [get_node_mutate]
    by_cases hx : x = nid
    · subst hx
      simp [hg, nshape]
    · simp [hx]

theorem nshape_propagate (idx : BPlusIndex) :
    ∀ (fuel : ℕ) (start : String) (g g' : PowerGridGraph),
    propagate_load_upwards fuel start g idx = some g' →
    ∀ x, (g'.get_node x).map nshape = (g.get_node x).map nshape := by
  intro fuel
  induction fuel with
  | zero => intro start g g' h; simp [propagate_load_upwards] at h
  | succ fuel ih =>
    intro start g g' h x
    simp only [propagate_load_upwards] at h
    cases hp : idx.get_parent start with
    | none =>
      rw [hp] at h
      cases h
      rfl
    | some pid =>
      rw [hp] at h
      exact (ih pid _ _ h x).trans (nshape_recompute pid g idx x)

/-! ## The C1 invariant and its preservation -/

theorem mem_dkeys_dset {α : Type} (m : List (String × α)) (k x : String) (v : α) :
    x ∈ dkeys (dset m k v) ↔ x ∈ dkeys m ∨ x = k := by
  induction m with
  | nil => simp [dset, dkeys]
  | cons p rest ih =>
    by_cases hk : k = p.1
    · subst hk
      simp only [dset, if_pos rfl, dkeys, List.map_cons, List.mem_cons,
        eq_self_iff_true, if_true]
      tauto
    · simp only [dset, if_neg hk, dkeys, List.map_cons, List.mem_cons] at ih ⊢
      rw [ih]
      tauto

theorem nodup_dkeys_dset {α : Type} (m : List (String × α)) (k : String) (v : α)
    (h : (dkeys m).Nodup) : (dkeys (dset m k v)).Nodup := by
  induction m with
  | nil => simp [dset, dkeys]
  | cons p rest ih =>
    simp only [dkeys, List.map_cons, List.nodup_cons] at h
    by_cases hk : k = p.1
    · subst hk
      simpa [dset, dkeys, List.nodup_cons] using h
    · simp only [dset, if_neg hk, dkeys, List.map_cons, List.nodup_cons]
      refine ⟨?f, ih h.2⟩
      rw [show List.map Prod.fst (dset rest k v) = dkeys (dset rest k v) from rfl,
        mem_dkeys_dset]
      rintro (hmem | hmem)
      · exact h.1 hmem
      · exact hk hmem.symm

theorem set_parent_parent_eq (idx : BPlusIndex) (c : String) (po : Option String) :
    (idx.set_parent c po).parent = dset idx.parent c po := by
  cases po <;> rfl

theorem indexWF_set_parent (idx : BPlusIndex) (c p : String)
    (h : IndexWF idx) (hterm : Terminates (idx.set_parent c (some p)) p) :
    IndexWF (idx.set_parent c (some p)) := by
  constructor
  · rw [set_parent_parent_eq]
    exact nodup_dkeys_dset _ _ _ h.1
  · exact allTerminate_set_parent idx c p h.2 hterm

theorem indexWF_detach (idx : BPlusIndex) (n : String) (h : IndexWF idx) :
    IndexWF (idx.detach_node n) := by
  constructor
  · unfold BPlusIndex.detach_node
    cases hdg : dget idx.parent n with
    | none => exact h.1
    | some cp => cases cp <;> exact nodup_dkeys_dset _ _ _ h.1
  · apply allTerminate_mono idx _ _ h.2
    intro x y hxy
    rw [BPlusIndex.get_parent_detach] at hxy
    by_cases hx : x = n
    · rw [if_pos hx] at hxy
      cases hxy
    · rwa [if_neg hx] at hxy

theorem indexWF_add_root (idx : BPlusIndex) (n : String) (h : IndexWF idx) :
    IndexWF (idx.add_root n) := by
  constructor
  · exact nodup_dkeys_dset _ _ _ h.1
  · apply allTerminate_mono idx _ _ h.2
    intro x y hxy
    rw [BPlusIndex.get_parent_add_root] at hxy
    by_cases hx : x = n
    · rw [if_pos hx] at hxy
      cases hxy
    · rwa [if_neg hx] at hxy

theorem indexWF_remove_node (idx : BPlusIndex) (n : String) (h : IndexWF idx) :
    IndexWF (idx.remove_node n) := by
  have hkeq : dkeys (idx.parent.map (fun p => if p.2 = some n then (p.1, none) else p)) =
      dkeys idx.parent := by
    simp only [dkeys, List.map_map]
    apply List.map_congr_left
    intro p hp
    by_cases hc : p.2 = some n <;> simp [hc]
  constructor
  · unfold BPlusIndex.remove_node
    split
    · exact h.1
    · exact ((dkeys_dremoveKey_sublist _ _).nodup (by rw [hkeq]; exact h.1))
  · apply allTerminate_mono idx _ _ h.2
    intro x y hxy
    exact BPlusIndex.get_parent_remove_node idx n x y h.1 hxy

/-- The index after `change_parent_with_routing` is either unchanged or a
single `set_parent` whose new chain was load-propagated to completion. -/
theorem change_parent_index (s : ServiceState) (c : String) (r : ChangeParentResult)
    (s' : ServiceState) (h : change_parent_with_routing s c = some (r, s')) :
    s'.index = s.index ∨
    ∃ pid, s'.index = s.index.set_parent c (some pid) ∧
      Terminates (s.index.set_parent c (some pid)) pid := by
  unfold change_parent_with_routing at h
  cases hchild : s.graph.get_node c with
  | none =>
    rw [hchild] at h
    dsimp only at h
    cases h
    exact Or.inl rfl
  | some child =>
    rw [hchild] at h
    dsimp only at h
    cases hps : (find_best_parent_for_node s.graph c).parent_id with
    | none =>
      rw [hps] at h
      dsimp only at h
      cases h
      left
      split <;> rfl
    | some new_parent_id =>
      rw [hps] at h
      dsimp only at h
      by_cases hop : s.index.get_parent c = some new_parent_id
      · rw [if_pos hop] at h
        cases h
        exact Or.inl rfl
      · rw [if_neg hop] at h
        cases hnp : s.graph.get_node new_parent_id with
        | none =>
          rw [hnp] at h
          dsimp only at h
          cases h
          exact Or.inl rfl
        | some new_parent =>
          rw [hnp] at h
          dsimp only at h
          by_cases hcap : ¬ _has_capacity_for_child new_parent child = true
          · rw [if_pos hcap] at h
            cases h
            left
            split <;> rfl
          · rw [if_neg hcap] at h
            cases hold : s.index.get_parent c with
            | none =>
              rw [hold] at h
              dsimp only at h
              cases hprop2 : propagate_load_upwards
                  (propagation_fuel (s.index.set_parent c (some new_parent_id)))
                  new_parent_id
                  (recompute_node_load_from_children new_parent_id s.graph
                    (s.index.set_parent c (some new_parent_id)))
                  (s.index.set_parent c (some new_parent_id)) with
              | none =>
                rw [hprop2] at h
                cases h
              | some g4 =>
                rw [hprop2] at h
                cases h
                right
                exact ⟨new_parent_id, rfl, terminates_of_propagate _ _ _ _ _ hprop2⟩
            | some op =>
              rw [hold] at h
              dsimp only at h
              cases hprop1 : propagate_load_upwards
                  (propagation_fuel (s.index.set_parent c (some new_parent_id))) op
                  (recompute_node_load_from_children op s.graph
                    (s.index.set_parent c (some new_parent_id)))
                  (s.index.set_parent c (some new_parent_id)) with
              | none =>
                rw [hprop1] at h
                cases h
              | some g2 =>
                rw [hprop1] at h
                dsimp only at h
                cases hprop2 : propagate_load_upwards
                    (propagation_fuel (s.index.set_parent c (some new_parent_id)))
                    new_parent_id
                    (recompute_node_load_from_children new_parent_id g2
                      (s.index.set_parent c (some new_parent_id)))
                    (s.index.set_parent c (some new_parent_id)) with
                | none =>
                  rw [hprop2] at h
                  cases h
                | some g4 =>
                  rw [hprop2] at h
                  cases h
                  right
                  exact ⟨new_parent_id, rfl, terminates_of_propagate _ _ _ _ _ hprop2⟩

/-- Same characterisation for `force_change_parent`. -/
theorem force_change_index (s : ServiceState) (c p : String) (r : ChangeParentResult)
    (s' : ServiceState) (h : force_change_parent s c p = some (r, s')) :
    s'.index = s.index ∨
    ∃ pid, s'.index = s.index.set_parent c (some pid) ∧
      Terminates (s.index.set_parent c (some pid)) pid := by
  unfold force_change_parent at h
  cases hchild : s.graph.get_node c with
  | none =>
    rw [hchild] at h
    dsimp only at h
    cases h
    exact Or.inl rfl
  | some child =>
    rw [hchild] at h
    dsimp only at h
    cases hnp : s.graph.get_node p with
    | none =>
      rw [hnp] at h
      dsimp only at h
      cases h
      exact Or.inl rfl
    | some new_parent =>
      rw [hnp] at h
      dsimp only at h
      by_cases hty : new_parent.node_type ∉ _allowed_parent_types_for child.node_type
      · rw [if_pos hty] at h
        cases h
        exact Or.inl rfl
      · rw [if_neg hty] at h
        by_cases hcap : ¬ _has_capacity_for_child new_parent child = true
        · rw [if_pos hcap] at h
          cases h
          exact Or.inl rfl
        · rw [if_neg hcap] at h
          by_cases hop : s.index.get_parent c = some p
          · rw [if_pos hop] at h
            cases h
            exact Or.inl rfl
          · rw [if_neg hop] at h
            cases hold : s.index.get_parent c with
            | none =>
              rw [hold] at h
              dsimp only at h
              cases hprop2 : propagate_load_upwards
                  (propagation_fuel (s.index.set_parent c (some p))) p
                  (recompute_node_load_from_children p s.graph
                    (s.index.set_parent c (some p)))
                  (s.index.set_parent c (some p)) with
              | none =>
                rw [hprop2] at h
                cases h
              | some g4 =>
                rw [hprop2] at h
                cases h
                right
                exact ⟨p, rfl, terminates_of_propagate _ _ _ _ _ hprop2⟩
            | some op =>
              rw [hold] at h
              dsimp only at h
              cases hprop1 : propagate_load_upwards
                  (propagation_fuel (s.index.set_parent c (some p))) op
                  (recompute_node_load_from_children op s.graph
                    (s.index.set_parent c (some p)))
                  (s.index.set_parent c (some p)) with
              | none =>
                rw [hprop1] at h
                cases h
              | some g2 =>
                rw [hprop1] at h
                dsimp only at h
                cases hprop2 : propagate_load_upwards
                    (propagation_fuel (s.index.set_parent c (some p))) p
                    (recompute_node_load_from_children p g2
                      (s.index.set_parent c (some p)))
                    (s.index.set_parent c (some p)) with
                | none =>
                  rw [hprop2] at h
                  cases h
                | some g4 =>
                  rw [hprop2] at h
                  cases h
                  right
                  exact ⟨p, rfl, terminates_of_propagate _ _ _ _ _ hprop2⟩

theorem indexWF_change_parent (s : ServiceState) (c : String) (r : ChangeParentResult)
    (s' : ServiceState) (hWF : IndexWF s.index)
    (h : change_parent_with_routing s c = some (r, s')) : IndexWF s'.index := by
  rcases change_parent_index s c r s' h with heq | ⟨pid, heq, hterm⟩
  · rw [heq]
    exact hWF
  · rw [heq]
    exact indexWF_set_parent _ _ _ hWF hterm

theorem indexWF_force_change (s : ServiceState) (c p : String) (r : ChangeParentResult)
    (s' : ServiceState) (hWF : IndexWF s.index)
    (h : force_change_parent s c p = some (r, s')) : IndexWF s'.index := by
  rcases force_change_index s c p r s' h with heq | ⟨pid, heq, hterm⟩
  · rw [heq]
    exact hWF
  · rw [heq]
    exact indexWF_set_parent _ _ _ hWF hterm

theorem indexWF_shed (nid : String) :
    ∀ (order : List String) (s s' : ServiceState), IndexWF s.index →
    shed_children nid order s = some s' → IndexWF s'.index := by
  intro order
  induction order with
  | nil =>
    intro s s' hWF h
    simp only [shed_children, Option.some.injEq] at h
    rw [← h]
    exact hWF
  | cons child_id rest ih =>
    intro s s' hWF h
    unfold shed_children at h
    cases hn : s.graph.get_node nid with
    | none =>
      rw [hn] at h
      cases h
    | some node =>
      rw [hn] at h
      dsimp only at h
      cases hload : node.current_load with
      | none =>
        rw [hload] at h
        cases hcap : node.capacity <;> rw [hcap] at h <;> cases h
      | some load =>
        rw [hload] at h
        cases hcap : node.capacity with
        | none =>
          rw [hcap] at h
          cases h
        | some cap =>
          rw [hcap] at h
          dsimp only at h
          by_cases hle : load ≤ cap
          · rw [if_pos hle] at h
            cases h
            exact hWF
          · rw [if_neg hle] at h
            cases hc : s.graph.get_node child_id with
            | none =>
              rw [hc] at h
              exact ih s s' hWF h
            | some child =>
              rw [hc] at h
              dsimp only at h
              cases hprop : propagate_load_upwards
                  (propagation_fuel (s.index.detach_node child_id)) nid
                  (recompute_node_load_from_children nid s.graph
                    (s.index.detach_node child_id))
                  (s.index.detach_node child_id) with
              | none =>
                rw [hprop] at h
                cases h
              | some g2 =>
                rw [hprop] at h
                exact ih _ s' (indexWF_detach _ _ hWF) h

theorem indexWF_handle_overload (s : ServiceState) (nid : String) (order : List String)
    (s' : ServiceState) (hWF : IndexWF s.index)
    (h : handle_overload s nid order = some s') : IndexWF s'.index := by
  unfold handle_overload at h
  cases hn : s.graph.get_node nid with
  | none =>
    rw [hn] at h
    cases h
    exact hWF
  | some node =>
    rw [hn] at h
    dsimp only at h
    cases hcap : node.capacity with
    | none =>
      rw [hcap] at h
      cases hload : node.current_load <;> rw [hload] at h <;> cases h <;> exact hWF
    | some cap =>
      rw [hcap] at h
      cases hload : node.current_load with
      | none =>
        rw [hload] at h
        cases h
        exact hWF
      | some load =>
        rw [hload] at h
        dsimp only at h
        by_cases hle : load ≤ cap
        · rw [if_pos hle] at h
          cases h
          exact hWF
        · rw [if_neg hle] at h
          exact indexWF_shed nid order s s' hWF h

theorem indexWF_retry_loop :
    ∀ (nodes : List Node) (s s' : ServiceState), IndexWF s.index →
    retry_loop nodes s = some s' → IndexWF s'.index := by
  intro nodes
  induction nodes with
  | nil =>
    intro s s' hWF h
    simp only [retry_loop, Option.some.injEq] at h
    rw [← h]
    exact hWF
  | cons node rest ih =>
    intro s s' hWF h
    unfold retry_loop at h
    cases hc : change_parent_with_routing s node.id with
    | none =>
      rw [hc] at h
      cases h
    | some rs =>
      rw [hc] at h
      dsimp only at h
      have hWF' : IndexWF rs.2.index :=
        indexWF_change_parent s node.id rs.1 rs.2 hWF (by rw [hc])
      refine ih _ s' ?f h
      split <;> split <;> exact hWF'

theorem indexWF_retry (s s' : ServiceState) (hWF : IndexWF s.index)
    (h : retry_unsupplied_routing s = some s') : IndexWF s'.index :=
  indexWF_retry_loop _ s s' hWF h

theorem indexWF_health_loop :
    ∀ (ids : List String) (s s' : ServiceState), IndexWF s.index →
    health_detach_loop ids s = some s' → IndexWF s'.index := by
  intro ids
  induction ids with
  | nil =>
    intro s s' hWF h
    simp only [health_detach_loop, Option.some.injEq] at h
    rw [← h]
    exact hWF
  | cons node_id rest ih =>
    intro s s' hWF h
    unfold health_detach_loop at h
    cases hp : s.index.get_parent node_id with
    | none =>
      rw [hp] at h
      exact ih s s' hWF h
    | some parent_id =>
      rw [hp] at h
      dsimp only at h
      by_cases hemp : parent_id = ""
      · rw [if_pos hemp] at h
        exact ih s s' hWF h
      · rw [if_neg hemp] at h
        cases hg : s.graph.get_node parent_id with
        | none =>
          rw [hg] at h
          exact ih s s' hWF h
        | some parent =>
          rw [hg] at h
          dsimp only at h
          cases hcap : parent.capacity with
          | none =>
            rw [hcap] at h
            cases hload : parent.current_load <;> rw [hload] at h <;> exact ih s s' hWF h
          | some cap =>
            rw [hcap] at h
            cases hload : parent.current_load with
            | none =>
              rw [hload] at h
              exact ih s s' hWF h
            | some pload =>
              rw [hload] at h
              dsimp only at h
              by_cases hgt : pload > cap
              · rw [if_pos hgt] at h
                cases hprop : propagate_load_upwards
                    (propagation_fuel (s.index.detach_node node_id)) parent_id
                    (recompute_node_load_from_children parent_id s.graph
                      (s.index.detach_node node_id))
                    (s.index.detach_node node_id) with
                | none =>
                  rw [hprop] at h
                  cases h
                | some g2 =>
                  rw [hprop] at h
                  exact ih _ s' (indexWF_detach _ _ hWF) h
              · rw [if_neg hgt] at h
                exact ih s s' hWF h

theorem indexWF_health (s s' : ServiceState) (hWF : IndexWF s.index)
    (h : check_system_health s = some s') : IndexWF s'.index := by
  unfold check_system_health at h
  cases h1 : health_detach_loop (dkeys s.graph.nodes) s with
  | none =>
    rw [h1] at h
    cases h
  | some s1 =>
    rw [h1] at h
    exact indexWF_retry s1 s' (indexWF_health_loop _ s s1 hWF h1) h

theorem indexWF_hydrate_loop :
    ∀ (nodes : List Node) (s s' : ServiceState), IndexWF s.index →
    hydrate_loop nodes s = some s' → IndexWF s'.index := by
  intro nodes
  induction nodes with
  | nil =>
    intro s s' hWF h
    simp only [hydrate_loop, Option.some.injEq] at h
    rw [← h]
    exact hWF
  | cons node rest ih =>
    intro s s' hWF h
    unfold hydrate_loop at h
    cases hc : change_parent_with_routing s node.id with
    | none =>
      rw [hc] at h
      cases h
    | some rs =>
      rw [hc] at h
      exact ih rs.2 s' (indexWF_change_parent s node.id rs.1 rs.2 hWF (by rw [hc])) h

theorem indexWF_add_root_fold (plants : List Node) (idx : BPlusIndex)
    (hWF : IndexWF idx) :
    IndexWF (plants.foldl (fun i n => i.add_root n.id) idx) := by
  induction plants generalizing idx with
  | nil => exact hWF
  | cons n rest ih => exact ih _ (indexWF_add_root _ _ hWF)

theorem indexWF_hydrate (s s' : ServiceState) (hWF : IndexWF s.index)
    (h : hydrate_from_physical s = some s') : IndexWF s'.index := by
  unfold hydrate_from_physical at h
  exact indexWF_hydrate_loop _ _ s' (indexWF_add_root_fold _ _ hWF) h

theorem indexWF_add_node (s : ServiceState) (node : Node) (edges : List Edge)
    (s' : ServiceState) (err : Bool) (hWF : IndexWF s.index)
    (h : add_node_with_routing s node edges = some (s', err)) : IndexWF s'.index := by
  unfold add_node_with_routing at h
  dsimp only at h
  cases hadd : add_edges_loop edges (s.graph.add_node node) with
  | mk g2 errb =>
    rw [hadd] at h
    cases errb
    · dsimp only at h
      by_cases hpl : node.node_type = NodeType.GENERATION_PLANT
      · rw [if_pos hpl] at h
        cases h
        exact hWF
      · rw [if_neg hpl] at h
        cases hc : change_parent_with_routing { s with graph := g2 } node.id with
        | none =>
          rw [hc] at h
          cases h
        | some rs =>
          rw [hc] at h
          dsimp only at h
          cases h
          have hWF2 : IndexWF rs.2.index :=
            indexWF_change_parent { s with graph := g2 } node.id rs.1 rs.2 hWF (by rw [hc])
          split <;> exact hWF2
    · dsimp only at h
      cases h
      exact hWF

theorem indexWF_reattach_loop :
    ∀ (ids : List String) (s s' : ServiceState), IndexWF s.index →
    reattach_loop ids s = some s' → IndexWF s'.index := by
  intro ids
  induction ids with
  | nil =>
    intro s s' hWF h
    simp only [reattach_loop, Option.some.injEq] at h
    rw [← h]
    exact hWF
  | cons child_id rest ih =>
    intro s s' hWF h
    unfold reattach_loop at h
    dsimp only at h
    have hWF1 : IndexWF (s.index.detach_node child_id) := indexWF_detach _ _ hWF
    cases hg : s.graph.get_node child_id with
    | none =>
      rw [hg] at h
      exact ih _ s' hWF1 h
    | some child =>
      rw [hg] at h
      dsimp only at h
      cases hc : change_parent_with_routing
          { s with index := s.index.detach_node child_id } child_id with
      | none =>
        rw [hc] at h
        cases h
      | some rs =>
        rw [hc] at h
        dsimp only at h
        have hWF2 : IndexWF rs.2.index :=
          indexWF_change_parent _ child_id rs.1 rs.2 hWF1 (by rw [hc])
        refine ih _ s' ?f h
        split <;> exact hWF2

theorem indexWF_remove_station (s : ServiceState) (station_id : String)
    (s' : ServiceState) (hWF : IndexWF s.index)
    (h : remove_station_and_reattach_children s station_id = some s') :
    IndexWF s'.index := by
  unfold remove_station_and_reattach_children at h
  cases hg : s.graph.get_node station_id with
  | none =>
    rw [hg] at h
    cases h
    exact hWF
  | some station =>
    rw [hg] at h
    dsimp only at h
    by_cases hty : station.node_type ∉
        [NodeType.TRANSMISSION_SUBSTATION, NodeType.DISTRIBUTION_SUBSTATION]
    · rw [if_pos hty] at h
      cases h
      exact hWF
    · rw [if_neg hty] at h
      cases hloop : reattach_loop (s.index.get_children station_id) s with
      | none =>
        rw [hloop] at h
        cases h
      | some s1 =>
        rw [hloop] at h
        cases h
        exact indexWF_remove_node _ _ (indexWF_reattach_loop _ s s1 hWF hloop)

/-- Every reachable state has a well-formed, acyclic index. -/
theorem reachable_indexWF (s : ServiceState) (h : Reachable s) : IndexWF s.index := by
  induction h with
  | init g => exact ⟨by simp [BPlusIndex.empty, dkeys], fun x => ⟨1, by simp
      [chainAt, BPlusIndex.get_parent, BPlusIndex.empty, dget]⟩⟩
  | hydrate s s' _ h ih => exact indexWF_hydrate s s' ih h
  | change_parent s c r s' _ h ih => exact indexWF_change_parent s c r s' ih h
  | force_change s c p r s' _ h ih => exact indexWF_force_change s c p r s' ih h
  | add_node s node edges s' err _ h ih => exact indexWF_add_node s node edges s' err ih h
  | remove_station s station_id s' _ h ih => exact indexWF_remove_station s station_id s' ih h
  | overload s node_id order s' _ _ h ih => exact indexWF_handle_overload s node_id order s' ih h
  | health s s' _ h ih => exact indexWF_health s s' ih h
  | retry s s' _ h ih => exact indexWF_retry s s' ih h

/-! ## No value repeats on a terminating chain -/

theorem chainAt_none_mono (idx : BPlusIndex) (x : String) (k k' : ℕ)
    (h : chainAt idx x k = none) (hk : k ≤ k') : chainAt idx x k' = none := by
  obtain ⟨d, rfl⟩ := Nat.exists_eq_add_of_le hk
  clear hk
  induction d with
  | zero => simpa using h
  | succ d ih =>
    have : k + (d + 1) = (k + d) + 1 := by omega
    rw [this]
    simp [chainAt, ih]

theorem chainAt_periodic (idx : BPlusIndex) (v : String) (d : ℕ)
    (hd : chainAt idx v d = some v) : ∀ n, chainAt idx v (n * d) = some v := by
  intro n
  induction n with
  | zero => simp [chainAt]
  | succ n ih =>
    have : (n + 1) * d = n * d + d := by ring
    rw [this, chainAt_add idx v v (n * d) ih d]
    exact hd

/-- On a terminating chain no node is visited twice. -/
theorem no_revisit_of_terminates (idx : BPlusIndex) (x : String)
    (h : Terminates idx x) :
    ∀ i j v, i < j → chainAt idx x i = some v → chainAt idx x j = some v → False := by
  intro i j v hij hi hj
  have hd : chainAt idx v (j - i) = some v := by
    have hadd := chainAt_add idx x v i hi (j - i)
    rw [Nat.add_sub_cancel' hij.le] at hadd
    rw [← hadd]
    exact hj
  have htv : Terminates idx v := by
    obtain ⟨k, hk⟩ := h
    have hik : i < k := by
      by_contra hik
      push_neg at hik
      rw [chainAt_none_mono idx x k i hk hik] at hi
      cases hi
    have := chainAt_add idx x v i hi (k - i)
    rw [Nat.add_sub_cancel' hik.le] at this
    exact ⟨k - i, by rw [← this]; exact hk⟩
  obtain ⟨k, hk⟩ := htv
  have hper := chainAt_periodic idx v (j - i) hd k
  have hkd : k ≤ k * (j - i) := by
    have h1 : 1 ≤ j - i := by omega
    calc k = k * 1 := by ring
    _ ≤ k * (j - i) := Nat.mul_le_mul_left k h1
  rw [chainAt_none_mono idx v k (k * (j - i)) hk hkd] at hper
  cases hper

/-- Transport a node lookup along a shape-preserving graph change. -/
theorem shape_transport {g g' : PowerGridGraph}
    (hsh : ∀ x, (g'.get_node x).map nshape = (g.get_node x).map nshape)
    {x : String} {n : Node} (h : g.get_node x = some n) :
    ∃ n', g'.get_node x = some n' ∧ n'.id = n.id ∧ n'.node_type = n.node_type ∧
      n'.capacity = n.capacity ∧ n'.nominal_voltage = n.nominal_voltage := by
  have hx := hsh x
  rw [h] at hx
  cases hg : g'.get_node x with
  | none =>
    rw [hg] at hx
    cases hx
  | some n' =>
    rw [hg] at hx
    simp only [Option.map, nshape, Option.some.injEq, Prod.mk.injEq] at hx
    exact ⟨n', rfl, hx.1, hx.2.1, hx.2.2.1, hx.2.2.2⟩

/-- `change_parent_with_routing` either succeeds, or fails leaving the
index untouched. -/
theorem change_parent_success_or_failure (s : ServiceState) (c : String)
    (r : ChangeParentResult) (s' : ServiceState)
    (h : change_parent_with_routing s c = some (r, s')) :
    (r.success = false ∧ s'.index = s.index) ∨ r.success = true := by
  unfold change_parent_with_routing at h
  cases hchild : s.graph.get_node c with
  | none =>
    rw [hchild] at h
    dsimp only at h
    cases h
    exact Or.inl ⟨rfl, rfl⟩
  | some child =>
    rw [hchild] at h
    dsimp only at h
    cases hps : (find_best_parent_for_node s.graph c).parent_id with
    | none =>
      rw [hps] at h
      dsimp only at h
      cases h
      exact Or.inl ⟨rfl, by split <;> rfl⟩
    | some new_parent_id =>
      rw [hps] at h
      dsimp only at h
      by_cases hop : s.index.get_parent c = some new_parent_id
      · rw [if_pos hop] at h
        cases h
        exact Or.inr rfl
      · rw [if_neg hop] at h
        cases hnp : s.graph.get_node new_parent_id with
        | none =>
          rw [hnp] at h
          dsimp only at h
          cases h
          exact Or.inl ⟨rfl, rfl⟩
        | some new_parent =>
          rw [hnp] at h
          dsimp only at h
          by_cases hcap : ¬ _has_capacity_for_child new_parent child = true
          · rw [if_pos hcap] at h
            cases h
            exact Or.inl ⟨rfl, by split <;> rfl⟩
          · rw [if_neg hcap] at h
            cases hold : s.index.get_parent c with
            | none =>
              rw [hold] at h
              dsimp only at h
              cases hprop2 : propagate_load_upwards
                  (propagation_fuel (s.index.set_parent c (some new_parent_id)))
                  new_parent_id
                  (recompute_node_load_from_children new_parent_id s.graph
                    (s.index.set_parent c (some new_parent_id)))
                  (s.index.set_parent c (some new_parent_id)) with
              | none =>
                rw [hprop2] at h
                cases h
              | some g4 =>
                rw [hprop2] at h
                cases h
                exact Or.inr rfl
            | some op =>
              rw [hold] at h
              dsimp only at h
              cases hprop1 : propagate_load_upwards
                  (propagation_fuel (s.index.set_parent c (some new_parent_id))) op
                  (recompute_node_load_from_children op s.graph
                    (s.index.set_parent c (some new_parent_id)))
                  (s.index.set_parent c (some new_parent_id)) with
              | none =>
                rw [hprop1] at h
                cases h
              | some g2 =>
                rw [hprop1] at h
                dsimp only at h
                cases hprop2 : propagate_load_upwards
                    (propagation_fuel (s.index.set_parent c (some new_parent_id)))
                    new_parent_id
                    (recompute_node_load_from_children new_parent_id g2
                      (s.index.set_parent c (some new_parent_id)))
                    (s.index.set_parent c (some new_parent_id)) with
                | none =>
                  rw [hprop2] at h
                  cases h
                | some g4 =>
                  rw [hprop2] at h
                  cases h
                  exact Or.inr rfl

/-- `force_change_parent` either succeeds, or fails leaving the index and
indeed the whole state untouched. -/
theorem force_change_success_or_failure (s : ServiceState) (c p : String)
    (r : ChangeParentResult) (s' : ServiceState)
    (h : force_change_parent s c p = some (r, s')) :
    (r.success = false ∧ s'.index = s.index) ∨ r.success = true := by
  unfold force_change_parent at h
  cases hchild : s.graph.get_node c with
  | none =>
    rw [hchild] at h
    dsimp only at h
    cases h
    exact Or.inl ⟨rfl, rfl⟩
  | some child =>
    rw [hchild] at h
    dsimp only at h
    cases hnp : s.graph.get_node p with
    | none =>
      rw [hnp] at h
      dsimp only at h
      cases h
      exact Or.inl ⟨rfl, rfl⟩
    | some new_parent =>
      rw [hnp] at h
      dsimp only at h
      by_cases hty : new_parent.node_type ∉ _allowed_parent_types_for child.node_type
      · rw [if_pos hty] at h
        cases h
        exact Or.inl ⟨rfl, rfl⟩
      · rw [if_neg hty] at h
        by_cases hcap : ¬ _has_capacity_for_child new_parent child = true
        · rw [if_pos hcap] at h
          cases h
          exact Or.inl ⟨rfl, rfl⟩
        · rw [if_neg hcap] at h
          by_cases hop : s.index.get_parent c = some p
          · rw [if_pos hop] at h
            cases h
            exact Or.inr rfl
          · rw [if_neg hop] at h
            cases hold : s.index.get_parent c with
            | none =>
              rw [hold] at h
              dsimp only at h
              cases hprop2 : propagate_load_upwards
                  (propagation_fuel (s.index.set_parent c (some p))) p
                  (recompute_node_load_from_children p s.graph
                    (s.index.set_parent c (some p)))
                  (s.index.set_parent c (some p)) with
              | none =>
                rw [hprop2] at h
                cases h
              | some g4 =>
                rw [hprop2] at h
                cases h
                exact Or.inr rfl
            | some op =>
              rw [hold] at h
              dsimp only at h
              cases hprop1 : propagate_load_upwards
                  (propagation_fuel (s.index.set_parent c (some p))) op
                  (recompute_node_load_from_children op s.graph
                    (s.index.set_parent c (some p)))
                  (s.index.set_parent c (some p)) with
              | none =>
                rw [hprop1] at h
                cases h
              | some g2 =>
                rw [hprop1] at h
                dsimp only at h
                cases hprop2 : propagate_load_upwards
                    (propagation_fuel (s.index.set_parent c (some p))) p
                    (recompute_node_load_from_children p g2
                      (s.index.set_parent c (some p)))
                    (s.index.set_parent c (some p)) with
                | none =>
                  rw [hprop2] at h
                  cases h
                | some g4 =>
                  rw [hprop2] at h
                  cases h
                  exact Or.inr rfl

/-! ## Shedding-loop support (C2) -/

/-- Detaching a node either leaves a child list unchanged or erases the
detached node from it. -/
theorem get_children_detach (idx : BPlusIndex) (ch nid : String) :
    (idx.detach_node ch).get_children nid = idx.get_children nid ∨
    (idx.detach_node ch).get_children nid = (idx.get_children nid).erase ch := by
  unfold BPlusIndex.detach_node
  cases hdg : dget idx.parent ch with
  | none => exact Or.inl rfl
  | some cp =>
    cases cp with
    | none => exact Or.inl rfl
    | some cpid =>
      by_cases hnid : nid = cpid
      · subst hnid
        right
        simp only [BPlusIndex.get_children, dget_dmodify, if_pos rfl]
        cases hdc : dget idx.children nid <;> simp
      · left
        simp only [BPlusIndex.get_children, dget_dmodify, if_neg hnid]

/-- If the detached node's logical parent is `nid`, detaching erases it
from `nid`'s child list. -/
theorem get_children_detach_of_parent (idx : BPlusIndex) (ch nid : String)
    (hp : idx.get_parent ch = some nid) :
    (idx.detach_node ch).get_children nid = (idx.get_children nid).erase ch := by
  have hdg : dget idx.parent ch = some (some nid) := by
    unfold BPlusIndex.get_parent at hp
    cases hdg : dget idx.parent ch with
    | none =>
      rw [hdg] at hp
      cases hp
    | some v =>
      rw [hdg] at hp
      cases v with
      | none => cases hp
      | some w =>
        cases hp
        rfl
  unfold BPlusIndex.detach_node
  rw [hdg]
  simp only [BPlusIndex.get_children, dget_dmodify, if_pos rfl]
  cases hdc : dget idx.children nid <;> simp

/-- Shape-preserving graph rewrites keep absent nodes absent. -/
theorem none_transport {g g' : PowerGridGraph}
    (hsh : ∀ x, (g'.get_node x).map nshape = (g.get_node x).map nshape)
    {x : String} (h : g.get_node x = none) : g'.get_node x = none := by
  have hx := hsh x
  rw [h] at hx
  cases hg : g'.get_node x with
  | none => rfl
  | some n' =>
    rw [hg] at hx
    cases hx

/-- Load recomputation keeps a numeric `current_load` numeric. -/
theorem recompute_load_some (nid : String) (g : PowerGridGraph) (idx : BPlusIndex)
    (x : String) (n : Node) (h : g.get_node x = some n)
    (hl : n.current_load.isSome = true) :
    ∃ n', (recompute_node_load_from_children nid g idx).get_node x = some n' ∧
      n'.current_load.isSome = true := by
  unfold recompute_node_load_from_children
  cases hg : g.get_node nid with
  | none => exact ⟨n, h, hl⟩
  | some node =>
    rw [get_node_mutate]
    by_cases hx : x = nid
    · rw [if_pos hx, hx, hg]
      exact ⟨_, rfl, rfl⟩
    · rw [if_neg hx]
      exact ⟨n, h, hl⟩

/-- Upward propagation keeps a numeric `current_load` numeric. -/
theorem propagate_load_some (idx : BPlusIndex) :
    ∀ (fuel : ℕ) (start : String) (g g' : PowerGridGraph),
    propagate_load_upwards fuel start g idx = some g' →
    ∀ x n, g.get_node x = some n → n.current_load.isSome = true →
    ∃ n', g'.get_node x = some n' ∧ n'.current_load.isSome = true := by
  intro fuel
  induction fuel with
  | zero =>
    intro start g g' h
    simp [propagate_load_upwards] at h
  | succ fuel ih =>
    intro start g g' h x n hx hl
    simp only [propagate_load_upwards] at h
    cases hp : idx.get_parent start with
    | none =>
      rw [hp] at h
      cases h
      exact ⟨n, hx, hl⟩
    | some pid =>
      rw [hp] at h
      obtain ⟨n1, hn1, hl1⟩ := recompute_load_some pid g idx x n hx hl
      exact ih pid _ _ h x n1 hn1 hl1

/-- Recomputing a present node's load always stores a numeric value. -/
theorem recompute_self_load (nid : String) (g : PowerGridGraph) (idx : BPlusIndex)
    (node : Node) (h : g.get_node nid = some node) :
    ∃ n', (recompute_node_load_from_children nid g idx).get_node nid = some n' ∧
      n'.current_load.isSome = true := by
  unfold recompute_node_load_from_children
  cases hg : g.get_node nid with
  | none =>
    rw [hg] at h
    cases h
  | some node0 =>
    rw [get_node_mutate, if_pos rfl, hg]
    exact ⟨_, rfl, rfl⟩

/-- Post-condition of the shedding loop: provided every logically
registered child of the overloaded node is either scheduled in the
remaining iteration order or absent from the physical graph, the loop
ends with the node's load within capacity or with every remaining
registered child absent from the graph. -/
theorem shed_children_post (nid : String) :
    ∀ (order : List String) (s s' : ServiceState) (node : Node) (cap : ℚ),
    shed_children nid order s = some s' →
    s.graph.get_node nid = some node →
    node.capacity = some cap →
    node.current_load.isSome = true →
    (∀ x ∈ s.index.get_children nid, x ∈ order ∨ s.graph.get_node x = none) →
    (∀ x ∈ s.index.get_children nid, s.index.get_parent x = some nid) →
    (s.index.get_children nid).Nodup →
    (∃ node' load', s'.graph.get_node nid = some node' ∧ node'.capacity = some cap ∧
      node'.current_load = some load' ∧ load' ≤ cap) ∨
    (∀ x ∈ s'.index.get_children nid, s'.graph.get_node x = none) := by
  intro order
  induction order with
  | nil =>
    intro s s' node cap h hnode hcap hload hchl hcoh hnd
    simp only [shed_children] at h
    cases h
    exact Or.inr (fun x hx => (hchl x hx).resolve_left (List.not_mem_nil x))
  | cons ch rest ih =>
    intro s s' node cap h hnode hcap hload hchl hcoh hnd
    simp only [shed_children] at h
    rw [hnode] at h
    dsimp only at h
    obtain ⟨load, hl⟩ := Option.isSome_iff_exists.mp hload
    rw [hl, hcap] at h
    dsimp only at h
    by_cases hle : load ≤ cap
    · rw [if_pos hle] at h
      cases h
      exact Or.inl ⟨node, load, hnode, hcap, hl, hle⟩
    · rw [if_neg hle] at h
      cases hc : s.graph.get_node ch with
      | none =>
        rw [hc] at h
        refine ih s s' node cap h hnode hcap hload ?_ hcoh hnd
        intro x hx
        rcases hchl x hx with hx1 | hx2
        · rcases List.mem_cons.mp hx1 with he | hr
          · exact Or.inr (he ▸ hc)
          · exact Or.inl hr
        · exact Or.inr hx2
      | some child =>
        rw [hc] at h
        dsimp only at h
        cases hprop : propagate_load_upwards
            (propagation_fuel (s.index.detach_node ch)) nid
            (recompute_node_load_from_children nid s.graph (s.index.detach_node ch))
            (s.index.detach_node ch) with
        | none =>
          rw [hprop] at h
          cases h
        | some g2 =>
          rw [hprop] at h
          have hsh : ∀ x, (g2.get_node x).map nshape = (s.graph.get_node x).map nshape :=
            fun x => (nshape_propagate _ _ _ _ _ hprop x).trans
              (nshape_recompute nid s.graph _ x)
          obtain ⟨node1, hn1, hl1⟩ :=
            recompute_self_load nid s.graph (s.index.detach_node ch) node hnode
          obtain ⟨node2, hn2, hl2⟩ := propagate_load_some _ _ _ _ _ hprop nid node1 hn1 hl1
          obtain ⟨node2', hn2', _, _, hcap2, _⟩ := shape_transport hsh hnode
          have hnodeeq : node2' = node2 := by
            rw [hn2] at hn2'
            exact (Option.some.inj hn2').symm
          subst hnodeeq
          have hstep : ∀ x ∈ (s.index.detach_node ch).get_children nid,
              x ∈ s.index.get_children nid ∧ x ≠ ch := by
            intro x hx
            by_cases hmem : ch ∈ s.index.get_children nid
            · have hpch := hcoh ch hmem
              rw [get_children_detach_of_parent s.index ch nid hpch] at hx
              exact ⟨List.mem_of_mem_erase hx, ((List.Nodup.mem_erase_iff hnd).mp hx).1⟩
            · rcases get_children_detach s.index ch nid with hcd | hcd
              · rw [hcd] at hx
                exact ⟨hx, fun he => hmem (he ▸ hx)⟩
              · rw [hcd] at hx
                have hx' := List.mem_of_mem_erase hx
                exact ⟨hx', fun he => hmem (he ▸ hx')⟩
          refine ih _ s' node2' cap h hn2 (hcap2.trans hcap) hl2 ?_ ?_ ?_
          · intro x hx
            obtain ⟨hxCL, hxne⟩ := hstep x hx
            rcases hchl x hxCL with hx1 | hx2
            · rcases List.mem_cons.mp hx1 with he | hr
              · exact absurd he hxne
              · exact Or.inl hr
            · exact Or.inr (none_transport hsh hx2)
          · intro x hx
            obtain ⟨hxCL, hxne⟩ := hstep x hx
            show (s.index.detach_node ch).get_parent x = some nid
            rw [BPlusIndex.get_parent_detach, if_neg hxne]
            exact hcoh x hxCL
          · show ((s.index.detach_node ch).get_children nid).Nodup
            rcases get_children_detach s.index ch nid with hcd | hcd
            · rw [hcd]
              exact hnd
            · rw [hcd]
              exact hnd.erase ch

/-! ## Recovery-sweep support (C7) -/

/-- A successful lookup exhibits a stored entry. -/
theorem dget_mem {α : Type} (m : List (String × α)) (k : String) (v : α)
    (h : dget m k = some v) : (k, v) ∈ m := by
  induction m with
  | nil => cases h
  | cons p rest ih =>
    obtain ⟨k', v'⟩ := p
    simp only [dget] at h
    by_cases hk : k = k'
    · subst hk
      rw [if_pos rfl] at h
      cases h
      exact List.mem_cons_self _ _
    · rw [if_neg hk] at h
      exact List.mem_cons_of_mem _ (ih h)

/-- With duplicate-free keys, a stored entry is what `dget` finds. -/
theorem dget_of_mem_nodup {α : Type} (m : List (String × α)) (k : String) (v : α)
    (hmem : (k, v) ∈ m) (hnd : (dkeys m).Nodup) : dget m k = some v := by
  induction m with
  | nil => cases hmem
  | cons p rest ih =>
    obtain ⟨k', v'⟩ := p
    simp only [dkeys, List.map_cons, List.nodup_cons] at hnd
    rcases List.mem_cons.mp hmem with he | hm
    · injection he with h1 h2
      subst h1
      subst h2
      simp [dget]
    · have hk : ¬ k = k' := by
        intro hkk
        subst hkk
        exact hnd.1 (List.mem_map.mpr ⟨(k, v), hm, rfl⟩)
      simp only [dget, if_neg hk]
      exact ih hm hnd.2

/-- `dmodify` keeps the key sequence. -/
theorem dkeys_dmodify {α : Type} (m : List (String × α)) (k : String) (f : α → α) :
    dkeys (dmodify m k f) = dkeys m := by
  induction m with
  | nil => rfl
  | cons p rest ih =>
    obtain ⟨k', v'⟩ := p
    simp only [dmodify]
    by_cases hk : k = k'
    · rw [if_pos hk]
      simp [dkeys]
    · rw [if_neg hk]
      simp only [dkeys, List.map_cons] at ih ⊢
      rw [ih]

theorem dkeys_mutate (g : PowerGridGraph) (nid : String) (f : Node → Node) :
    dkeys (g.mutate_node nid f).nodes = dkeys g.nodes := by
  simp [PowerGridGraph.mutate_node, dkeys_dmodify]

theorem dkeys_recompute (nid : String) (g : PowerGridGraph) (idx : BPlusIndex) :
    dkeys (recompute_node_load_from_children nid g idx).nodes = dkeys g.nodes := by
  unfold recompute_node_load_from_children
  cases hg : g.get_node nid with
  | none => rfl
  | some node => exact dkeys_mutate g nid _

theorem dkeys_propagate (idx : BPlusIndex) :
    ∀ (fuel : ℕ) (start : String) (g g' : PowerGridGraph),
    propagate_load_upwards fuel start g idx = some g' →
    dkeys g'.nodes = dkeys g.nodes := by
  intro fuel
  induction fuel with
  | zero =>
    intro start g g' h
    simp [propagate_load_upwards] at h
  | succ fuel ih =>
    intro start g g' h
    simp only [propagate_load_upwards] at h
    cases hp : idx.get_parent start with
    | none =>
      rw [hp] at h
      cases h
      rfl
    | some pid =>
      rw [hp] at h
      exact (ih pid _ _ h).trans (dkeys_recompute pid g idx)

/-- The facts about one `change_parent_with_routing` call needed by the
recovery sweep: node shapes and keys survive, a success records a parent
for the child, and the parent map and unsupplied set change at most at the
child (a new unsupplied entry requires the child to be a graph consumer). -/
theorem change_parent_retry_facts (s : ServiceState) (c : String)
    (r : ChangeParentResult) (s' : ServiceState)
    (h : change_parent_with_routing s c = some (r, s')) :
    (∀ x, (s'.graph.get_node x).map nshape = (s.graph.get_node x).map nshape) ∧
    dkeys s'.graph.nodes = dkeys s.graph.nodes ∧
    (r.success = true → ∃ pid, s'.index.get_parent c = some pid) ∧
    (∀ x, x ≠ c → s'.index.get_parent x = s.index.get_parent x) ∧
    (∀ x, x ≠ c → (x ∈ s'.unsupplied_consumers ↔ x ∈ s.unsupplied_consumers)) ∧
    (∀ x, x ∈ s'.unsupplied_consumers → x ∈ s.unsupplied_consumers ∨
      (x = c ∧ ∃ ch, s.graph.get_node c = some ch ∧
        ch.node_type = NodeType.CONSUMER_POINT)) := by
  unfold change_parent_with_routing at h
  cases hchild : s.graph.get_node c with
  | none =>
    rw [hchild] at h
    dsimp only at h
    cases h
    exact ⟨fun x => rfl, rfl, fun hs => absurd hs Bool.false_ne_true,
      fun x _ => rfl, fun x _ => Iff.rfl, fun x hx => Or.inl hx⟩
  | some child =>
    rw [hchild] at h
    dsimp only at h
    cases hps : (find_best_parent_for_node s.graph c).parent_id with
    | none =>
      rw [hps] at h
      dsimp only at h
      cases h
      refine ⟨fun x => ?_, ?_, fun hs => absurd hs Bool.false_ne_true,
        fun x _ => ?_, fun x hx => ?_, fun x hx => ?_⟩
      · split <;> rfl
      · split <;> rfl
      · split <;> rfl
      · by_cases hcons : child.node_type = NodeType.CONSUMER_POINT
        · rw [if_pos hcons]
          simp [Finset.mem_insert, hx]
        · rw [if_neg hcons]
      · by_cases hcons : child.node_type = NodeType.CONSUMER_POINT
        · rw [if_pos hcons] at hx
          rcases Finset.mem_insert.mp hx with he | hm
          · exact Or.inr ⟨he, child, rfl, hcons⟩
          · exact Or.inl hm
        · rw [if_neg hcons] at hx
          exact Or.inl hx
    | some new_parent_id =>
      rw [hps] at h
      dsimp only at h
      by_cases hop : s.index.get_parent c = some new_parent_id
      · rw [if_pos hop] at h
        cases h
        exact ⟨fun x => rfl, rfl, fun _ => ⟨new_parent_id, hop⟩,
          fun x _ => rfl, fun x _ => Iff.rfl, fun x hx => Or.inl hx⟩
      · rw [if_neg hop] at h
        cases hnp : s.graph.get_node new_parent_id with
        | none =>
          rw [hnp] at h
          dsimp only at h
          cases h
          exact ⟨fun x => rfl, rfl, fun hs => absurd hs Bool.false_ne_true,
            fun x _ => rfl, fun x _ => Iff.rfl, fun x hx => Or.inl hx⟩
        | some new_parent =>
          rw [hnp] at h
          dsimp only at h
          by_cases hcap : ¬ _has_capacity_for_child new_parent child = true
          · rw [if_pos hcap] at h
            cases h
            refine ⟨fun x => ?_, ?_, fun hs => absurd hs Bool.false_ne_true,
              fun x _ => ?_, fun x hx => ?_, fun x hx => ?_⟩
            · split <;> rfl
            · split <;> rfl
            · split <;> rfl
            · by_cases hcons : child.node_type = NodeType.CONSUMER_POINT
              · rw [if_pos hcons]
                simp [Finset.mem_insert, hx]
              · rw [if_neg hcons]
            · by_cases hcons : child.node_type = NodeType.CONSUMER_POINT
              · rw [if_pos hcons] at hx
                rcases Finset.mem_insert.mp hx with he | hm
                · exact Or.inr ⟨he, child, rfl, hcons⟩
                · exact Or.inl hm
              · rw [if_neg hcons] at hx
                exact Or.inl hx
          · rw [if_neg hcap] at h
            cases hold : s.index.get_parent c with
            | none =>
              rw [hold] at h
              dsimp only at h
              cases hprop2 : propagate_load_upwards
                  (propagation_fuel (s.index.set_parent c (some new_parent_id)))
                  new_parent_id
                  (recompute_node_load_from_children new_parent_id s.graph
                    (s.index.set_parent c (some new_parent_id)))
                  (s.index.set_parent c (some new_parent_id)) with
              | none =>
                rw [hprop2] at h
                cases h
              | some g4 =>
                rw [hprop2] at h
                cases h
                refine ⟨fun x => ?_, ?_, fun _ => ⟨new_parent_id, ?_⟩,
                  fun x hx => ?_, fun x hx => ?_, fun x hx => Or.inl ?_⟩
                · exact (nshape_propagate _ _ _ _ _ hprop2 x).trans
                    (nshape_recompute new_parent_id s.graph _ x)
                · exact (dkeys_propagate _ _ _ _ _ hprop2).trans
                    (dkeys_recompute new_parent_id s.graph _)
                · show (s.index.set_parent c (some new_parent_id)).get_parent c =
                    some new_parent_id
                  rw [BPlusIndex.get_parent_set_parent, if_pos rfl]
                · show (s.index.set_parent c (some new_parent_id)).get_parent x =
                    s.index.get_parent x
                  rw [BPlusIndex.get_parent_set_parent, if_neg hx]
                · by_cases hcons : child.node_type = NodeType.CONSUMER_POINT
                  · rw [if_pos hcons]
                    simp [Finset.mem_erase, hx]
                  · rw [if_neg hcons]
                · by_cases hcons : child.node_type = NodeType.CONSUMER_POINT
                  · rw [if_pos hcons] at hx
                    exact Finset.mem_of_mem_erase hx
                  · rw [if_neg hcons] at hx
                    exact hx
            | some op =>
              rw [hold] at h
              dsimp only at h
              cases hprop1 : propagate_load_upwards
                  (propagation_fuel (s.index.set_parent c (some new_parent_id))) op
                  (recompute_node_load_from_children op s.graph
                    (s.index.set_parent c (some new_parent_id)))
                  (s.index.set_parent c (some new_parent_id)) with
              | none =>
                rw [hprop1] at h
                cases h
              | some g2 =>
                rw [hprop1] at h
                dsimp only at h
                cases hprop2 : propagate_load_upwards
                    (propagation_fuel (s.index.set_parent c (some new_parent_id)))
                    new_parent_id
                    (recompute_node_load_from_children new_parent_id g2
                      (s.index.set_parent c (some new_parent_id)))
                    (s.index.set_parent c (some new_parent_id)) with
                | none =>
                  rw [hprop2] at h
                  cases h
                | some g4 =>
                  rw [hprop2] at h
                  cases h
                  refine ⟨fun x => ?_, ?_, fun _ => ⟨new_parent_id, ?_⟩,
                    fun x hx => ?_, fun x hx => ?_, fun x hx => Or.inl ?_⟩
                  · exact ((nshape_propagate _ _ _ _ _ hprop2 x).trans
                      (nshape_recompute new_parent_id g2 _ x)).trans
                      ((nshape_propagate _ _ _ _ _ hprop1 x).trans
                        (nshape_recompute op s.graph _ x))
                  · exact ((dkeys_propagate _ _ _ _ _ hprop2).trans
                      (dkeys_recompute new_parent_id g2 _)).trans
                      ((dkeys_propagate _ _ _ _ _ hprop1).trans
                        (dkeys_recompute op s.graph _))
                  · show (s.index.set_parent c (some new_parent_id)).get_parent c =
                      some new_parent_id
                    rw [BPlusIndex.get_parent_set_parent, if_pos rfl]
                  · show (s.index.set_parent c (some new_parent_id)).get_parent x =
                      s.index.get_parent x
                    rw [BPlusIndex.get_parent_set_parent, if_neg hx]
                  · by_cases hcons : child.node_type = NodeType.CONSUMER_POINT
                    · rw [if_pos hcons]
                      simp [Finset.mem_erase, hx]
                    · rw [if_neg hcons]
                  · by_cases hcons : child.node_type = NodeType.CONSUMER_POINT
                    · rw [if_pos hcons] at hx
                      exact Finset.mem_of_mem_erase hx
                    · rw [if_neg hcons] at hx
                      exact hx

/-- The recovery loop preserves node shapes and the key sequence. -/
theorem retry_loop_shape :
    ∀ (work : List Node) (s s' : ServiceState), retry_loop work s = some s' →
    (∀ x, (s'.graph.get_node x).map nshape = (s.graph.get_node x).map nshape) ∧
    dkeys s'.graph.nodes = dkeys s.graph.nodes := by
  intro work
  induction work with
  | nil =>
    intro s s' h
    simp only [retry_loop, Option.some.injEq] at h
    subst h
    exact ⟨fun x => rfl, rfl⟩
  | cons n rest ih =>
    intro s s' h
    unfold retry_loop at h
    cases hc : change_parent_with_routing s n.id with
    | none =>
      rw [hc] at h
      cases h
    | some rs =>
      rw [hc] at h
      dsimp only at h
      obtain ⟨hsh1, hk1, -, -, -, -⟩ :=
        change_parent_retry_facts s n.id rs.1 rs.2 (by rw [hc])
      have key : ∀ t : ServiceState, retry_loop rest t = some s' →
          t.graph = rs.2.graph →
          (∀ x, (s'.graph.get_node x).map nshape = (s.graph.get_node x).map nshape) ∧
          dkeys s'.graph.nodes = dkeys s.graph.nodes := by
        intro t ht htg
        obtain ⟨hsh2, hk2⟩ := ih t s' ht
        rw [htg] at hsh2 hk2
        exact ⟨fun x => (hsh2 x).trans (hsh1 x), hk2.trans hk1⟩
      refine key _ h ?_
      split <;> split <;> rfl

/-- Identifier/key consistency transports along shape-preserving rewrites. -/
theorem id_consistent_transport {s s1 : ServiceState}
    (hsh : ∀ x, (s1.graph.get_node x).map nshape = (s.graph.get_node x).map nshape)
    (hkeys : dkeys s1.graph.nodes = dkeys s.graph.nodes)
    (hnd : (dkeys s.graph.nodes).Nodup)
    (hid : ∀ p ∈ s.graph.nodes, p.2.id = p.1) :
    ∀ p ∈ s1.graph.nodes, p.2.id = p.1 := by
  intro p hp
  have hnd1 : (dkeys s1.graph.nodes).Nodup := by
    rw [hkeys]
    exact hnd
  have hget : s1.graph.get_node p.1 = some p.2 := dget_of_mem_nodup _ _ _ hp hnd1
  obtain ⟨n0, hn0, hid0, -, -, -⟩ :=
    shape_transport (fun z => (hsh z).symm) hget
  rw [← hid0]
  exact hid (p.1, n0) (dget_mem _ _ _ hn0)

/-- The sorted orphan worklist of `retry_unsupplied_routing`: every entry
is a graph node of its own id with no logical parent, and every consumer
orphan of the graph appears on it. -/
theorem orphan_worklist_facts (s : ServiceState)
    (hnd : (dkeys s.graph.nodes).Nodup)
    (hid : ∀ p ∈ s.graph.nodes, p.2.id = p.1) :
    (∀ m ∈ (orphan_nodes s).mergeSort
        (fun a b => decide (routing_priority a ≤ routing_priority b)),
      ∃ node, s.graph.get_node m.id = some node ∧ node.node_type = m.node_type ∧
        s.index.get_parent m.id = none) ∧
    (∀ x nx, s.graph.get_node x = some nx →
      nx.node_type = NodeType.CONSUMER_POINT → s.index.get_parent x = none →
      ∃ m, m ∈ (orphan_nodes s).mergeSort
          (fun a b => decide (routing_priority a ≤ routing_priority b)) ∧
        m.id = x) := by
  constructor
  · intro m hm
    have hmo : m ∈ orphan_nodes s :=
      (List.mergeSort_perm (orphan_nodes s) _).mem_iff.mp hm
    unfold orphan_nodes at hmo
    obtain ⟨hmem, hpred⟩ := List.mem_filter.mp hmo
    obtain ⟨p, hp, hpm⟩ := List.mem_map.mp hmem
    have hdg : dget s.graph.nodes p.1 = some p.2 := dget_of_mem_nodup _ _ _ hp hnd
    have hmid : m.id = p.1 := by
      rw [← hpm]
      exact hid p hp
    rw [Bool.and_eq_true, decide_eq_true_iff, decide_eq_true_iff] at hpred
    refine ⟨m, ?_, rfl, hpred.2⟩
    show dget s.graph.nodes m.id = some m
    rw [hmid, hdg, hpm]
  · intro x nx hx hty hpar
    have hmem : (x, nx) ∈ s.graph.nodes := dget_mem _ _ _ hx
    have hxid : nx.id = x := hid (x, nx) hmem
    refine ⟨nx, ?_, hxid⟩
    rw [(List.mergeSort_perm (orphan_nodes s) _).mem_iff]
    unfold orphan_nodes
    refine List.mem_filter.mpr ⟨List.mem_map.mpr ⟨(x, nx), hmem, rfl⟩, ?_⟩
    rw [Bool.and_eq_true, decide_eq_true_iff, decide_eq_true_iff]
    constructor
    · rw [hty]
      decide
    · rw [hxid]
      exact hpar

/-- After a completed recovery loop, every consumer orphan of the final
state is recorded unsupplied, provided the worklist covered the initial
consumer orphans. -/
theorem retry_loop_orphans_covered :
    ∀ (work : List Node) (s s' : ServiceState),
    retry_loop work s = some s' →
    (∀ m ∈ work, ∃ node, s.graph.get_node m.id = some node ∧
      node.node_type = m.node_type) →
    (∀ x nx, s.graph.get_node x = some nx →
      nx.node_type = NodeType.CONSUMER_POINT → s.index.get_parent x = none →
      x ∈ s.unsupplied_consumers ∨ ∃ m, m ∈ work ∧ m.id = x) →
    ∀ x nx, s'.graph.get_node x = some nx →
      nx.node_type = NodeType.CONSUMER_POINT → s'.index.get_parent x = none →
      x ∈ s'.unsupplied_consumers := by
  intro work
  induction work with
  | nil =>
    intro s s' h htypes hcov x nx hx hty hpar
    simp only [retry_loop, Option.some.injEq] at h
    subst h
    rcases hcov x nx hx hty hpar with hin | ⟨m, hm, -⟩
    · exact hin
    · exact absurd hm (List.not_mem_nil m)
  | cons n rest ih =>
    intro s s' h htypes hcov x nx hx hty hpar
    unfold retry_loop at h
    cases hc : change_parent_with_routing s n.id with
    | none =>
      rw [hc] at h
      cases h
    | some rs =>
      rw [hc] at h
      dsimp only at h
      obtain ⟨hsh1, -, hsucc1, hpar1, hiff1, -⟩ :=
        change_parent_retry_facts s n.id rs.1 rs.2 (by rw [hc])
      have key : ∀ t : ServiceState, retry_loop rest t = some s' →
          t.graph = rs.2.graph → t.index = rs.2.index →
          (∀ y, y ≠ n.id →
            (y ∈ t.unsupplied_consumers ↔ y ∈ rs.2.unsupplied_consumers)) →
          (rs.1.success = false → n.node_type = NodeType.CONSUMER_POINT →
            n.id ∈ t.unsupplied_consumers) →
          x ∈ s'.unsupplied_consumers := by
        intro t ht htg hti htu htins
        refine ih t s' ht ?_ ?_ x nx hx hty hpar
        · intro m hm
          obtain ⟨node0, hn0, hty0⟩ := htypes m (List.mem_cons_of_mem n hm)
          obtain ⟨node1, hn1, -, htyeq, -, -⟩ := shape_transport hsh1 hn0
          refine ⟨node1, ?_, htyeq.trans hty0⟩
          rw [htg]
          exact hn1
        · intro y ny hy hcy hpy
          have hy2 : rs.2.graph.get_node y = some ny := by
            rw [← htg]
            exact hy
          obtain ⟨ny0, hny0, -, htyy, -, -⟩ :=
            shape_transport (fun z => (hsh1 z).symm) hy2
          by_cases hyn : y = n.id
          · subst hyn
            by_cases hsuc : rs.1.success = true
            · obtain ⟨pid, hpid⟩ := hsucc1 hsuc
              rw [hti] at hpy
              rw [hpy] at hpid
              cases hpid
            · have hcons : n.node_type = NodeType.CONSUMER_POINT := by
                obtain ⟨node0, hn0, hty0⟩ := htypes n (List.mem_cons_self n rest)
                have he : node0 = ny0 := by
                  rw [hn0] at hny0
                  exact Option.some.inj hny0
                rw [← hty0, he, htyy, hcy]
              have hfalse : rs.1.success = false := by
                cases hb : rs.1.success
                · rfl
                · exact absurd hb hsuc
              exact Or.inl (htins hfalse hcons)
          · have hpy2 : rs.2.index.get_parent y = none := by
              rw [← hti]
              exact hpy
            have hpy0 : s.index.get_parent y = none := by
              rw [← hpar1 y hyn]
              exact hpy2
            rcases hcov y ny0 hny0 (htyy.trans hcy) hpy0 with hin | ⟨m, hm, hmy⟩
            · exact Or.inl ((htu y hyn).mpr ((hiff1 y hyn).mpr hin))
            · rcases List.mem_cons.mp hm with he | hr
              · exact absurd (he ▸ hmy : n.id = y).symm hyn
              · exact Or.inr ⟨m, hr, hmy⟩
      refine key _ h ?_ ?_ ?_ ?_
      · split <;> split <;> rfl
      · split <;> split <;> rfl
      · intro y hy
        split <;> split <;> simp [Finset.mem_erase, Finset.mem_insert, hy]
      · intro hf hcons
        rw [hf, if_neg Bool.false_ne_true, if_pos hcons]
        exact Finset.mem_insert_self _ _

/-- A completed recovery loop never grows the unsupplied set beyond a
cover of its worklist's consumers and the initial unsupplied set. -/
theorem retry_loop_unsupplied_mono :
    ∀ (work : List Node) (s s' : ServiceState) (U : Finset String),
    retry_loop work s = some s' →
    (∀ m ∈ work, ∃ node, s.graph.get_node m.id = some node ∧
      node.node_type = m.node_type) →
    (∀ m ∈ work, m.node_type = NodeType.CONSUMER_POINT → m.id ∈ U) →
    s.unsupplied_consumers ⊆ U →
    s'.unsupplied_consumers ⊆ U := by
  intro work
  induction work with
  | nil =>
    intro s s' U h htypes hU hsub
    simp only [retry_loop, Option.some.injEq] at h
    subst h
    exact hsub
  | cons n rest ih =>
    intro s s' U h htypes hU hsub
    unfold retry_loop at h
    cases hc : change_parent_with_routing s n.id with
    | none =>
      rw [hc] at h
      cases h
    | some rs =>
      rw [hc] at h
      dsimp only at h
      obtain ⟨hsh1, -, -, -, -, hdes1⟩ :=
        change_parent_retry_facts s n.id rs.1 rs.2 (by rw [hc])
      have hsub1 : rs.2.unsupplied_consumers ⊆ U := by
        intro y hy
        rcases hdes1 y hy with hin | ⟨hye, ch, hch, hcty⟩
        · exact hsub hin
        · obtain ⟨node0, hn0, hty0⟩ := htypes n (List.mem_cons_self n rest)
          have he : ch = node0 := by
            rw [hn0] at hch
            exact (Option.some.inj hch).symm
          subst hye
          refine hU n (List.mem_cons_self n rest) ?_
          rw [← hty0, ← he]
          exact hcty
      have key : ∀ t : ServiceState, retry_loop rest t = some s' →
          t.graph = rs.2.graph → t.unsupplied_consumers ⊆ U →
          s'.unsupplied_consumers ⊆ U := by
        intro t ht htg htu
        refine ih t s' U ht ?_ ?_ htu
        · intro m hm
          obtain ⟨node0, hn0, hty0⟩ := htypes m (List.mem_cons_of_mem n hm)
          obtain ⟨node1, hn1, -, htyeq, -, -⟩ := shape_transport hsh1 hn0
          refine ⟨node1, ?_, htyeq.trans hty0⟩
          rw [htg]
          exact hn1
        · intro m hm hcm
          exact hU m (List.mem_cons_of_mem n hm) hcm
      refine key _ h ?_ ?_
      · split <;> split <;> rfl
      · by_cases hsuc : rs.1.success = true
        · rw [if_pos hsuc]
          by_cases hcons : n.node_type = NodeType.CONSUMER_POINT
          · rw [if_pos hcons]
            exact fun y hy => hsub1 (Finset.mem_of_mem_erase hy)
          · rw [if_neg hcons]
            exact hsub1
        · rw [if_neg hsuc]
          by_cases hcons : n.node_type = NodeType.CONSUMER_POINT
          · rw [if_pos hcons]
            exact Finset.insert_subset_iff.mpr
              ⟨hU n (List.mem_cons_self n rest) hcons, hsub1⟩
          · rw [if_neg hcons]
            exact hsub1

/-- First recovery sweep from the stale-load fixture (`mergeSort` is
rewritten away first — the orphan scan of `exS7` is already in priority
order — because well-founded recursion does not reduce definitionally). -/
theorem exS7_retry1 : retry_unsupplied_routing exS7 = some exS7a := by
  unfold retry_unsupplied_routing
  rw [List.mergeSort_of_sorted (by decide)]
  decide

/-- Second recovery sweep from the stale-load fixture. -/
theorem exS7_retry2 : retry_unsupplied_routing exS7a = some exS7b := by
  unfold retry_unsupplied_routing
  rw [List.mergeSort_of_sorted (by decide)]
  decide

/-! ## Priority-queue lemmas (C6) -/

theorem entryLE_cost_le (x y : QEntry) (h : entryLE x y = true) : x.1 ≤ y.1 := by
  unfold entryLE at h
  by_cases h1 : x.1 < y.1
  · exact le_of_lt h1
  · rw [if_neg h1] at h
    by_cases h2 : y.1 < x.1
    · rw [if_pos h2] at h
      cases h
    · exact le_of_not_lt h2

theorem entryLE_cost_ge (x y : QEntry) (h : entryLE x y = false) : y.1 ≤ x.1 := by
  unfold entryLE at h
  by_cases h1 : x.1 < y.1
  · rw [if_pos h1] at h
    cases h
  · exact le_of_not_lt h1

theorem qInsert_mem (e : QEntry) (l : List QEntry) (a : QEntry) :
    a ∈ qInsert e l ↔ a = e ∨ a ∈ l := by
  induction l with
  | nil => simp [qInsert]
  | cons x xs ih =>
    simp only [qInsert]
    by_cases hle : entryLE e x = true
    · rw [if_pos hle]
      simp only [List.mem_cons]
    · rw [if_neg hle]
      simp only [List.mem_cons, ih]
      tauto

theorem foldl_qInsert_mem (es : List QEntry) :
    ∀ (q : List QEntry) (a : QEntry),
    a ∈ es.foldl (fun acc e => qInsert e acc) q ↔ a ∈ q ∨ a ∈ es := by
  induction es with
  | nil =>
    intro q a
    simp
  | cons e rest ih =>
    intro q a
    simp only [List.foldl_cons]
    rw [ih, qInsert_mem]
    simp only [List.mem_cons]
    tauto

theorem qInsert_cost_sorted (e : QEntry) (l : List QEntry)
    (h : List.Pairwise (fun a b : QEntry => a.1 ≤ b.1) l) :
    List.Pairwise (fun a b : QEntry => a.1 ≤ b.1) (qInsert e l) := by
  induction l with
  | nil => simp [qInsert]
  | cons x xs ih =>
    rw [List.pairwise_cons] at h
    simp only [qInsert]
    by_cases hle : entryLE e x = true
    · rw [if_pos hle]
      constructor
      · intro b hb
        rcases List.mem_cons.mp hb with he | hm
        · rw [he]
          exact entryLE_cost_le _ _ hle
        · exact le_trans (entryLE_cost_le _ _ hle) (h.1 b hm)
      · exact List.pairwise_cons.mpr h
    · rw [if_neg hle]
      have hle' : entryLE e x = false := by
        cases hb2 : entryLE e x
        · rfl
        · exact absurd hb2 hle
      constructor
      · intro b hb
        rcases (qInsert_mem e xs b).mp hb with he | hm
        · rw [he]
          exact entryLE_cost_ge _ _ hle'
        · exact h.1 b hm
      · exact ih h.2

theorem foldl_qInsert_cost_sorted (es : List QEntry) :
    ∀ q : List QEntry, List.Pairwise (fun a b : QEntry => a.1 ≤ b.1) q →
    List.Pairwise (fun a b : QEntry => a.1 ≤ b.1)
      (es.foldl (fun acc e => qInsert e acc) q) := by
  induction es with
  | nil =>
    intro q h
    exact h
  | cons e rest ih =>
    intro q h
    exact ih _ (qInsert_cost_sorted e q h)

theorem qInsert_length (e : QEntry) (l : List QEntry) :
    (qInsert e l).length = l.length + 1 := by
  induction l with
  | nil => rfl
  | cons x xs ih =>
    simp only [qInsert]
    by_cases hle : entryLE e x = true
    · rw [if_pos hle]
      rfl
    · rw [if_neg hle]
      simp [List.length_cons, ih]

theorem foldl_qInsert_length (es : List QEntry) :
    ∀ q : List QEntry,
    (es.foldl (fun acc e => qInsert e acc) q).length = q.length + es.length := by
  induction es with
  | nil =>
    intro q
    rfl
  | cons e rest ih =>
    intro q
    simp only [List.foldl_cons]
    rw [ih, qInsert_length]
    simp only [List.length_cons]
    omega

/-! ## Adjacency characterisation (C6) -/

theorem dget_append_entry (acc : List (String × List Edge)) (k x : String) (e : Edge) :
    dget (dmodify (dsetdefault acc k []) k (fun l => l ++ [e])) x =
      if x = k then some ((dget acc k).getD [] ++ [e]) else dget acc x := by
  rw [dget_dmodify]
  by_cases hx : x = k
  · rw [if_pos hx, if_pos hx, dget_dsetdefault, if_pos rfl]
    rfl
  · rw [if_neg hx, if_neg hx, dget_dsetdefault, if_neg hx]

theorem mem_adj_step (acc : List (String × List Edge)) (e0 ed : Edge) (x : String) :
    ed ∈ (dget (dmodify (dsetdefault
        (dmodify (dsetdefault acc e0.from_node_id []) e0.from_node_id
          (fun l => l ++ [e0]))
        e0.to_node_id []) e0.to_node_id (fun l => l ++ [e0])) x).getD [] ↔
      ed ∈ (dget acc x).getD [] ∨
        (ed = e0 ∧ (e0.from_node_id = x ∨ e0.to_node_id = x)) := by
  rw [dget_append_entry]
  by_cases hto : x = e0.to_node_id
  · rw [if_pos hto, dget_append_entry]
    by_cases hfrom : e0.to_node_id = e0.from_node_id
    · rw [if_pos hfrom]
      subst hto
      simp [List.mem_append, hfrom]
    · rw [if_neg hfrom]
      subst hto
      simp [List.mem_append]
  · rw [if_neg hto, dget_append_entry]
    by_cases hfrom : x = e0.from_node_id
    · rw [if_pos hfrom]
      subst hfrom
      simp [List.mem_append]
    · rw [if_neg hfrom]
      have h1 : ¬ e0.from_node_id = x := fun h => hfrom h.symm
      have h2 : ¬ e0.to_node_id = x := fun h => hto h.symm
      simp [h1, h2]

theorem mem_adjacency (g : PowerGridGraph) (x : String) (ed : Edge) :
    ed ∈ (dget (_build_edge_adjacency g) x).getD [] ↔
      (∃ k, (k, ed) ∈ g.edges) ∧ (ed.from_node_id = x ∨ ed.to_node_id = x) := by
  unfold _build_edge_adjacency
  have main : ∀ (l : List (String × Edge)) (acc : List (String × List Edge)),
      ed ∈ (dget (l.foldl (fun adjacency p =>
          dmodify (dsetdefault
            (dmodify (dsetdefault adjacency p.2.from_node_id []) p.2.from_node_id
              (fun l => l ++ [p.2]))
            p.2.to_node_id []) p.2.to_node_id (fun l => l ++ [p.2])) acc) x).getD [] ↔
        ed ∈ (dget acc x).getD [] ∨
          ((∃ k, (k, ed) ∈ l) ∧ (ed.from_node_id = x ∨ ed.to_node_id = x)) := by
    intro l
    induction l with
    | nil =>
      intro acc
      simp
    | cons p rest ih =>
      intro acc
      simp only [List.foldl_cons]
      rw [ih, mem_adj_step]
      constructor
      · rintro ((hacc | ⟨he, hinc⟩) | ⟨⟨k, hk⟩, hinc⟩)
        · exact Or.inl hacc
        · refine Or.inr ⟨⟨p.1, ?_⟩, ?_⟩
          · rw [he]
            exact List.mem_cons_self _ _
          · rw [he]
            exact hinc
        · exact Or.inr ⟨⟨k, List.mem_cons_of_mem _ hk⟩, hinc⟩
      · rintro (hacc | ⟨⟨k, hk⟩, hinc⟩)
        · exact Or.inl (Or.inl hacc)
        · rcases List.mem_cons.mp hk with he | hr
          · have he2 : ed = p.2 := congrArg Prod.snd he
            refine Or.inl (Or.inr ⟨he2, ?_⟩)
            rw [← he2]
            exact hinc
          · exact Or.inr ⟨⟨k, hr⟩, hinc⟩
  rw [main g.edges []]
  simp [dget]

/-! ## Non-negative edge costs (C6) -/

theorem edge_resistance_nonneg (g : PowerGridGraph) (e : Edge) (r : ℚ)
    (h : _edge_resistance g e = some r) (hlen : 0 ≤ e.length) : 0 ≤ r := by
  unfold _edge_resistance at h
  dsimp only at h
  by_cases hl : e.length ≤ 0
  · rw [if_pos hl] at h
    cases h
    exact le_refl 0
  · rw [if_neg hl] at h
    cases hv : _infer_edge_voltage g e with
    | none =>
      rw [hv] at h
      cases h
    | some voltage =>
      rw [hv] at h
      dsimp only at h
      by_cases hv0 : voltage ≤ 0
      · rw [if_pos hv0] at h
        cases h
      · rw [if_neg hv0] at h
        cases h
        cases _classify_voltage_level voltage
        all_goals
          exact div_nonneg
            (mul_nonneg (by norm_num [RHO_ALUMINIUM, CONDUCTOR_BY_LEVEL]) hlen)
            (by norm_num [CONDUCTOR_BY_LEVEL])

theorem estimate_edge_loss_nonneg (g : PowerGridGraph) (e : Edge) (p : ℚ)
    (hlen : 0 ≤ e.length) : 0 ≤ estimate_edge_loss g e p := by
  unfold estimate_edge_loss
  dsimp only
  by_cases hp : p ≤ 0
  · rw [if_pos hp]
  · rw [if_neg hp]
    cases hv : _infer_edge_voltage g e with
    | none =>
      cases hr : _edge_resistance g e <;>
        exact mul_nonneg (abs_nonneg p) hlen
    | some voltage =>
      cases hr : _edge_resistance g e with
      | none => exact mul_nonneg (abs_nonneg p) hlen
      | some resistance =>
        dsimp only
        by_cases hv0 : voltage ≤ 0
        · rw [if_pos hv0]
          exact mul_nonneg (abs_nonneg p) hlen
        · rw [if_neg hv0]
          exact div_nonneg
            (mul_nonneg (sq_nonneg _) (edge_resistance_nonneg g e resistance hr hlen))
            (mul_nonneg (by norm_num) (sq_nonneg voltage))

/-! ## Fuel sufficiency of the Dijkstra loop (C6) -/

theorem dijkstraPotential_cons (adjacency : List (String × List Edge))
    (visited : List String) (cur : String) (hcur : cur ∉ visited) :
    dijkstraPotential adjacency visited =
      (if cur ∈ dkeys adjacency then adjWeight adjacency cur else 0) +
        dijkstraPotential adjacency (cur :: visited) := by
  unfold dijkstraPotential
  have hset : (dkeys adjacency).toFinset \ (cur :: visited).toFinset =
      ((dkeys adjacency).toFinset \ visited.toFinset).erase cur := by
    ext a
    simp only [Finset.mem_sdiff, List.toFinset_cons, Finset.mem_insert,
      Finset.mem_erase, List.mem_toFinset]
    tauto
  rw [hset]
  by_cases hk : cur ∈ dkeys adjacency
  · rw [if_pos hk]
    have hmem : cur ∈ (dkeys adjacency).toFinset \ visited.toFinset := by
      simp [List.mem_toFinset, hk, hcur]
    exact (Finset.add_sum_erase _ _ hmem).symm
  · rw [if_neg hk]
    have hne : ((dkeys adjacency).toFinset \ visited.toFinset).erase cur =
        (dkeys adjacency).toFinset \ visited.toFinset := by
      apply Finset.erase_eq_of_not_mem
      simp [List.mem_toFinset, hk]
    rw [hne, zero_add]

theorem dijkstra_aux_isSome (g : PowerGridGraph)
    (adjacency : List (String × List Edge)) (cands : List String) (power : ℚ) :
    ∀ (fuel : ℕ) (queue : List QEntry) (visited : List String),
    queue.length + dijkstraPotential adjacency visited < fuel →
    (dijkstra_aux g adjacency cands power fuel queue visited).isSome = true := by
  intro fuel
  induction fuel with
  | zero =>
    intro queue visited h
    exact absurd h (Nat.not_lt_zero _)
  | succ fuel ih =>
    intro queue visited h
    cases queue with
    | nil => rfl
    | cons entry heap =>
      obtain ⟨cost, cur, path⟩ := entry
      simp only [dijkstra_aux]
      by_cases hvis : cur ∈ visited
      · rw [if_pos hvis]
        apply ih
        simp only [List.length_cons] at h
        omega
      · rw [if_neg hvis]
        by_cases hcand : cur ∈ cands
        · rw [if_pos hcand]
          rfl
        · rw [if_neg hcand]
          apply ih
          rw [foldl_qInsert_length]
          have hpot := dijkstraPotential_cons adjacency visited cur hvis
          have key : ∀ pl : ℕ, pl ≤ ((dget adjacency cur).getD []).length →
              heap.length + pl + dijkstraPotential adjacency (cur :: visited) <
                fuel := by
            intro pl hpl
            simp only [List.length_cons] at h
            by_cases hk : cur ∈ dkeys adjacency
            · rw [if_pos hk] at hpot
              unfold adjWeight at hpot
              omega
            · rw [if_neg hk] at hpot
              have hdg : dget adjacency cur = none := (dget_eq_none_iff _ _).mpr hk
              rw [hdg] at hpl
              simp only [Option.getD_none, List.length_nil, Nat.le_zero] at hpl
              omega
          exact key _ (List.length_filterMap_le _ _)

/-! ## Correctness of the Dijkstra loop (C6) -/

theorem pushEntry_some (g : PowerGridGraph) (power : ℚ) (visited' : List String)
    (cost : ℚ) (path : List String) (cur : String) (edge : Edge) (q : QEntry)
    (h : pushEntry g power visited' cost path cur edge = some q) :
    nbrOf edge cur ∉ visited' ∧ (g.get_node (nbrOf edge cur)).isSome = true ∧
      q = (cost + estimate_edge_loss g edge power, nbrOf edge cur,
        path ++ [nbrOf edge cur]) := by
  unfold pushEntry at h
  dsimp only at h
  by_cases hnb : nbrOf edge cur ∈ visited'
  · rw [if_pos hnb] at h
    cases h
  · rw [if_neg hnb] at h
    cases hgn : g.get_node (nbrOf edge cur) with
    | none =>
      rw [hgn] at h
      cases h
    | some nd =>
      rw [hgn] at h
      cases h
      exact ⟨hnb, rfl, rfl⟩

theorem pushEntry_of (g : PowerGridGraph) (power : ℚ) (visited' : List String)
    (cost : ℚ) (path : List String) (cur : String) (edge : Edge)
    (hnb : nbrOf edge cur ∉ visited')
    (hex : (g.get_node (nbrOf edge cur)).isSome = true) :
    pushEntry g power visited' cost path cur edge =
      some (cost + estimate_edge_loss g edge power, nbrOf edge cur,
        path ++ [nbrOf edge cur]) := by
  unfold pushEntry
  dsimp only
  rw [if_neg hnb]
  obtain ⟨nd, hnd⟩ := Option.isSome_iff_exists.mp hex
  rw [hnd]

/-- Frontier lemma: any walk from the source either ends on a settled
node within its settled cost, or some queue entry costs no more than the
walk. -/
theorem dijkstra_reach (g : PowerGridGraph) (power : ℚ) (src : String)
    (queue : List QEntry) (visited : List String) (D : String → ℚ)
    (hw : ∀ e : Edge, (∃ k, (k, e) ∈ g.edges) → 0 ≤ estimate_edge_loss g e power)
    (hG2 : ∀ v ∈ visited, ∀ e : Edge, (∃ k, (k, e) ∈ g.edges) →
      (e.from_node_id = v ∨ e.to_node_id = v) →
      (g.get_node (nbrOf e v)).isSome = true →
      ((nbrOf e v ∈ visited ∧ D (nbrOf e v) ≤ D v + estimate_edge_loss g e power) ∨
       (∃ q ∈ queue, q.2.1 = nbrOf e v ∧
         q.1 ≤ D v + estimate_edge_loss g e power)))
    (hSRC : (visited = [] ∧ queue = [(0, src, [src])]) ∨
      (src ∈ visited ∧ D src ≤ 0)) :
    ∀ (m : String) (p : List String) (c : ℚ), RWalk g power src m p c →
      (m ∈ visited ∧ D m ≤ c) ∨ (∃ q ∈ queue, q.1 ≤ c) := by
  intro m p c hwlk
  induction hwlk with
  | base =>
    rcases hSRC with ⟨hv, hq⟩ | ⟨hin, hD⟩
    · right
      refine ⟨(0, src, [src]), ?_, le_refl 0⟩
      rw [hq]
      exact List.mem_cons_self _ _
    · exact Or.inl ⟨hin, hD⟩
  | step hwalk e hmem hinc hb hex ih =>
    rcases ih with ⟨hyv, hDy⟩ | ⟨q, hq, hle⟩
    · rcases hG2 _ hyv e hmem hinc (hb ▸ hex) with ⟨hbv, hDb⟩ | ⟨q, hq, -, hqle⟩
      · left
        constructor
        · rw [hb]
          exact hbv
        · rw [hb]
          exact le_trans hDb (add_le_add_right hDy _)
      · right
        exact ⟨q, hq, le_trans hqle (add_le_add_right hDy _)⟩
    · right
      exact ⟨q, hq, le_trans hle (le_add_of_nonneg_right (hw e hmem))⟩

/-- Full specification of the Dijkstra loop under its invariants: a
completed run returns `none` exactly when no candidate is reachable, and
otherwise a candidate with a valid walk of minimal cost. -/
theorem dijkstra_aux_spec (g : PowerGridGraph) (cands : List String) (power : ℚ)
    (src : String)
    (hw : ∀ e : Edge, (∃ k, (k, e) ∈ g.edges) → 0 ≤ estimate_edge_loss g e power) :
    ∀ (fuel : ℕ) (queue : List QEntry) (visited : List String) (D : String → ℚ)
      (res : ParentSelectionResult),
    dijkstra_aux g (_build_edge_adjacency g) cands power fuel queue visited =
      some res →
    List.Pairwise (fun a b : QEntry => a.1 ≤ b.1) queue →
    (∀ q ∈ queue, RWalk g power src q.2.1 q.2.2 q.1) →
    (∀ v ∈ visited, v ∉ cands) →
    (∀ v ∈ visited, ∀ q ∈ queue, D v ≤ q.1) →
    (∀ v ∈ visited, ∀ e : Edge, (∃ k, (k, e) ∈ g.edges) →
      (e.from_node_id = v ∨ e.to_node_id = v) →
      (g.get_node (nbrOf e v)).isSome = true →
      ((nbrOf e v ∈ visited ∧ D (nbrOf e v) ≤ D v + estimate_edge_loss g e power) ∨
       (∃ q ∈ queue, q.2.1 = nbrOf e v ∧
         q.1 ≤ D v + estimate_edge_loss g e power))) →
    ((visited = [] ∧ queue = [(0, src, [src])]) ∨ (src ∈ visited ∧ D src ≤ 0)) →
    ((res.parent_id = none ∧ res.total_cost = none ∧ res.path = [] ∧
      (∀ z, z ∈ cands → ∀ p c, RWalk g power src z p c → False)) ∨
     (∃ pid cost, res.parent_id = some pid ∧ res.total_cost = some cost ∧
       pid ∈ cands ∧ RWalk g power src pid res.path cost ∧
       (∀ z, z ∈ cands → ∀ p c, RWalk g power src z p c → cost ≤ c))) := by
  intro fuel
  induction fuel with
  | zero =>
    intro queue visited D res h
    simp [dijkstra_aux] at h
  | succ fuel ih =>
    intro queue visited D res h hsort hsound hvc hG3 hG2 hSRC
    cases queue with
    | nil =>
      simp only [dijkstra_aux, Option.some.injEq] at h
      subst h
      left
      refine ⟨rfl, rfl, rfl, ?_⟩
      intro z hz p c hwalk
      rcases dijkstra_reach g power src [] visited D hw hG2 hSRC z p c hwalk with
        ⟨hzv, -⟩ | ⟨q, hq, -⟩
      · exact hvc z hzv hz
      · exact absurd hq (List.not_mem_nil q)
    | cons entry heap =>
      obtain ⟨cost, cur, path⟩ := entry
      simp only [dijkstra_aux] at h
      by_cases hvis : cur ∈ visited
      · rw [if_pos hvis] at h
        refine ih heap visited D res h (List.Pairwise.of_cons hsort)
          (fun q hq => hsound q (List.mem_cons_of_mem _ hq)) hvc
          (fun v hv q hq => hG3 v hv q (List.mem_cons_of_mem _ hq)) ?_ ?_
        · intro v hv e hmem hinc hex
          rcases hG2 v hv e hmem hinc hex with hL | ⟨q, hq, hqn, hqle⟩
          · exact Or.inl hL
          · rcases List.mem_cons.mp hq with he | hm
            · left
              have hcur : nbrOf e v = cur := by
                rw [← hqn, he]
              constructor
              · rw [hcur]
                exact hvis
              · rw [hcur]
                refine le_trans (hG3 cur hvis (cost, cur, path)
                  (List.mem_cons_self _ _)) ?_
                have hq1 : q.1 ≤ D v + estimate_edge_loss g e power := hqle
                rw [he] at hq1
                exact hq1
            · exact Or.inr ⟨q, hm, hqn, hqle⟩
        · rcases hSRC with ⟨hv0, -⟩ | hs
          · rw [hv0] at hvis
            exact absurd hvis (List.not_mem_nil cur)
          · exact Or.inr hs
      · rw [if_neg hvis] at h
        by_cases hcand : cur ∈ cands
        · rw [if_pos hcand] at h
          cases h
          right
          refine ⟨cur, cost, rfl, rfl, hcand, ?_, ?_⟩
          · exact hsound (cost, cur, path) (List.mem_cons_self _ _)
          · intro z hz p c hwalk
            rcases dijkstra_reach g power src ((cost, cur, path) :: heap) visited D
              hw hG2 hSRC z p c hwalk with ⟨hzv, -⟩ | ⟨q, hq, hqc⟩
            · exact absurd hz (hvc z hzv)
            · rcases List.mem_cons.mp hq with he | hm
              · rw [he] at hqc
                exact hqc
              · exact le_trans ((List.pairwise_cons.mp hsort).1 q hm) hqc
        · rw [if_neg hcand] at h
          have hpm : ∀ q : QEntry,
              q ∈ ((dget (_build_edge_adjacency g) cur).getD []).filterMap
                (pushEntry g power (cur :: visited) cost path cur) →
              ∃ e : Edge, e ∈ (dget (_build_edge_adjacency g) cur).getD [] ∧
                nbrOf e cur ∉ cur :: visited ∧
                (g.get_node (nbrOf e cur)).isSome = true ∧
                q = (cost + estimate_edge_loss g e power, nbrOf e cur,
                  path ++ [nbrOf e cur]) := by
            intro q hq
            obtain ⟨e, he, hfe⟩ := List.mem_filterMap.mp hq
            obtain ⟨h1, h2, h3⟩ := pushEntry_some g power _ cost path cur e q hfe
            exact ⟨e, he, h1, h2, h3⟩
          refine ih _ (cur :: visited) (fun x => if x = cur then cost else D x) res h
            ?_ ?_ ?_ ?_ ?_ ?_
          · exact foldl_qInsert_cost_sorted _ _ (List.Pairwise.of_cons hsort)
          · intro q hq
            rcases (foldl_qInsert_mem _ _ _).mp hq with hm | hp
            · exact hsound q (List.mem_cons_of_mem _ hm)
            · obtain ⟨e, he, hnb, hex, hqe⟩ := hpm q hp
              obtain ⟨hgmem, hginc⟩ := (mem_adjacency g cur e).mp he
              subst hqe
              exact RWalk.step (hsound (cost, cur, path) (List.mem_cons_self _ _))
                e hgmem hginc rfl hex
          · intro v hv
            rcases List.mem_cons.mp hv with he | hm
            · rw [he]
              exact hcand
            · exact hvc v hm
          · intro v hv q hq
            show (if v = cur then cost else D v) ≤ q.1
            rcases (foldl_qInsert_mem _ _ _).mp hq with hqm | hqp
            · rcases List.mem_cons.mp hv with he | hm
              · rw [he, if_pos rfl]
                exact (List.pairwise_cons.mp hsort).1 q hqm
              · have hne : v ≠ cur := fun hh => hvis (hh ▸ hm)
                rw [if_neg hne]
                exact hG3 v hm q (List.mem_cons_of_mem _ hqm)
            · obtain ⟨e, he, -, -, hqe⟩ := hpm q hqp
              obtain ⟨hgmem, -⟩ := (mem_adjacency g cur e).mp he
              have hw0 : 0 ≤ estimate_edge_loss g e power := hw e hgmem
              subst hqe
              rcases List.mem_cons.mp hv with he2 | hm
              · rw [he2, if_pos rfl]
                exact le_add_of_nonneg_right hw0
              · have hne : v ≠ cur := fun hh => hvis (hh ▸ hm)
                rw [if_neg hne]
                exact le_trans (hG3 v hm (cost, cur, path) (List.mem_cons_self _ _))
                  (le_add_of_nonneg_right hw0)
          · intro v hv e hmem hinc hex
            rcases List.mem_cons.mp hv with hveq | hvm
            · subst hveq
              by_cases hnb : nbrOf e v ∈ v :: visited
              · left
                refine ⟨hnb, ?_⟩
                show (if nbrOf e v = v then cost else D (nbrOf e v)) ≤
                  (if v = v then cost else D v) + estimate_edge_loss g e power
                rw [if_pos rfl]
                by_cases hbc : nbrOf e v = v
                · rw [if_pos hbc]
                  exact le_add_of_nonneg_right (hw e hmem)
                · rw [if_neg hbc]
                  have hbv : nbrOf e v ∈ visited := by
                    rcases List.mem_cons.mp hnb with hh | hh
                    · exact absurd hh hbc
                    · exact hh
                  exact le_trans (hG3 _ hbv (cost, v, path) (List.mem_cons_self _ _))
                    (le_add_of_nonneg_right (hw e hmem))
              · right
                refine ⟨(cost + estimate_edge_loss g e power, nbrOf e v,
                    path ++ [nbrOf e v]), ?_, rfl, ?_⟩
                · rw [foldl_qInsert_mem]
                  right
                  rw [List.mem_filterMap]
                  refine ⟨e, ?_, pushEntry_of g power _ cost path v e hnb hex⟩
                  exact (mem_adjacency g v e).mpr ⟨hmem, hinc⟩
                · show cost + estimate_edge_loss g e power ≤
                    (if v = v then cost else D v) + estimate_edge_loss g e power
                  rw [if_pos rfl]
            · have hne : v ≠ cur := fun hh => hvis (hh ▸ hvm)
              rcases hG2 v hvm e hmem hinc hex with ⟨hbv, hDb⟩ | ⟨q, hq, hqn, hqle⟩
              · left
                have hbne : nbrOf e v ≠ cur := fun hh => hvis (hh ▸ hbv)
                refine ⟨List.mem_cons_of_mem _ hbv, ?_⟩
                show (if nbrOf e v = cur then cost else D (nbrOf e v)) ≤
                  (if v = cur then cost else D v) + estimate_edge_loss g e power
                rw [if_neg hbne, if_neg hne]
                exact hDb
              · rcases List.mem_cons.mp hq with hqe | hqm
                · left
                  have hbc : nbrOf e v = cur := by
                    rw [← hqn, hqe]
                  constructor
                  · rw [hbc]
                    exact List.mem_cons_self _ _
                  · show (if nbrOf e v = cur then cost else D (nbrOf e v)) ≤
                      (if v = cur then cost else D v) + estimate_edge_loss g e power
                    rw [if_pos hbc, if_neg hne]
                    have hq1 : q.1 ≤ D v + estimate_edge_loss g e power := hqle
                    rw [hqe] at hq1
                    exact hq1
                · right
                  refine ⟨q, ?_, hqn, ?_⟩
                  · rw [foldl_qInsert_mem]
                    exact Or.inl hqm
                  · show q.1 ≤ (if v = cur then cost else D v) +
                      estimate_edge_loss g e power
                    rw [if_neg hne]
                    exact hqle
          · rcases hSRC with ⟨hv0, hq0⟩ | ⟨hsv, hsD⟩
            · injection hq0 with h1 h2
              injection h1 with hc1 h23
              injection h23 with hn1 hp1
              right
              constructor
              · rw [hn1]
                exact List.mem_cons_self _ _
              · show (if src = cur then cost else D src) ≤ 0
                rw [if_pos hn1.symm]
                exact le_of_eq hc1
            · right
              have hne : src ≠ cur := fun hh => hvis (hh ▸ hsv)
              constructor
              · exact List.mem_cons_of_mem _ hsv
              · show (if src = cur then cost else D src) ≤ 0
                rw [if_neg hne]
                exact hsD

/-! ## The heap order is total and antisymmetric (C10) -/

theorem pathLE_total (a : List String) : ∀ b, pathLE a b = true ∨ pathLE b a = true := by
  induction a with
  | nil =>
    intro b
    left
    cases b <;> rfl
  | cons x xs ih =>
    intro b
    cases b with
    | nil =>
      right
      rfl
    | cons y ys =>
      simp only [pathLE]
      rcases lt_trichotomy x y with h | h | h
      · left
        rw [if_pos h]
      · subst h
        have hnx : ¬ x < x := lt_irrefl x
        simp only [if_neg hnx]
        exact ih ys
      · right
        rw [if_pos h]

theorem pathLE_antisymm (a : List String) :
    ∀ b, pathLE a b = true → pathLE b a = true → a = b := by
  induction a with
  | nil =>
    intro b h1 h2
    cases b with
    | nil => rfl
    | cons y ys => simp [pathLE] at h2
  | cons x xs ih =>
    intro b h1 h2
    cases b with
    | nil => simp [pathLE] at h1
    | cons y ys =>
      simp only [pathLE] at h1 h2
      rcases lt_trichotomy x y with h | h | h
      · rw [if_neg (lt_asymm h), if_pos h] at h2
        cases h2
      · subst h
        have hnx : ¬ x < x := lt_irrefl x
        simp only [if_neg hnx] at h1 h2
        rw [ih ys h1 h2]
      · rw [if_neg (lt_asymm h), if_pos h] at h1
        cases h1

theorem pathLE_trans (a : List String) :
    ∀ b c, pathLE a b = true → pathLE b c = true → pathLE a c = true := by
  induction a with
  | nil =>
    intro b c h1 h2
    cases c <;> rfl
  | cons x xs ih =>
    intro b c h1 h2
    cases b with
    | nil => simp [pathLE] at h1
    | cons y ys =>
      cases c with
      | nil => simp [pathLE] at h2
      | cons z zs =>
        simp only [pathLE] at h1 h2 ⊢
        rcases lt_trichotomy x y with hxy | hxy | hxy
        · rcases lt_trichotomy y z with hyz | hyz | hyz
          · rw [if_pos (lt_trans hxy hyz)]
          · subst hyz
            rw [if_pos hxy]
          · rw [if_neg (lt_asymm hyz), if_pos hyz] at h2
            cases h2
        · subst hxy
          have hnx : ¬ x < x := lt_irrefl x
          simp only [if_neg hnx] at h1
          rcases lt_trichotomy x z with hxz | hxz | hxz
          · rw [if_pos hxz]
          · subst hxz
            simp only [if_neg hnx] at h2 ⊢
            exact ih ys zs h1 h2
          · rw [if_neg (lt_asymm hxz), if_pos hxz] at h2
            cases h2
        · rw [if_neg (lt_asymm hxy), if_pos hxy] at h1
          cases h1

theorem entryLE_total (x y : QEntry) : entryLE x y = true ∨ entryLE y x = true := by
  unfold entryLE
  rcases lt_trichotomy x.1 y.1 with h | h | h
  · left
    rw [if_pos h]
  · have hn : ¬ x.1 < y.1 := by
      rw [h]
      exact lt_irrefl _
    have hn' : ¬ y.1 < x.1 := by
      rw [h]
      exact lt_irrefl _
    simp only [if_neg hn, if_neg hn']
    rcases lt_trichotomy x.2.1 y.2.1 with hb | hb | hb
    · left
      rw [if_pos hb]
    · have hnb : ¬ x.2.1 < y.2.1 := by
        rw [hb]
        exact lt_irrefl _
      have hnb' : ¬ y.2.1 < x.2.1 := by
        rw [hb]
        exact lt_irrefl _
      simp only [if_neg hnb, if_neg hnb']
      exact pathLE_total _ _
    · right
      rw [if_pos hb]
  · right
    rw [if_pos h]

theorem entryLE_antisymm (x y : QEntry) (h1 : entryLE x y = true)
    (h2 : entryLE y x = true) : x = y := by
  unfold entryLE at h1 h2
  rcases lt_trichotomy x.1 y.1 with h | h | h
  · rw [if_neg (lt_asymm h), if_pos h] at h2
    cases h2
  · have hn : ¬ x.1 < y.1 := by
      rw [h]
      exact lt_irrefl _
    have hn' : ¬ y.1 < x.1 := by
      rw [h]
      exact lt_irrefl _
    simp only [if_neg hn, if_neg hn'] at h1 h2
    rcases lt_trichotomy x.2.1 y.2.1 with hb | hb | hb
    · rw [if_neg (lt_asymm hb), if_pos hb] at h2
      cases h2
    · have hnb : ¬ x.2.1 < y.2.1 := by
        rw [hb]
        exact lt_irrefl _
      have hnb' : ¬ y.2.1 < x.2.1 := by
        rw [hb]
        exact lt_irrefl _
      simp only [if_neg hnb, if_neg hnb'] at h1 h2
      exact Prod.ext h (Prod.ext hb (pathLE_antisymm _ _ h1 h2))
    · rw [if_neg (lt_asymm hb), if_pos hb] at h1
      cases h1
  · rw [if_neg (lt_asymm h), if_pos h] at h1
    cases h1

theorem entryLE_trans (x y z : QEntry) (h1 : entryLE x y = true)
    (h2 : entryLE y z = true) : entryLE x z = true := by
  unfold entryLE at h1 h2 ⊢
  rcases lt_trichotomy x.1 y.1 with h | h | h
  · rcases lt_trichotomy y.1 z.1 with hy | hy | hy
    · rw [if_pos (lt_trans h hy)]
    · rw [if_pos (by rw [← hy]; exact h)]
    · rw [if_neg (lt_asymm hy), if_pos hy] at h2
      cases h2
  · have hn : ¬ x.1 < y.1 := by
      rw [h]
      exact lt_irrefl _
    have hn' : ¬ y.1 < x.1 := by
      rw [h]
      exact lt_irrefl _
    simp only [if_neg hn, if_neg hn'] at h1
    rcases lt_trichotomy y.1 z.1 with hy | hy | hy
    · rw [if_pos (by rw [h]; exact hy)]
    · have hnz : ¬ x.1 < z.1 := by
        rw [h, hy]
        exact lt_irrefl _
      have hnz' : ¬ z.1 < x.1 := by
        rw [h, hy]
        exact lt_irrefl _
      have hny : ¬ y.1 < z.1 := by
        rw [hy]
        exact lt_irrefl _
      have hny' : ¬ z.1 < y.1 := by
        rw [hy]
        exact lt_irrefl _
      simp only [if_neg hnz, if_neg hnz']
      simp only [if_neg hny, if_neg hny'] at h2
      rcases lt_trichotomy x.2.1 y.2.1 with hb | hb | hb
      · rcases lt_trichotomy y.2.1 z.2.1 with hc | hc | hc
        · rw [if_pos (lt_trans hb hc)]
        · rw [if_pos (by rw [← hc]; exact hb)]
        · rw [if_neg (lt_asymm hc), if_pos hc] at h2
          cases h2
      · have hnb : ¬ x.2.1 < y.2.1 := by
          rw [hb]
          exact lt_irrefl _
        have hnb' : ¬ y.2.1 < x.2.1 := by
          rw [hb]
          exact lt_irrefl _
        simp only [if_neg hnb, if_neg hnb'] at h1
        rcases lt_trichotomy y.2.1 z.2.1 with hc | hc | hc
        · rw [if_pos (by rw [hb]; exact hc)]
        · have hncz : ¬ x.2.1 < z.2.1 := by
            rw [hb, hc]
            exact lt_irrefl _
          have hncz' : ¬ z.2.1 < x.2.1 := by
            rw [hb, hc]
            exact lt_irrefl _
          have hnc : ¬ y.2.1 < z.2.1 := by
            rw [hc]
            exact lt_irrefl _
          have hnc' : ¬ z.2.1 < y.2.1 := by
            rw [hc]
            exact lt_irrefl _
          simp only [if_neg hncz, if_neg hncz']
          simp only [if_neg hnc, if_neg hnc'] at h2
          exact pathLE_trans _ _ _ h1 h2
        · rw [if_neg (lt_asymm hc), if_pos hc] at h2
          cases h2
      · rw [if_neg (lt_asymm hb), if_pos hb] at h1
        cases h1
    · rw [if_neg (lt_asymm hy), if_pos hy] at h2
      cases h2
  · rw [if_neg (lt_asymm h), if_pos h] at h1
    cases h1

theorem qInsert_comm (a b : QEntry) (l : List QEntry) :
    qInsert a (qInsert b l) = qInsert b (qInsert a l) := by
  rcases eq_or_ne a b with hab | hab
  · subst hab
    rfl
  have hF : ∀ u v : QEntry, ¬ entryLE u v = true → entryLE u v = false := by
    intro u v h
    cases hc : entryLE u v
    · rfl
    · exact absurd hc h
  have hNE : ∀ u v : QEntry, u ≠ v → entryLE u v = true → entryLE v u = false := by
    intro u v huv h1
    cases hb2 : entryLE v u
    · rfl
    · exact absurd (entryLE_antisymm u v h1 hb2) huv
  induction l with
  | nil =>
    rcases entryLE_total a b with h1 | h1
    · have h2 := hNE a b hab h1
      simp [qInsert, h1, h2]
    · have h2 := hNE b a (Ne.symm hab) h1
      simp [qInsert, h1, h2]
  | cons x xs ih =>
    by_cases hbx : entryLE b x = true
    · by_cases hax : entryLE a x = true
      · rcases entryLE_total a b with h1 | h1
        · have h2 := hNE a b hab h1
          simp [qInsert, hbx, hax, h1, h2]
        · have h2 := hNE b a (Ne.symm hab) h1
          simp [qInsert, hbx, hax, h1, h2]
      · have h1 : entryLE a b = false := by
          cases hc : entryLE a b
          · rfl
          · exact absurd (entryLE_trans a b x hc hbx) hax
        simp [qInsert, hbx, hF a x hax, h1]
    · by_cases hax : entryLE a x = true
      · have h1 : entryLE b a = false := by
          cases hc : entryLE b a
          · rfl
          · exact absurd (entryLE_trans b a x hc hax) hbx
        simp [qInsert, hF b x hbx, hax, h1]
      · simp [qInsert, hF a x hax, hF b x hbx, ih]

theorem foldl_qInsert_perm (l₁ l₂ : List QEntry) (h : l₁.Perm l₂) :
    ∀ q : List QEntry,
    l₁.foldl (fun acc e => qInsert e acc) q = l₂.foldl (fun acc e => qInsert e acc) q := by
  induction h with
  | nil =>
    intro q
    rfl
  | cons x h ih =>
    intro q
    simp only [List.foldl_cons]
    exact ih _
  | swap x y l =>
    intro q
    simp only [List.foldl_cons]
    rw [qInsert_comm]
  | trans h1 h2 ih1 ih2 =>
    intro q
    rw [ih1, ih2]

/-! ## Graph-lookup congruence under dictionary permutation (C10) -/

theorem dget_perm {α : Type} (m₁ m₂ : List (String × α)) (h : m₁.Perm m₂)
    (hnd : (dkeys m₁).Nodup) (k : String) : dget m₁ k = dget m₂ k := by
  have hnd2 : (dkeys m₂).Nodup := ((h.map Prod.fst).nodup_iff).mp hnd
  cases hdg : dget m₁ k with
  | some v =>
    exact (dget_of_mem_nodup m₂ k v (h.mem_iff.mp (dget_mem _ _ _ hdg)) hnd2).symm
  | none =>
    rw [dget_eq_none_iff] at hdg
    have : k ∉ dkeys m₂ := fun hk => hdg ((h.map Prod.fst).mem_iff.mpr hk)
    exact ((dget_eq_none_iff _ _).mpr this).symm

theorem infer_voltage_congr (g₁ g₂ : PowerGridGraph)
    (hg : ∀ x, g₁.get_node x = g₂.get_node x) (e : Edge) :
    _infer_edge_voltage g₁ e = _infer_edge_voltage g₂ e := by
  unfold _infer_edge_voltage
  simp only [hg]

theorem edge_resistance_congr (g₁ g₂ : PowerGridGraph)
    (hg : ∀ x, g₁.get_node x = g₂.get_node x) (e : Edge) :
    _edge_resistance g₁ e = _edge_resistance g₂ e := by
  unfold _edge_resistance
  rw [infer_voltage_congr g₁ g₂ hg e]

theorem edge_loss_congr (g₁ g₂ : PowerGridGraph)
    (hg : ∀ x, g₁.get_node x = g₂.get_node x) (e : Edge) (p : ℚ) :
    estimate_edge_loss g₁ e p = estimate_edge_loss g₂ e p := by
  unfold estimate_edge_loss
  rw [infer_voltage_congr g₁ g₂ hg e, edge_resistance_congr g₁ g₂ hg e]

/-! ## Closed form of the adjacency lists (C10) -/

theorem adj_step_getD (acc : List (String × List Edge)) (e0 : Edge) (k : String) :
    (dget (dmodify (dsetdefault
        (dmodify (dsetdefault acc e0.from_node_id []) e0.from_node_id
          (fun l => l ++ [e0]))
        e0.to_node_id []) e0.to_node_id (fun l => l ++ [e0])) k).getD [] =
      (dget acc k).getD [] ++
        ((if e0.from_node_id = k then [e0] else []) ++
         (if e0.to_node_id = k then [e0] else [])) := by
  rw [dget_append_entry]
  by_cases hto : k = e0.to_node_id
  · rw [if_pos hto, dget_append_entry]
    by_cases hfrom : e0.to_node_id = e0.from_node_id
    · rw [if_pos hfrom]
      subst hto
      rw [if_pos hfrom.symm, if_pos rfl, hfrom]
      simp [List.append_assoc]
    · rw [if_neg hfrom]
      subst hto
      have h1 : ¬ e0.from_node_id = e0.to_node_id := fun h => hfrom h.symm
      rw [if_neg h1, if_pos rfl]
      simp
  · rw [if_neg hto, dget_append_entry]
    by_cases hfrom : k = e0.from_node_id
    · rw [if_pos hfrom]
      subst hfrom
      have h2 : ¬ e0.to_node_id = e0.from_node_id := fun h => hto h.symm
      rw [if_pos rfl, if_neg h2]
      simp
    · rw [if_neg hfrom]
      have h1 : ¬ e0.from_node_id = k := fun h => hfrom h.symm
      have h2 : ¬ e0.to_node_id = k := fun h => hto h.symm
      rw [if_neg h1, if_neg h2]
      simp

theorem adj_getD_closed (g : PowerGridGraph) (k : String) :
    (dget (_build_edge_adjacency g) k).getD [] =
      (g.edges.map Prod.snd).flatMap (fun e =>
        (if e.from_node_id = k then [e] else []) ++
        (if e.to_node_id = k then [e] else [])) := by
  unfold _build_edge_adjacency
  have main : ∀ (l : List (String × Edge)) (acc : List (String × List Edge)),
      (dget (l.foldl (fun adjacency p =>
          dmodify (dsetdefault
            (dmodify (dsetdefault adjacency p.2.from_node_id []) p.2.from_node_id
              (fun l => l ++ [p.2]))
            p.2.to_node_id []) p.2.to_node_id (fun l => l ++ [p.2])) acc) k).getD [] =
        (dget acc k).getD [] ++ (l.map Prod.snd).flatMap (fun e =>
          (if e.from_node_id = k then [e] else []) ++
          (if e.to_node_id = k then [e] else [])) := by
    intro l
    induction l with
    | nil =>
      intro acc
      simp
    | cons p rest ih =>
      intro acc
      simp only [List.foldl_cons]
      rw [ih, adj_step_getD]
      simp [List.append_assoc]
  rw [main g.edges []]
  simp [dget]

/-! ## Keys of the adjacency as a set of edge endpoints (C10) -/

theorem dkeys_dsetdefault_toFinset {α : Type} (m : List (String × α)) (k : String)
    (v : α) :
    (dkeys (dsetdefault m k v)).toFinset = insert k (dkeys m).toFinset := by
  induction m with
  | nil => simp [dsetdefault, dkeys]
  | cons p rest ih =>
    obtain ⟨k', v'⟩ := p
    simp only [dsetdefault]
    by_cases hk : k = k'
    · rw [if_pos hk]
      subst hk
      simp [dkeys]
    · rw [if_neg hk]
      simp only [dkeys, List.map_cons, List.toFinset_cons] at ih ⊢
      rw [ih]
      exact Finset.Insert.comm _ _ _

theorem adj_keys_step (acc : List (String × List Edge)) (e0 : Edge) :
    (dkeys (dmodify (dsetdefault
        (dmodify (dsetdefault acc e0.from_node_id []) e0.from_node_id
          (fun l => l ++ [e0]))
        e0.to_node_id []) e0.to_node_id (fun l => l ++ [e0]))).toFinset =
      insert e0.to_node_id (insert e0.from_node_id (dkeys acc).toFinset) := by
  rw [dkeys_dmodify, dkeys_dsetdefault_toFinset, dkeys_dmodify,
    dkeys_dsetdefault_toFinset]

theorem adj_keys_closed (g : PowerGridGraph) :
    (dkeys (_build_edge_adjacency g)).toFinset =
      ((g.edges.map Prod.snd).flatMap
        (fun e => [e.from_node_id, e.to_node_id])).toFinset := by
  unfold _build_edge_adjacency
  have main : ∀ (l : List (String × Edge)) (acc : List (String × List Edge)),
      (dkeys (l.foldl (fun adjacency p =>
          dmodify (dsetdefault
            (dmodify (dsetdefault adjacency p.2.from_node_id []) p.2.from_node_id
              (fun l => l ++ [p.2]))
            p.2.to_node_id []) p.2.to_node_id (fun l => l ++ [p.2])) acc)).toFinset =
        (dkeys acc).toFinset ∪ ((l.map Prod.snd).flatMap
          (fun e => [e.from_node_id, e.to_node_id])).toFinset := by
    intro l
    induction l with
    | nil =>
      intro acc
      simp
    | cons p rest ih =>
      intro acc
      simp only [List.foldl_cons]
      rw [ih, adj_keys_step, List.map_cons, List.flatMap_cons, List.toFinset_append]
      ext a
      simp only [Finset.mem_union, Finset.mem_insert, List.mem_toFinset, List.mem_cons,
        List.not_mem_nil, or_false]
      tauto
  rw [main g.edges []]
  simp [dkeys]

/-! ## Order-independence of the Dijkstra loop (C10) -/

theorem adjacency_getD_perm (g₁ g₂ : PowerGridGraph) (he : g₁.edges.Perm g₂.edges)
    (k : String) :
    ((dget (_build_edge_adjacency g₁) k).getD []).Perm
      ((dget (_build_edge_adjacency g₂) k).getD []) := by
  rw [adj_getD_closed, adj_getD_closed]
  exact (he.map Prod.snd).flatMap_right _

theorem dijkstra_fuel_congr (g₁ g₂ : PowerGridGraph) (he : g₁.edges.Perm g₂.edges) :
    dijkstra_fuel (_build_edge_adjacency g₁) = dijkstra_fuel (_build_edge_adjacency g₂) := by
  unfold dijkstra_fuel dijkstraPotential
  have hkeys : (dkeys (_build_edge_adjacency g₁)).toFinset =
      (dkeys (_build_edge_adjacency g₂)).toFinset := by
    rw [adj_keys_closed, adj_keys_closed]
    exact List.toFinset_eq_of_perm _ _ ((he.map Prod.snd).flatMap_right _)
  rw [hkeys]
  congr 1
  apply Finset.sum_congr rfl
  intro k hk
  unfold adjWeight
  rw [(adjacency_getD_perm g₁ g₂ he k).length_eq]

theorem dijkstra_aux_congr (g₁ g₂ : PowerGridGraph)
    (hg : ∀ x, g₁.get_node x = g₂.get_node x)
    (he : g₁.edges.Perm g₂.edges)
    (cands₁ cands₂ : List String) (hc : ∀ x, x ∈ cands₁ ↔ x ∈ cands₂) (power : ℚ) :
    ∀ (fuel : ℕ) (queue : List QEntry) (visited : List String),
    dijkstra_aux g₁ (_build_edge_adjacency g₁) cands₁ power fuel queue visited =
    dijkstra_aux g₂ (_build_edge_adjacency g₂) cands₂ power fuel queue visited := by
  intro fuel
  induction fuel with
  | zero =>
    intro queue visited
    rfl
  | succ fuel ih =>
    intro queue visited
    cases queue with
    | nil => rfl
    | cons entry heap =>
      obtain ⟨cost, cur, path⟩ := entry
      simp only [dijkstra_aux]
      by_cases hvis : cur ∈ visited
      · rw [if_pos hvis, if_pos hvis]
        exact ih heap visited
      · rw [if_neg hvis, if_neg hvis]
        by_cases hcand : cur ∈ cands₁
        · rw [if_pos hcand, if_pos ((hc cur).mp hcand)]
        · rw [if_neg hcand, if_neg (fun hh => hcand ((hc cur).mpr hh))]
          have hpe : pushEntry g₁ power (cur :: visited) cost path cur =
              pushEntry g₂ power (cur :: visited) cost path cur := by
            funext e
            unfold pushEntry
            dsimp only
            rw [hg (nbrOf e cur), edge_loss_congr g₁ g₂ hg e power]
          have hpp : (((dget (_build_edge_adjacency g₁) cur).getD []).filterMap
              (pushEntry g₁ power (cur :: visited) cost path cur)).Perm
              (((dget (_build_edge_adjacency g₂) cur).getD []).filterMap
              (pushEntry g₂ power (cur :: visited) cost path cur)) := by
            rw [hpe]
            exact (adjacency_getD_perm g₁ g₂ he cur).filterMap _
          rw [foldl_qInsert_perm _ _ hpp heap]
          exact ih _ _

/-! ## Claim theorems -/

/-- C1.  Forest acyclicity is a reachable-state invariant: from an empty
logical index, after any completed sequence of the service's public
operations (`hydrate_from_physical`, `change_parent_with_routing`,
`force_change_parent`, `add_node_with_routing`,
`remove_station_and_reattach_children`, `handle_overload`,
`check_system_health`, `retry_unsupplied_routing`), following parent links
from any node terminates and visits no node twice. -/
theorem C1_forest_invariant (s : ServiceState) (h : Reachable s) :
    ∀ x : String, Terminates s.index x ∧
      ∀ i j v, i < j → chainAt s.index x i = some v →
        chainAt s.index x j = some v → False := by
  intro x
  have hWF := reachable_indexWF s h
  exact ⟨hWF.2 x, no_revisit_of_terminates s.index x (hWF.2 x)⟩

/-- Witness for C1, at a state reached by one successful routed attach. -/
theorem C1_forest_invariant_witness :
    Terminates (wState1.index) "c" :=
  (C1_forest_invariant wState1
    (Reachable.change_parent wState0 "c" wResult1 wState1
      (Reachable.init wGraph) (by decide)) "c").1

/-- C3.  Failure atomicity: whenever `change_parent_with_routing` or
`force_change_parent` returns a failure result, the logical forest (the
whole `BPlusIndex`: parent map and child lists) is unchanged. -/
theorem C3_failure_atomicity (s : ServiceState) (c p : String) :
    (∀ r s', change_parent_with_routing s c = some (r, s') → r.success = false →
      s'.index = s.index) ∧
    (∀ r s', force_change_parent s c p = some (r, s') → r.success = false →
      s'.index = s.index) := by
  constructor
  · intro r s' h hfail
    rcases change_parent_success_or_failure s c r s' h with hcase | hcase
    · exact hcase.2
    · rw [hcase] at hfail
      cases hfail
  · intro r s' h hfail
    rcases force_change_success_or_failure s c p r s' h with hcase | hcase
    · exact hcase.2
    · rw [hcase] at hfail
      cases hfail

/-- Witness for C3: a routing attempt on an absent child fails and leaves
the (empty) forest untouched. -/
theorem C3_failure_atomicity_witness :
    (exForceState : ServiceState).index = exForceState.index :=
  (C3_failure_atomicity exForceState "zz" "d").1
    ⟨false, "zz", none, none, none, "child node not found", []⟩ exForceState
    (by decide) (by decide)

/-- C4 counterexample: with `"b"` a descendant of `"a"`,
`set_parent("a", "b")` is *not* rejected — it rewires `"a"` under `"b"`
(creating a cycle), refuting the claim that `set_parent` no-ops here. -/
theorem C4_counterexample :
    BPlusIndex._is_descendant exIdx "a" "b" = true ∧
    BPlusIndex.get_parent exIdx "a" = none ∧
    BPlusIndex.get_parent (BPlusIndex.set_parent exIdx "a" (some "b")) "a" = some "b" := by
  refine ⟨by decide, by decide, by decide⟩

/-- C4 (amended).  `move_subtree` does reject (no-op) an update whose new
parent equals the node or is one of its descendants (as computed by the
index's own `_is_descendant` check); `set_parent`, as its docstring states,
applies the update unconditionally and cycle prevention is the caller's
responsibility. -/
theorem C4_move_subtree_rejects (idx : BPlusIndex) (c q : String)
    (h : q = c ∨ idx._is_descendant c q = true) :
    idx.move_subtree c (some q) = idx := by
  unfold BPlusIndex.move_subtree
  by_cases hcq : some c = some q
  · rw [if_pos hcq]
  · rw [if_neg hcq]
    dsimp only
    rcases h with h | h
    · exact absurd (by rw [h]) hcq
    · rw [if_pos h]

/-- Witness for the amended C4 on the concrete fixture. -/
theorem C4_move_subtree_rejects_witness :
    BPlusIndex.move_subtree exIdx "a" (some "b") = exIdx :=
  C4_move_subtree_rejects exIdx "a" "b" (Or.inr (by decide))

/-- C9 counterexample: with load 100 and `pct = -2`, the facade's
`force_overload` sets capacity `100000` (the divisor is clamped at
`0.001`), not `current_load / (1 + pct) = -100` as claimed. -/
theorem C9_counterexample :
    (backend_force_overload exC9State "t" (-2) []).map
      (fun t => (t.graph.get_node "t").map Node.capacity) =
        some (some (some 100000)) ∧
    (100 : ℚ) / (1 + (-2)) = -100 ∧ (100000 : ℚ) ≠ -100 := by
  refine ⟨by decide, by norm_num, by norm_num⟩

/-- C9 (amended).  For an existing non-consumer node, the backend facade's
`force_overload` sets the node's capacity to
`current_load / max(1 + pct, 0.001)` (with an unset load read as 0) and
then invokes `handle_overload` on that node. -/
theorem C9_force_overload_behaviour (s : ServiceState) (nid : String) (pct : ℚ)
    (node : Node) (order : List String)
    (hn : s.graph.get_node nid = some node)
    (hty : node.node_type ≠ NodeType.CONSUMER_POINT) :
    backend_force_overload s nid pct order =
      handle_overload
        { s with graph := s.graph.mutate_node nid (fun n =>
            { n with capacity := some (loadOr0 node.current_load /
                (if 1 + pct ≤ 1 / 1000 then 1 / 1000 else 1 + pct)) }) }
        nid order := by
  unfold backend_force_overload force_overload
  rw [hn]
  dsimp only
  rw [if_neg hty]

/-- Witness for the amended C9: load 100, `pct = 1/4`, capacity becomes
`100 / (5/4) = 80` and the subsequent overload handling (load `100 > 80`
with no children) leaves the state otherwise unchanged. -/
theorem C9_force_overload_behaviour_witness :
    backend_force_overload exC9State "t" (1 / 4) [] =
      handle_overload
        { exC9State with graph := exC9State.graph.mutate_node "t" (fun n =>
            { n with capacity := some (loadOr0 exTNode.current_load /
                (if 1 + (1 / 4 : ℚ) ≤ 1 / 1000 then 1 / 1000 else 1 + 1 / 4)) }) }
        "t" [] :=
  C9_force_overload_behaviour exC9State "t" (1 / 4) exTNode [] (by decide) (by decide)

/-- **C8** Type compatibility of forced attachment: a successful
`force_change_parent` preserves the invariant that every logical
parent/child pair is type-compatible under `AllowedParentTypes`, and an
incompatible pair yields `Failure("incompatible parent type")` with no
mutation of the state. -/
theorem C8_force_type_compatibility (s : ServiceState) (c p : String)
    (r : ChangeParentResult) (s' : ServiceState)
    (h : force_change_parent s c p = some (r, s')) :
    (r.success = true → ForestTyped s → ForestTyped s') ∧
    (∀ nc np, s.graph.get_node c = some nc → s.graph.get_node p = some np →
      np.node_type ∉ _allowed_parent_types_for nc.node_type →
      r.success = false ∧ r.reason = "incompatible parent type" ∧ s' = s) := by
  unfold force_change_parent at h
  cases hchild : s.graph.get_node c with
  | none =>
    rw [hchild] at h
    dsimp only at h
    cases h
    constructor
    · intro hs
      exact absurd hs Bool.false_ne_true
    · intro nc np hc' hp' hty'
      cases hc'
  | some child =>
    rw [hchild] at h
    dsimp only at h
    cases hnp : s.graph.get_node p with
    | none =>
      rw [hnp] at h
      dsimp only at h
      cases h
      constructor
      · intro hs
        exact absurd hs Bool.false_ne_true
      · intro nc np hc' hp' hty'
        cases hp'
    | some new_parent =>
      rw [hnp] at h
      dsimp only at h
      by_cases hty : new_parent.node_type ∉ _allowed_parent_types_for child.node_type
      · rw [if_pos hty] at h
        cases h
        constructor
        · intro hs
          exact absurd hs Bool.false_ne_true
        · intro nc np hc' hp' hty'
          exact ⟨rfl, rfl, rfl⟩
      · rw [if_neg hty] at h
        by_cases hcap : ¬ _has_capacity_for_child new_parent child = true
        · rw [if_pos hcap] at h
          cases h
          constructor
          · intro hs
            exact absurd hs Bool.false_ne_true
          · intro nc np hc' hp' hty'
            injection hc' with hnc
            injection hp' with hnp2
            rw [← hnc, ← hnp2] at hty'
            exact absurd hty' hty
        · rw [if_neg hcap] at h
          by_cases hop : s.index.get_parent c = some p
          · rw [if_pos hop] at h
            cases h
            constructor
            · intro _ hFT
              exact hFT
            · intro nc np hc' hp' hty'
              injection hc' with hnc
              injection hp' with hnp2
              rw [← hnc, ← hnp2] at hty'
              exact absurd hty' hty
          · rw [if_neg hop] at h
            cases hold : s.index.get_parent c with
            | none =>
              rw [hold] at h
              dsimp only at h
              cases hprop2 : propagate_load_upwards
                  (propagation_fuel (s.index.set_parent c (some p))) p
                  (recompute_node_load_from_children p s.graph
                    (s.index.set_parent c (some p)))
                  (s.index.set_parent c (some p)) with
              | none =>
                rw [hprop2] at h
                cases h
              | some g4 =>
                rw [hprop2] at h
                cases h
                have hsh : ∀ x, (g4.get_node x).map nshape =
                    (s.graph.get_node x).map nshape :=
                  fun x => (nshape_propagate _ _ _ _ _ hprop2 x).trans
                    (nshape_recompute p s.graph _ x)
                constructor
                · intro _ hFT a b hab
                  have hab' : (s.index.set_parent c (some p)).get_parent a = some b := hab
                  rw [BPlusIndex.get_parent_set_parent] at hab'
                  by_cases hac : a = c
                  · rw [if_pos hac] at hab'
                    injection hab' with hbp
                    subst hac
                    subst hbp
                    obtain ⟨nc', hnc', _, htc, _, _⟩ := shape_transport hsh hchild
                    obtain ⟨np', hnp', _, htp, _, _⟩ := shape_transport hsh hnp
                    refine ⟨nc', np', hnc', hnp', ?_⟩
                    rw [htc, htp]
                    exact not_not.mp hty
                  · rw [if_neg hac] at hab'
                    obtain ⟨na, nb, hna, hnb, hmem⟩ := hFT a b hab'
                    obtain ⟨na', hna', _, hta, _, _⟩ := shape_transport hsh hna
                    obtain ⟨nb', hnb', _, htb, _, _⟩ := shape_transport hsh hnb
                    refine ⟨na', nb', hna', hnb', ?_⟩
                    rw [hta, htb]
                    exact hmem
                · intro nc np hc' hp' hty'
                  injection hc' with hnc
                  injection hp' with hnp2
                  rw [← hnc, ← hnp2] at hty'
                  exact absurd hty' hty
            | some op =>
              rw [hold] at h
              dsimp only at h
              cases hprop1 : propagate_load_upwards
                  (propagation_fuel (s.index.set_parent c (some p))) op
                  (recompute_node_load_from_children op s.graph
                    (s.index.set_parent c (some p)))
                  (s.index.set_parent c (some p)) with
              | none =>
                rw [hprop1] at h
                cases h
              | some g2 =>
                rw [hprop1] at h
                dsimp only at h
                cases hprop2 : propagate_load_upwards
                    (propagation_fuel (s.index.set_parent c (some p))) p
                    (recompute_node_load_from_children p g2
                      (s.index.set_parent c (some p)))
                    (s.index.set_parent c (some p)) with
                | none =>
                  rw [hprop2] at h
                  cases h
                | some g4 =>
                  rw [hprop2] at h
                  cases h
                  have hsh : ∀ x, (g4.get_node x).map nshape =
                      (s.graph.get_node x).map nshape :=
                    fun x => ((nshape_propagate _ _ _ _ _ hprop2 x).trans
                      (nshape_recompute p g2 _ x)).trans
                      ((nshape_propagate _ _ _ _ _ hprop1 x).trans
                        (nshape_recompute op s.graph _ x))
                  constructor
                  · intro _ hFT a b hab
                    have hab' : (s.index.set_parent c (some p)).get_parent a = some b :=
                      hab
                    rw [BPlusIndex.get_parent_set_parent] at hab'
                    by_cases hac : a = c
                    · rw [if_pos hac] at hab'
                      injection hab' with hbp
                      subst hac
                      subst hbp
                      obtain ⟨nc', hnc', _, htc, _, _⟩ := shape_transport hsh hchild
                      obtain ⟨np', hnp', _, htp, _, _⟩ := shape_transport hsh hnp
                      refine ⟨nc', np', hnc', hnp', ?_⟩
                      rw [htc, htp]
                      exact not_not.mp hty
                    · rw [if_neg hac] at hab'
                      obtain ⟨na, nb, hna, hnb, hmem⟩ := hFT a b hab'
                      obtain ⟨na', hna', _, hta, _, _⟩ := shape_transport hsh hna
                      obtain ⟨nb', hnb', _, htb, _, _⟩ := shape_transport hsh hnb
                      refine ⟨na', nb', hna', hnb', ?_⟩
                      rw [hta, htb]
                      exact hmem
                  · intro nc np hc' hp' hty'
                    injection hc' with hnc
                    injection hp' with hnp2
                    rw [← hnc, ← hnp2] at hty'
                    exact absurd hty' hty

/-- Witness for C8 at the concrete force-attach run
`force_change_parent wState0 "c" "d" = some (wForceResult, wState1)`. -/
theorem C8_force_type_compatibility_witness :
    (wForceResult.success = true → ForestTyped wState0 → ForestTyped wState1) ∧
    (∀ nc np, wState0.graph.get_node "c" = some nc →
      wState0.graph.get_node "d" = some np →
      np.node_type ∉ _allowed_parent_types_for nc.node_type →
      wForceResult.success = false ∧ wForceResult.reason = "incompatible parent type" ∧
        wState1 = wState0) :=
  C8_force_type_compatibility wState0 "c" "d" wForceResult wState1 (by decide)

/-- **C5** (counterexample to the claim as stated).  Scenario B
(`DS(cap=50, load=45)` receiving `Consumer(load=10)`): the force-attach
fails with "new parent has insufficient capacity" and the state is fully
unchanged — in particular the consumer is **not** added to the unsupplied
set, contrary to the claim.  Moreover, in `change_parent_with_routing` the
capacity check is skipped entirely when the best candidate equals the
current parent: with the same over-full substation already the consumer's
parent, routing reports success even though
`parent.current_load + child.current_load > parent.capacity`. -/
theorem C5_counterexample :
    (force_change_parent exForceState "c" "d" =
        some (⟨false, "c", none, some "d", none,
          "new parent has insufficient capacity", []⟩, exForceState) ∧
      "c" ∉ exForceState.unsupplied_consumers ∧
      exNodeC.node_type = NodeType.CONSUMER_POINT) ∧
    ((change_parent_with_routing exRoutingState "c").map
        (fun t => (t.1.success, t.1.reason, t.2)) =
      some (true, "parent unchanged (best parent is current parent)", exRoutingState)) ∧
    exNodeD.capacity = some 50 ∧
    50 < loadOr0 exNodeD.current_load + loadOr0 exNodeC.current_load :=
  ⟨⟨by decide, by decide, rfl⟩, by decide, rfl, by decide⟩

/-- C5 (amended).  When the insufficient-capacity check is actually
reached — in routing, when the best candidate differs from the current
parent; in force-attach, when the types are compatible — an over-capacity
candidate yields the failure result `"new parent has insufficient
capacity"` with no mutation of graph or index; the routing path
additionally marks a consumer child as unsupplied, while the force path
returns the state entirely unchanged (no unsupplied marking). -/
theorem C5_insufficient_capacity :
    (∀ (s : ServiceState) (c pid : String) (child newp : Node) (cap : ℚ),
      s.graph.get_node c = some child →
      (find_best_parent_for_node s.graph c).parent_id = some pid →
      s.index.get_parent c ≠ some pid →
      s.graph.get_node pid = some newp →
      newp.capacity = some cap →
      cap < loadOr0 newp.current_load + loadOr0 child.current_load →
      ∃ r s', change_parent_with_routing s c = some (r, s') ∧
        r.success = false ∧ r.reason = "new parent has insufficient capacity" ∧
        s'.index = s.index ∧ s'.graph = s.graph ∧
        (child.node_type = NodeType.CONSUMER_POINT → c ∈ s'.unsupplied_consumers)) ∧
    (∀ (s : ServiceState) (c p : String) (child newp : Node) (cap : ℚ),
      s.graph.get_node c = some child →
      s.graph.get_node p = some newp →
      newp.node_type ∈ _allowed_parent_types_for child.node_type →
      newp.capacity = some cap →
      cap < loadOr0 newp.current_load + loadOr0 child.current_load →
      force_change_parent s c p =
        some (⟨false, c, s.index.get_parent c, some p, none,
          "new parent has insufficient capacity", []⟩, s)) := by
  have hcapf : ∀ (newp child : Node) (cap : ℚ), newp.capacity = some cap →
      cap < loadOr0 newp.current_load + loadOr0 child.current_load →
      _has_capacity_for_child newp child = false := by
    intro newp child cap hc hlt
    unfold _has_capacity_for_child
    rw [hc]
    exact decide_eq_false (not_le.mpr hlt)
  constructor
  · intro s c pid child newp cap hchild hps hne hpn hcapn hlt
    refine ⟨⟨false, c, s.index.get_parent c, some pid,
        (find_best_parent_for_node s.graph c).total_cost,
        "new parent has insufficient capacity",
        (find_best_parent_for_node s.graph c).path⟩,
      (if child.node_type = NodeType.CONSUMER_POINT then
        { s with unsupplied_consumers := insert c s.unsupplied_consumers } else s),
      ?_, rfl, rfl, ?_, ?_, ?_⟩
    · unfold change_parent_with_routing
      rw [hchild]
      dsimp only
      rw [hps]
      dsimp only
      rw [if_neg hne, hpn]
      dsimp only
      rw [if_pos (by simp [hcapf newp child cap hcapn hlt])]
    · split <;> rfl
    · split <;> rfl
    · intro hcons
      rw [if_pos hcons]
      exact Finset.mem_insert_self c s.unsupplied_consumers
  · intro s c p child newp cap hchild hpn hty hcapn hlt
    unfold force_change_parent
    rw [hchild]
    dsimp only
    rw [hpn]
    dsimp only
    rw [if_neg (not_not_intro hty),
      if_pos (by simp [hcapf newp child cap hcapn hlt])]

/-- Witness for the amended C5 on Scenario B: routing `"c"` in
`exForceState` reaches the capacity check and fails, marking the consumer
unsupplied; force-attaching `"c"` under `"d"` fails and returns the state
unchanged. -/
theorem C5_insufficient_capacity_witness :
    (∃ r s', change_parent_with_routing exForceState "c" = some (r, s') ∧
      r.success = false ∧ r.reason = "new parent has insufficient capacity" ∧
      s'.index = exForceState.index ∧ s'.graph = exForceState.graph ∧
      (exNodeC.node_type = NodeType.CONSUMER_POINT →
        "c" ∈ s'.unsupplied_consumers)) ∧
    force_change_parent exForceState "c" "d" =
      some (⟨false, "c", exForceState.index.get_parent "c", some "d", none,
        "new parent has insufficient capacity", []⟩, exForceState) :=
  ⟨C5_insufficient_capacity.1 exForceState "c" "d" exNodeC exNodeD 50 (by decide)
      (by decide) (by decide) (by decide) (by decide) (by decide),
    C5_insufficient_capacity.2 exForceState "c" "d" exNodeC exNodeD 50 (by decide)
      (by decide) (by decide) (by decide) (by decide)⟩

/-- **C2** (counterexample to the claim as stated).  The shedding loop
`continue`s over a registered child that is missing from the physical
graph without detaching it: node `"n"` (capacity 10, load 20) whose only
registered child is the graph-less `"ghost"` comes out of
`handle_overload` unchanged — still over capacity and still with one
logical child, so neither disjunct of the claimed post-condition holds.
(`["ghost"]` is the only shuffle order of the one-element child list.) -/
theorem C2_counterexample :
    handle_overload exOverState "n" ["ghost"] = some exOverState ∧
    exOverState.index.get_children "n" = ["ghost"] ∧
    exOverState.graph.get_node "n" = some exOverNode ∧
    exOverNode.capacity = some 10 ∧ exOverNode.current_load = some 20 ∧
    ¬ (20 : ℚ) ≤ 10 :=
  ⟨by decide, by decide, by decide, rfl, rfl, by decide⟩

/-- C2 (amended).  For a node with numeric capacity and load whose
registered children each carry it as their logical parent (with no
duplicates), after `handle_overload` returns — for any shuffle `order` of
the child list — either the node's recomputed load is within capacity, or
every still-registered child is absent from the physical graph
(irreducible overload, graph-less children being skipped undetached). -/
theorem C2_overload_postcondition (s s' : ServiceState) (nid : String)
    (order : List String) (node : Node) (cap load : ℚ)
    (hnode : s.graph.get_node nid = some node)
    (hcap : node.capacity = some cap)
    (hload : node.current_load = some load)
    (hperm : order.Perm (s.index.get_children nid))
    (hcoh : ∀ x ∈ s.index.get_children nid, s.index.get_parent x = some nid)
    (hnd : (s.index.get_children nid).Nodup)
    (h : handle_overload s nid order = some s') :
    (∃ node' load', s'.graph.get_node nid = some node' ∧ node'.capacity = some cap ∧
      node'.current_load = some load' ∧ load' ≤ cap) ∨
    (∀ x ∈ s'.index.get_children nid, s'.graph.get_node x = none) := by
  unfold handle_overload at h
  rw [hnode] at h
  dsimp only at h
  rw [hcap, hload] at h
  dsimp only at h
  by_cases hle : load ≤ cap
  · rw [if_pos hle] at h
    cases h
    exact Or.inl ⟨node, load, hnode, hcap, hload, hle⟩
  · rw [if_neg hle] at h
    exact shed_children_post nid order s s' node cap h hnode hcap
      (by rw [hload]; rfl) (fun x hx => Or.inl (hperm.mem_iff.mpr hx)) hcoh hnd

/-- Witness for the amended C2 on the ghost-child fixture: the run
completes and lands in the second disjunct (every remaining registered
child is graph-less). -/
theorem C2_overload_postcondition_witness :
    (∃ node' load', exOverState.graph.get_node "n" = some node' ∧
      node'.capacity = some 10 ∧ node'.current_load = some load' ∧ load' ≤ 10) ∨
    (∀ x ∈ exOverState.index.get_children "n",
      exOverState.graph.get_node x = none) :=
  C2_overload_postcondition exOverState exOverState "n" ["ghost"] exOverNode 10 20
    (by decide) rfl rfl (by decide) (by decide) (by decide) (by decide)

/-- **C7** (counterexample to the claim as stated).  The recovery sweep is
not idempotent: from `exS7` (substation `"d"` with stale stored load 45
and two routable parentless consumers) the first sweep rejects `"x"`
against the stale load and marks it unsupplied, but also attaches `"y"`
and recomputes `"d"`'s load down to 3; the second sweep therefore attaches
`"x"` and empties the unsupplied set — the two sweeps return different
unsupplied sets with no intervening topology or load change. -/
theorem C7_counterexample :
    retry_unsupplied_routing exS7 = some exS7a ∧
    retry_unsupplied_routing exS7a = some exS7b ∧
    exS7a.unsupplied_consumers ≠ exS7b.unsupplied_consumers :=
  ⟨exS7_retry1, exS7_retry2, by decide⟩

/-- C7 (amended).  The sweep is monotone instead: with consistent node
keys, running `retry_unsupplied_routing` twice in a row with no
intervening change never grows the unsupplied set — the set after the
second sweep is contained in the set after the first. -/
theorem C7_retry_monotone (s s1 s2 : ServiceState)
    (hnd : (dkeys s.graph.nodes).Nodup)
    (hid : ∀ p ∈ s.graph.nodes, p.2.id = p.1)
    (h1 : retry_unsupplied_routing s = some s1)
    (h2 : retry_unsupplied_routing s1 = some s2) :
    s2.unsupplied_consumers ⊆ s1.unsupplied_consumers := by
  unfold retry_unsupplied_routing at h1 h2
  obtain ⟨hsh1, hkeys1⟩ := retry_loop_shape _ s s1 h1
  have hnd1 : (dkeys s1.graph.nodes).Nodup := by
    rw [hkeys1]
    exact hnd
  have hid1 : ∀ p ∈ s1.graph.nodes, p.2.id = p.1 :=
    id_consistent_transport hsh1 hkeys1 hnd hid
  obtain ⟨hW, hC⟩ := orphan_worklist_facts s hnd hid
  obtain ⟨hW1, -⟩ := orphan_worklist_facts s1 hnd1 hid1
  have hA : ∀ x nx, s1.graph.get_node x = some nx →
      nx.node_type = NodeType.CONSUMER_POINT → s1.index.get_parent x = none →
      x ∈ s1.unsupplied_consumers := by
    refine retry_loop_orphans_covered _ s s1 h1 ?_ ?_
    · exact fun m hm => (hW m hm).imp (fun node hn => ⟨hn.1, hn.2.1⟩)
    · intro x nx hx hty hpar
      exact Or.inr (hC x nx hx hty hpar)
  refine retry_loop_unsupplied_mono _ s1 s2 s1.unsupplied_consumers h2 ?_ ?_ ?_
  · exact fun m hm => (hW1 m hm).imp (fun node hn => ⟨hn.1, hn.2.1⟩)
  · intro m hm hcons
    obtain ⟨node, hget, htyeq, hpar⟩ := hW1 m hm
    exact hA m.id node hget (htyeq.trans hcons) hpar
  · exact Finset.Subset.refl _

/-- Witness for the amended C7 on the stale-load fixture: the second
sweep's unsupplied set (empty) is contained in the first's (`{"x"}`). -/
theorem C7_retry_monotone_witness :
    exS7b.unsupplied_consumers ⊆ exS7a.unsupplied_consumers :=
  C7_retry_monotone exS7 exS7a exS7b (by decide) (by decide) exS7_retry1 exS7_retry2

/-- **C6** Parent-selection output (edge lengths are non-negative per the
data model): `find_best_parent_for_node` returns `parent_id = none`
exactly when the child is missing, or its type accepts no parent, or no
allowed-type candidate node is reachable from the child over the
undirected physical graph (walks `RWalk` costed by `estimate_edge_loss`
at power `loadOr1 child.current_load`); otherwise it returns a reachable
allowed-type candidate together with a minimal accumulated cost and a
node path from the child realising that cost. -/
theorem C6_parent_selection (g : PowerGridGraph) (child_id : String)
    (hlen : ∀ ke ∈ g.edges, 0 ≤ ke.2.length) :
    (g.get_node child_id = none →
      find_best_parent_for_node g child_id = ⟨none, none, []⟩) ∧
    (∀ child, g.get_node child_id = some child →
      _allowed_parent_types_for child.node_type = [] →
      find_best_parent_for_node g child_id = ⟨none, none, []⟩) ∧
    (∀ child, g.get_node child_id = some child →
      (((find_best_parent_for_node g child_id).parent_id = none ↔
        ¬ ∃ z p c, z ∈ (g.nodes.filter (fun q => decide (q.1 ≠ child_id) &&
            decide (q.2.node_type ∈ _allowed_parent_types_for child.node_type))).map
            Prod.fst ∧
          RWalk g (loadOr1 child.current_load) child_id z p c) ∧
       (∀ pid, (find_best_parent_for_node g child_id).parent_id = some pid →
         pid ∈ (g.nodes.filter (fun q => decide (q.1 ≠ child_id) &&
             decide (q.2.node_type ∈ _allowed_parent_types_for child.node_type))).map
             Prod.fst ∧
         ∃ cost, (find_best_parent_for_node g child_id).total_cost = some cost ∧
           RWalk g (loadOr1 child.current_load) child_id pid
             (find_best_parent_for_node g child_id).path cost ∧
           ∀ z p c, z ∈ (g.nodes.filter (fun q => decide (q.1 ≠ child_id) &&
               decide (q.2.node_type ∈ _allowed_parent_types_for child.node_type))).map
               Prod.fst →
             RWalk g (loadOr1 child.current_load) child_id z p c → cost ≤ c))) := by
  refine ⟨?_, ?_, ?_⟩
  · intro h
    unfold find_best_parent_for_node
    rw [h]
  · intro child h hall
    unfold find_best_parent_for_node
    rw [h]
    dsimp only
    rw [if_pos hall]
  · intro child hchild
    have hwght : ∀ e : Edge, (∃ k, (k, e) ∈ g.edges) →
        0 ≤ estimate_edge_loss g e (loadOr1 child.current_load) := by
      rintro e ⟨k, hk⟩
      exact estimate_edge_loss_nonneg g e _ (hlen (k, e) hk)
    unfold find_best_parent_for_node
    rw [hchild]
    dsimp only
    by_cases hall : _allowed_parent_types_for child.node_type = []
    · rw [if_pos hall]
      constructor
      · constructor
        · intro _ hex
          rcases hex with ⟨z, p, c, hz, -⟩
          obtain ⟨q, hq, -⟩ := List.mem_map.mp hz
          have hpred := (List.mem_filter.mp hq).2
          rw [Bool.and_eq_true, decide_eq_true_iff, decide_eq_true_iff, hall] at hpred
          exact absurd hpred.2 (List.not_mem_nil _)
        · intro _
          rfl
      · intro pid hpid
        cases hpid
    · rw [if_neg hall]
      by_cases hcands : (g.nodes.filter (fun q => decide (q.1 ≠ child_id) &&
          decide (q.2.node_type ∈ _allowed_parent_types_for child.node_type))).map
          Prod.fst = []
      · rw [if_pos hcands]
        constructor
        · constructor
          · intro _ hex
            rcases hex with ⟨z, p, c, hz, -⟩
            rw [hcands] at hz
            exact absurd hz (List.not_mem_nil z)
          · intro _
            rfl
        · intro pid hpid
          cases hpid
      · rw [if_neg hcands]
        obtain ⟨res, hres⟩ := Option.isSome_iff_exists.mp
          (dijkstra_aux_isSome g (_build_edge_adjacency g)
            ((g.nodes.filter (fun q => decide (q.1 ≠ child_id) &&
              decide (q.2.node_type ∈ _allowed_parent_types_for child.node_type))).map
              Prod.fst)
            (loadOr1 child.current_load) (dijkstra_fuel (_build_edge_adjacency g))
            [(0, child_id, [child_id])] [] (by
              simp only [List.length_cons, List.length_nil]
              unfold dijkstra_fuel
              omega))
        rw [hres]
        simp only [Option.getD_some]
        have hspec := dijkstra_aux_spec g
          ((g.nodes.filter (fun q => decide (q.1 ≠ child_id) &&
            decide (q.2.node_type ∈ _allowed_parent_types_for child.node_type))).map
            Prod.fst)
          (loadOr1 child.current_load) child_id hwght
          (dijkstra_fuel (_build_edge_adjacency g)) [(0, child_id, [child_id])] []
          (fun _ => 0) res hres
          (by simp)
          (by
            intro q hq
            rw [List.mem_singleton] at hq
            subst hq
            exact RWalk.base)
          (by
            intro v hv
            exact absurd hv (List.not_mem_nil v))
          (by
            intro v hv
            exact absurd hv (List.not_mem_nil v))
          (by
            intro v hv
            exact absurd hv (List.not_mem_nil v))
          (Or.inl ⟨rfl, rfl⟩)
        rcases hspec with ⟨hp1, -, -, hnone⟩ | ⟨pid, cost, hp1, hp2, hcand, hwalk, hmin⟩
        · constructor
          · constructor
            · intro _ hex
              rcases hex with ⟨z, p, c, hz, hwz⟩
              exact hnone z hz p c hwz
            · intro _
              exact hp1
          · intro pid hpid
            rw [hp1] at hpid
            cases hpid
        · constructor
          · constructor
            · intro h0
              rw [hp1] at h0
              cases h0
            · intro habs
              exact absurd ⟨pid, res.path, cost, hcand, hwalk⟩ habs
          · intro pid' hpid'
            rw [hp1] at hpid'
            injection hpid' with hpe
            subst hpe
            exact ⟨hcand, cost, hp2, hwalk, fun z p c hz hwz => hmin z hz p c hwz⟩

/-- Witness for C6 on the two-node fixture: `"d"` is returned and is a
reachable allowed-type candidate of minimal accumulated cost. -/
theorem C6_parent_selection_witness :
    "d" ∈ (wGraph.nodes.filter (fun q => decide (q.1 ≠ "c") &&
        decide (q.2.node_type ∈ _allowed_parent_types_for wNodeC.node_type))).map
        Prod.fst ∧
    ∃ cost, (find_best_parent_for_node wGraph "c").total_cost = some cost ∧
      RWalk wGraph (loadOr1 wNodeC.current_load) "c" "d"
        (find_best_parent_for_node wGraph "c").path cost ∧
      ∀ z p c, z ∈ (wGraph.nodes.filter (fun q => decide (q.1 ≠ "c") &&
          decide (q.2.node_type ∈ _allowed_parent_types_for wNodeC.node_type))).map
          Prod.fst →
        RWalk wGraph (loadOr1 wNodeC.current_load) "c" z p c → cost ≤ c :=
  ((C6_parent_selection wGraph "c" (by decide)).2.2 wNodeC (by decide)).2 "d" (by decide)

/-- **C10** Parent selection is deterministic: its result does not depend
on the insertion order of the node and edge dictionaries.  For graphs
whose dictionaries are permutations of each other (with duplicate-free
node keys), `find_best_parent_for_node` returns identical results — the
priority-queue entries are compared as (cost, node id, path), a total
antisymmetric order, so ties are broken by content and never by the
unspecified push order. -/
theorem C10_selection_deterministic (g₁ g₂ : PowerGridGraph) (child_id : String)
    (hnd : (dkeys g₁.nodes).Nodup)
    (hn : g₁.nodes.Perm g₂.nodes)
    (he : g₁.edges.Perm g₂.edges) :
    find_best_parent_for_node g₁ child_id = find_best_parent_for_node g₂ child_id := by
  have hg : ∀ x, g₁.get_node x = g₂.get_node x :=
    fun x => dget_perm g₁.nodes g₂.nodes hn hnd x
  unfold find_best_parent_for_node
  rw [hg child_id]
  cases hch : g₂.get_node child_id with
  | none => rfl
  | some child =>
    dsimp only
    by_cases hall : _allowed_parent_types_for child.node_type = []
    · rw [if_pos hall, if_pos hall]
    · rw [if_neg hall, if_neg hall]
      have hcperm : ((g₁.nodes.filter (fun q => decide (q.1 ≠ child_id) &&
          decide (q.2.node_type ∈ _allowed_parent_types_for child.node_type))).map
          Prod.fst).Perm
          ((g₂.nodes.filter (fun q => decide (q.1 ≠ child_id) &&
          decide (q.2.node_type ∈ _allowed_parent_types_for child.node_type))).map
          Prod.fst) := (hn.filter _).map _
      by_cases hemp : (g₁.nodes.filter (fun q => decide (q.1 ≠ child_id) &&
          decide (q.2.node_type ∈ _allowed_parent_types_for child.node_type))).map
          Prod.fst = []
      · have hemp2 : (g₂.nodes.filter (fun q => decide (q.1 ≠ child_id) &&
            decide (q.2.node_type ∈ _allowed_parent_types_for child.node_type))).map
            Prod.fst = [] := by
          have hl := hcperm.length_eq
          rw [hemp] at hl
          exact List.length_eq_zero.mp hl.symm
        rw [if_pos hemp, if_pos hemp2]
      · have hemp2 : ¬ (g₂.nodes.filter (fun q => decide (q.1 ≠ child_id) &&
            decide (q.2.node_type ∈ _allowed_parent_types_for child.node_type))).map
            Prod.fst = [] := by
          intro hh
          apply hemp
          have hl := hcperm.length_eq
          rw [hh] at hl
          exact List.length_eq_zero.mp hl
        rw [if_neg hemp, if_neg hemp2]
        rw [dijkstra_fuel_congr g₁ g₂ he]
        rw [dijkstra_aux_congr g₁ g₂ hg he
          ((g₁.nodes.filter (fun q => decide (q.1 ≠ child_id) &&
            decide (q.2.node_type ∈ _allowed_parent_types_for child.node_type))).map
            Prod.fst)
          ((g₂.nodes.filter (fun q => decide (q.1 ≠ child_id) &&
            decide (q.2.node_type ∈ _allowed_parent_types_for child.node_type))).map
            Prod.fst)
          (fun x => hcperm.mem_iff) (loadOr1 child.current_load)]

/-- Witness for C10: reordering the node dictionary of the two-node
fixture leaves the selection result unchanged. -/
theorem C10_selection_deterministic_witness :
    find_best_parent_for_node wGraph "c" = find_best_parent_for_node pGraph "c" :=
  C10_selection_deterministic wGraph pGraph "c" (by decide) (by decide) (by decide)

end EcoGrid
